import Mathlib

/-!
Verification of the sparse Merkle Patricia Trie engine of this repository
(crates `simple-trie`, `ref-mpt`, `simple-sparse-state`).

The Rust sources are shallowly embedded: nibble paths become `List Nat`
(one nibble per entry), byte strings become `List Nat` (one byte per entry),
the three-variant node model becomes an inductive type, and every Rust
function that can panic (unresolved-digest access, out-of-bounds indexing,
the unchecked `u16` subtraction in `one_child_left`, RLP `expect`s) is
embedded as an `Except`-valued function whose error constructor records the
panic site.  Functions whose Rust recursion consumes the query path are
embedded with an explicit structural fuel argument (seeded with more fuel
than the recursion depth can ever reach, so the fuel error is unreachable
from the public wrappers); this keeps every definition kernel-reducible so
concrete executions can be checked by `decide`/`rfl`.

The crates `simple-trie` and `ref-mpt` are duplicates of each other except
for `BranchNodeChildrenArray::one_child_left` (the `simple-trie` copy omits
the `flags == 0` guard); both variants are embedded.
-/

namespace Mpt

/-- A byte, 0..255. -/
abbrev Byte := Nat

/-- A nibble, 0..15. -/
abbrev Nibble := Nat

/-- `alloy_trie::Nibbles`: a nibble sequence, one nibble per entry. -/
abbrev Nibbles := List Nibble

/-- `alloy_primitives::Bytes`: a byte string. -/
abbrev Bytes := List Byte

/-- `alloy_primitives::B256`: a 32-byte word, kept as its byte sequence. -/
abbrev B256 := List Byte

/-- `Nibbles::unpack`: big-endian nibble order, high nibble first. -/
def unpack (bytes : Bytes) : Nibbles :=
  bytes.foldr (fun b acc => b / 16 :: b % 16 :: acc) []

/-- `Nibbles::common_prefix_length`. -/
def commonPrefixLength : Nibbles → Nibbles → Nat
  | a :: as, b :: bs => if a = b then commonPrefixLength as bs + 1 else 0
  | _, _ => 0

/-- The runtime failures of the Rust code (one constructor per
`panic!`/`expect`/unchecked-operation site), plus fuel exhaustion for the
embedded recursions. -/
inductive Err where
  /-- `panic!("MPT: Unresolved node access")`. -/
  | unresolved
  /-- Out-of-bounds nibble indexing (`path.at(i)` / `path[i]` with `i ≥ len`). -/
  | oob
  /-- The unchecked `self.flags - 1` in the `simple-trie` copy of
  `one_child_left` when `flags == 0`: a `u16` subtraction overflow
  (debug-mode panic; in release mode it wraps, making the condition true,
  and `trailing_zeros` of 0 then indexes `children[16]` out of bounds). -/
  | underflow
  /-- An `alloy_rlp` decode error, surfaced through
  `expect("MPT: Failed to decode trie node")` or returned as `Err`. -/
  | decodeFail
  /-- `expect("MPT: Empty trie node")` / `expect("MPT: Unable to decode
  branch child node.")`: a blob decoded to the empty node where a node was
  required. -/
  | emptyNode
  /-- Fuel exhaustion of an embedded recursion (unreachable from the public
  wrappers, which seed more fuel than the recursion can consume; the Rust
  `reveal` recursion is genuinely unbounded on adversarial maps). -/
  | fuel
  /-- `unwrap()` failure when decoding an account or storage value in the
  state layer. -/
  | stateDecode
deriving DecidableEq, Repr

mutual

/-- The node model of `nodes.rs`: `TrieNode` with variants `Leaf`, `Branch`
and `Digest`, each carrying an optional cached hash. -/
inductive TrieNode where
  /-- `LeafNode { path, value, hash }`. -/
  | leaf (path : Nibbles) (value : Bytes) (hash : Option B256)
  /-- `BranchNode { children, path, hash }`. -/
  | branch (path : Nibbles) (children : Slots) (hash : Option B256)
  /-- `DigestNode { path, value, hash }`. -/
  | digest (path : Nibbles) (value : B256) (hash : Option B256)

/-- The 16-slot child table of `children.rs`
(`[Option<Box<TrieNode>>; 16]`), as a list of slots with the `Option`
fused into the two cons constructors (`consE` = empty slot, `consF` = full
slot) so that recursion over the tree stays structural. -/
inductive Slots where
  | nil
  | consE (tl : Slots)
  | consF (hd : TrieNode) (tl : Slots)

end

namespace Slots

/-- Number of slots. -/
def size : Slots → Nat
  | .nil => 0
  | .consE tl => tl.size + 1
  | .consF _ tl => tl.size + 1

/-- An all-empty table of `n` slots (`BranchNodeChildrenArray::new` is
`empties 16`). -/
def empties : Nat → Slots
  | 0 => .nil
  | n + 1 => .consE (empties n)

/-- `BranchNodeChildrenArray::get` / `get_mut`. -/
def get : Slots → Nat → Option TrieNode
  | .nil, _ => none
  | .consE _, 0 => none
  | .consF t _, 0 => some t
  | .consE tl, n + 1 => tl.get n
  | .consF _ tl, n + 1 => tl.get n

/-- `BranchNodeChildrenArray::insert`: store a node at slot `i`. -/
def setF : Slots → Nat → TrieNode → Slots
  | .nil, _, _ => .nil
  | .consE tl, 0, t => .consF t tl
  | .consF _ tl, 0, t => .consF t tl
  | .consE tl, n + 1, t => .consE (tl.setF n t)
  | .consF h tl, n + 1, t => .consF h (tl.setF n t)

/-- `BranchNodeChildrenArray::remove`: empty slot `i`. -/
def setE : Slots → Nat → Slots
  | .nil, _ => .nil
  | .consE tl, 0 => .consE tl
  | .consF _ tl, 0 => .consE tl
  | .consE tl, n + 1 => .consE (tl.setE n)
  | .consF h tl, n + 1 => .consF h (tl.setE n)

/-- The `flags: u16` presence bitmap the Rust struct maintains alongside
the array (bit `i` set iff slot `i` is occupied), computed from the array
it is kept in sync with by every operation of `children.rs`. -/
def flags : Slots → Nat
  | .nil => 0
  | .consE tl => 2 * tl.flags
  | .consF _ tl => 2 * tl.flags + 1

/-- Build a slot table from a list of optional nodes (embedding helper for
array literals). -/
def ofList : List (Option TrieNode) → Slots
  | [] => .nil
  | none :: rest => .consE (ofList rest)
  | some t :: rest => .consF t (ofList rest)

end Slots

/-- `BranchNodeChildrenArray::is_empty`: `flags == 0`. -/
def chIsEmpty (ch : Slots) : Bool := ch.flags = 0

/-- Position of the lowest set bit, with an explicit bit budget
(structural helper). -/
def trailZerosAux : Nat → Nat → Nat
  | 0, _ => 0
  | k + 1, n => if n % 2 = 1 then 0 else trailZerosAux k (n / 2) + 1

/-- `u16::trailing_zeros`, restricted to 16-bit values (returns 16 on 0). -/
def trailZeros (n : Nat) : Nat := trailZerosAux 16 n

/-- The `simple-trie` copy of `one_child_left`: it evaluates
`flags & (flags - 1)` without first checking `flags != 0`, so an empty
branch underflows the `u16` subtraction (a panic in debug builds; in
release builds the subtraction wraps to `0xffff`, the test succeeds and
`children[trailing_zeros 0] = children[16]` is read out of bounds).  The
underflow is embedded as `Err.underflow`. -/
def oneChildLeftU (ch : Slots) : Except Err (Option (Nat × TrieNode)) :=
  let flags := ch.flags
  if flags = 0 then .error .underflow
  else if flags &&& (flags - 1) = 0 then
    match ch.get (trailZeros flags) with
    | some t => .ok (some (trailZeros flags, t))
    | none => .error .oob
  else .ok none

/-- The `ref-mpt` copy of `one_child_left`, with the `flags == 0` guard
(an inconsistent bitmap would hit the
`expect("MPT: Inconsistent branch children flags")`, embedded as
`Err.oob`). -/
def oneChildLeftG (ch : Slots) : Except Err (Option (Nat × TrieNode)) :=
  let flags := ch.flags
  if flags = 0 ∨ flags &&& (flags - 1) ≠ 0 then .ok none
  else
    match ch.get (trailZeros flags) with
    | some t => .ok (some (trailZeros flags, t))
    | none => .error .oob

/-- `BranchNode::new` of `insert.rs`: a fresh branch with two children
(`child1` inserted first, then `child2`). -/
def branchNew (path : Nibbles) (i1 : Nat) (c1 : TrieNode) (i2 : Nat)
    (c2 : TrieNode) : TrieNode :=
  .branch path (((Slots.empties 16).setF i1 c1).setF i2 c2) none

/-- `TrieNode::get` of `get.rs` (dispatching to `LeafNode::get`,
`BranchNode::get`, `DigestNode::get`), with structural fuel.  `Branch`
indexes `path[common_prefix_len]`, which panics when the query path ends
exactly at the branch; `Digest` panics (`MPT: Unresolved node access`)
whenever the query path covers its whole extension prefix. -/
def getNodeF : Nat → TrieNode → Nibbles → Except Err (Option Bytes)
  | 0, _, _ => .error .fuel
  | _ + 1, .leaf lp v _, path => .ok (if lp = path then some v else none)
  | fuel + 1, .branch bp ch _, path =>
    let cpl := commonPrefixLength bp path
    if cpl = bp.length then
      if h : cpl < path.length then
        match ch.get (path.get ⟨cpl, h⟩) with
        | some child => getNodeF fuel child (path.drop (cpl + 1))
        | none => .ok none
      else .error .oob
    else .ok none
  | _ + 1, .digest dp _ _, path =>
    if commonPrefixLength path dp < dp.length then .ok none
    else .error .unresolved

/-- `TrieNode::get` (fuel seeded above the recursion depth). -/
def getNode (t : TrieNode) (path : Nibbles) : Except Err (Option Bytes) :=
  getNodeF (path.length + 1) t path

/-- `TrieNode::insert` of `insert.rs` (with `BranchNode::insert` inlined in
the `Branch` arm), with structural fuel.  `self.clear_cache()` at the entry
is reflected by every result carrying `hash := none` at its root. -/
def insertNodeF : Nat → TrieNode → Nibbles → Bytes → Except Err TrieNode
  | 0, _, _, _ => .error .fuel
  | _ + 1, .leaf lp lv _, path, value =>
    if path = lp then .ok (.leaf lp value none)
    else
      let cpl := commonPrefixLength lp path
      if h1 : cpl < lp.length then
        if h2 : cpl < path.length then
          .ok (branchNew (path.take cpl)
            (lp.get ⟨cpl, h1⟩) (.leaf (lp.drop (cpl + 1)) lv none)
            (path.get ⟨cpl, h2⟩) (.leaf (path.drop (cpl + 1)) value none))
        else .error .oob
      else .error .oob
  | fuel + 1, .branch bp ch _, path, value =>
    let cpl := commonPrefixLength bp path
    if cpl = bp.length then
      if h : cpl < path.length then
        let idx := path.get ⟨cpl, h⟩
        match ch.get idx with
        | some child => do
          let child' ← insertNodeF fuel child (path.drop (cpl + 1)) value
          .ok (.branch bp (ch.setF idx child') none)
        | none =>
          .ok (.branch bp
            (ch.setF idx (.leaf (path.drop (cpl + 1)) value none)) none)
      else .error .oob
    else
      if h1 : cpl < bp.length then
        if h2 : cpl < path.length then
          .ok (branchNew (path.take cpl)
            (bp.get ⟨cpl, h1⟩) (.branch (bp.drop (cpl + 1)) ch none)
            (path.get ⟨cpl, h2⟩) (.leaf (path.drop (cpl + 1)) value none))
        else .error .oob
      else .error .oob
  | _ + 1, .digest dp dv _, path, value =>
    let cpl := commonPrefixLength path dp
    if h1 : cpl < dp.length then
      if h2 : cpl < path.length then
        .ok (branchNew (path.take cpl)
          (dp.get ⟨cpl, h1⟩) (.digest (dp.drop (cpl + 1)) dv none)
          (path.get ⟨cpl, h2⟩) (.leaf (path.drop (cpl + 1)) value none))
      else .error .oob
    else .error .unresolved

/-- `TrieNode::insert` (fuel seeded above the recursion depth). -/
def insertNode (t : TrieNode) (path : Nibbles) (value : Bytes) :
    Except Err TrieNode :=
  insertNodeF (path.length + 1) t path value

/-- `TrieNode::remove` of `remove.rs` (`simple-trie` copy, using the
unguarded `one_child_left`), with `BranchNode::remove` inlined in the
`Branch` arm and structural fuel.  `self.clear_cache()` at the entry is
reflected by every result carrying `hash := none` at its root; the
single-remaining-child collapse runs after the child update exactly as in
the source. -/
def removeNodeF : Nat → TrieNode → Nibbles → Except Err TrieNode
  | 0, _, _ => .error .fuel
  | _ + 1, .leaf lp v _, _ => .ok (.leaf lp v none)
  | _ + 1, .digest _ _ _, _ => .error .unresolved
  | fuel + 1, .branch bp ch _, path => do
    -- `BranchNode::remove`, inlined: update the child table.
    let ch' ←
      (let cpl := commonPrefixLength bp path
      if cpl = bp.length then
        if h : cpl < path.length then
          let idx := path.get ⟨cpl, h⟩
          match ch.get idx with
          | some child => do
            let child' ← removeNodeF fuel child (path.drop (cpl + 1))
            match child' with
            | .leaf lp _ _ =>
              if lp = path.drop (cpl + 1) then pure (ch.setE idx)
              else pure (ch.setF idx child')
            | .branch _ cch _ =>
              if chIsEmpty cch then pure (ch.setE idx)
              else pure (ch.setF idx child')
            | .digest _ _ _ => .error .unresolved
          | none => pure ch
        else .error .oob
      else pure ch : Except Err Slots)
    -- `TrieNode::remove`: the single-remaining-child collapse.
    match ← oneChildLeftU ch' with
    | some (idx, child) =>
      match child with
      | .branch cp cch _ => .ok (.branch ((bp ++ [idx]) ++ cp) cch none)
      | .leaf clp cv _ => .ok (.leaf ((bp ++ [idx]) ++ clp) cv none)
      | .digest _ _ _ => .error .unresolved
    | none => .ok (.branch bp ch' none)

/-- `TrieNode::remove` (fuel seeded above the recursion depth). -/
def removeNode (t : TrieNode) (path : Nibbles) : Except Err TrieNode :=
  removeNodeF (path.length + 1) t path

/-- Modelled from the spec: `TrieNode::remove` of the `ref-mpt` crate,
whose `remove.rs` is declared in its `mod.rs` but absent from the sources.
The spec describes the two crates as duplicated copies whose only
divergence is the missing `flags == 0` guard, so this is `removeNodeF`
verbatim with the guarded `one_child_left`. -/
def removeNodeGF : Nat → TrieNode → Nibbles → Except Err TrieNode
  | 0, _, _ => .error .fuel
  | _ + 1, .leaf lp v _, _ => .ok (.leaf lp v none)
  | _ + 1, .digest _ _ _, _ => .error .unresolved
  | fuel + 1, .branch bp ch _, path => do
    let ch' ←
      (let cpl := commonPrefixLength bp path
      if cpl = bp.length then
        if h : cpl < path.length then
          let idx := path.get ⟨cpl, h⟩
          match ch.get idx with
          | some child => do
            let child' ← removeNodeGF fuel child (path.drop (cpl + 1))
            match child' with
            | .leaf lp _ _ =>
              if lp = path.drop (cpl + 1) then pure (ch.setE idx)
              else pure (ch.setF idx child')
            | .branch _ cch _ =>
              if chIsEmpty cch then pure (ch.setE idx)
              else pure (ch.setF idx child')
            | .digest _ _ _ => .error .unresolved
          | none => pure ch
        else .error .oob
      else pure ch : Except Err Slots)
    match ← oneChildLeftG ch' with
    | some (idx, child) =>
      match child with
      | .branch cp cch _ => .ok (.branch ((bp ++ [idx]) ++ cp) cch none)
      | .leaf clp cv _ => .ok (.leaf ((bp ++ [idx]) ++ clp) cv none)
      | .digest _ _ _ => .error .unresolved
    | none => .ok (.branch bp ch' none)

/-- The guarded-variant `TrieNode::remove`. -/
def removeNodeG (t : TrieNode) (path : Nibbles) : Except Err TrieNode :=
  removeNodeGF (path.length + 1) t path

/-- The `Trie` wrapper of `mod.rs` / `trie.rs`. -/
structure Trie where
  root : Option TrieNode

namespace Trie

/-- `Trie::new`. -/
def new : Trie := ⟨none⟩

/-- `Trie::insert_path`. -/
def insertPath (t : Trie) (path : Nibbles) (value : Bytes) :
    Except Err Trie :=
  match t.root with
  | some r => (insertNode r path value).map fun r' => ⟨some r'⟩
  | none => .ok ⟨some (.leaf path value none)⟩

/-- `Trie::insert` (public boundary: a pre-hashed 32-byte key). -/
def insertB (t : Trie) (key : Bytes) (value : Bytes) : Except Err Trie :=
  t.insertPath (unpack key) value

/-- `Trie::get_path`. -/
def getPath (t : Trie) (path : Nibbles) : Except Err (Option Bytes) :=
  match t.root with
  | none => .ok none
  | some r => getNode r path

/-- `Trie::get`. -/
def getB (t : Trie) (key : Bytes) : Except Err (Option Bytes) :=
  t.getPath (unpack key)

/-- `Trie::remove_path` (`simple-trie` copy).  A root leaf whose path
equals the query collapses the trie to empty; any other root delegates to
`TrieNode::remove`. -/
def removePath (t : Trie) (path : Nibbles) : Except Err Trie :=
  match t.root with
  | some r =>
    match r with
    | .leaf lp _ _ => if path = lp then .ok ⟨none⟩ else .ok t
    | _ => (removeNode r path).map fun r' => ⟨some r'⟩
  | none => .ok t

/-- `Trie::remove` (public boundary). -/
def removeB (t : Trie) (key : Bytes) : Except Err Trie :=
  t.removePath (unpack key)

/-- `Trie::remove_path` with the guarded `one_child_left` (`ref-mpt`). -/
def removePathG (t : Trie) (path : Nibbles) : Except Err Trie :=
  match t.root with
  | some r =>
    match r with
    | .leaf lp _ _ => if path = lp then .ok ⟨none⟩ else .ok t
    | _ => (removeNodeG r path).map fun r' => ⟨some r'⟩
  | none => .ok t

end Trie


/-! ### Keccak-256

`alloy_primitives::keccak256` (the `tiny-keccak` Keccak-256: rate 136,
original `0x01` padding), implemented over `Nat` lanes reduced mod `2^64`.
Checked below against the two digest constants that appear in the sources
(`KECCAK256_EMPTY` and `EMPTY_ROOT_HASH`). -/

/-- 64-bit left rotation. -/
def rotl64 (x n : Nat) : Nat := ((x <<< n) ||| (x >>> (64 - n))) % (2 ^ 64)

/-- The Keccak rotation offsets, indexed `[x][y]`. -/
def rotOffsets : List (List Nat) :=
  [[0, 36, 3, 41, 18], [1, 44, 10, 45, 2], [62, 6, 43, 15, 61],
   [28, 55, 25, 21, 56], [27, 20, 39, 8, 14]]

/-- Rotation offset for lane `(x, y)`. -/
def rotOff (x y : Nat) : Nat := (rotOffsets.getD x []).getD y 0

/-- The 24 Keccak-f[1600] round constants. -/
def roundConstants : List Nat :=
  [0x0000000000000001, 0x0000000000008082, 0x800000000000808a,
   0x8000000080008000, 0x000000000000808b, 0x0000000080000001,
   0x8000000080008081, 0x8000000000008009, 0x000000000000008a,
   0x0000000000000088, 0x0000000080008009, 0x000000008000000a,
   0x000000008000808b, 0x800000000000008b, 0x8000000000008089,
   0x8000000000008003, 0x8000000000008002, 0x8000000000000080,
   0x000000000000800a, 0x800000008000000a, 0x8000000080008081,
   0x8000000000008080, 0x0000000080000001, 0x8000000080008008]

/-- Keccak θ step (state = 25 lanes, lane `(x, y)` at index `x + 5y`). -/
def theta (st : List Nat) : List Nat :=
  let g := fun x y => st.getD (x + 5 * y) 0
  let c := fun x => g x 0 ^^^ g x 1 ^^^ g x 2 ^^^ g x 3 ^^^ g x 4
  let d := fun x => c ((x + 4) % 5) ^^^ rotl64 (c ((x + 1) % 5)) 1
  (List.range 25).map fun i => st.getD i 0 ^^^ d (i % 5)

/-- Keccak ρ and π steps. -/
def rhoPi (st : List Nat) : List Nat :=
  (List.range 25).foldl
    (fun b i =>
      let x := i % 5
      let y := i / 5
      b.set (y + 5 * ((2 * x + 3 * y) % 5)) (rotl64 (st.getD i 0) (rotOff x y)))
    (List.replicate 25 0)

/-- Keccak χ step. -/
def chi (st : List Nat) : List Nat :=
  let g := fun x y => st.getD (x + 5 * y) 0
  (List.range 25).map fun i =>
    let x := i % 5
    let y := i / 5
    g x y ^^^ (((2 ^ 64 - 1) ^^^ g ((x + 1) % 5) y) &&& g ((x + 2) % 5) y)

/-- The Keccak-f[1600] permutation (24 rounds of θ, ρ, π, χ, ι). -/
def keccakF (st : List Nat) : List Nat :=
  roundConstants.foldl
    (fun s rc =>
      let s' := chi (rhoPi (theta s))
      s'.set 0 (s'.getD 0 0 ^^^ rc))
    st

/-- A lane from up to 8 little-endian bytes. -/
def bytesToLane (bs : List Nat) : Nat := bs.foldr (fun b acc => acc * 256 + b) 0

/-- The 8 little-endian bytes of a lane. -/
def laneToBytes (n : Nat) : List Nat := (List.range 8).map fun i => n / 256 ^ i % 256

/-- Keccak (pre-NIST) padding: `0x01 … 0x80` to a multiple of the 136-byte
rate. -/
def padKeccak (m : Bytes) : Bytes :=
  let padLen := 136 - m.length % 136
  if padLen = 1 then m ++ [0x81]
  else m ++ 0x01 :: List.replicate (padLen - 2) 0 ++ [0x80]

/-- Absorb one 136-byte block. -/
def absorbBlock (st : List Nat) (block : Bytes) : List Nat :=
  keccakF ((List.range 25).map fun i =>
    if i < 17 then st.getD i 0 ^^^ bytesToLane ((block.drop (8 * i)).take 8)
    else st.getD i 0)

/-- `keccak256`. -/
def keccak256 (m : Bytes) : B256 :=
  let p := padKeccak m
  let st := (List.range (p.length / 136)).foldl
    (fun st i => absorbBlock st ((p.drop (136 * i)).take 136))
    (List.replicate 25 0)
  ((st.take 4).map laneToBytes).flatten

/-- `alloy_trie::EMPTY_ROOT_HASH`
(`0x56e8…b421`, the canonical empty-trie root). -/
def EMPTY_ROOT : B256 :=
  [0x56, 0xe8, 0x1f, 0x17, 0x1b, 0xcc, 0x55, 0xa6, 0xff, 0x83, 0x45, 0xe6,
   0x92, 0xc0, 0xf8, 0x6e, 0x5b, 0x48, 0xe0, 0x1b, 0x99, 0x6c, 0xad, 0xc0,
   0x01, 0x62, 0x2f, 0xb5, 0xe3, 0x63, 0xb4, 0x21]

/-- `alloy_primitives::KECCAK256_EMPTY` (`keccak256` of the empty string). -/
def KECCAK_EMPTY : B256 :=
  [0xc5, 0xd2, 0x46, 0x01, 0x86, 0xf7, 0x23, 0x3c, 0x92, 0x7e, 0x7d, 0xb2,
   0xdc, 0xc7, 0x03, 0xc0, 0xe5, 0x00, 0xb6, 0x53, 0xca, 0x82, 0x27, 0x3b,
   0x7b, 0xfa, 0xd8, 0x04, 0x5d, 0x85, 0xa4, 0x70]

/-! ### RLP encoding (`rlp.rs` plus the `alloy_rlp` primitives it uses) -/

/-- Big-endian bytes with an explicit digit budget (structural helper). -/
def beBytesAux : Nat → Nat → Bytes
  | 0, _ => []
  | k + 1, n => if n = 0 then [] else beBytesAux k (n / 256) ++ [n % 256]

/-- Minimal big-endian byte representation of a `Nat` (empty for 0); the
64-digit budget covers every length a `usize` can hold. -/
def beBytes (n : Nat) : Bytes := beBytesAux 64 n

/-- `alloy_rlp` encoding of a byte string (header plus payload). -/
def rlpEncodeBytes (s : Bytes) : Bytes :=
  if s.length = 1 ∧ s.headD 0 < 0x80 then s
  else if s.length ≤ 55 then (0x80 + s.length) :: s
  else (0xb7 + (beBytes s.length).length) :: beBytes s.length ++ s

/-- `encode_list_header` of `rlp.rs`: an RLP list header for a known
payload length. -/
def encodeListHeader (payloadLen : Nat) : Bytes :=
  if payloadLen ≤ 55 then [0xc0 + payloadLen]
  else (0xf7 + (beBytes payloadLen).length) :: beBytes payloadLen

/-- `alloy_trie::nodes::encode_path_leaf`: hex-prefix encoding of a nibble
path (`0b00` even extension, `0b01` odd extension, `0b10` even leaf,
`0b11` odd leaf in the high nibble of the first byte). -/
def encodePathLeaf (p : Nibbles) (isLeaf : Bool) : Bytes :=
  let rec packPairs : Nibbles → Bytes
    | a :: b :: rest => (a * 16 + b) :: packPairs rest
    | _ => []
  if p.length % 2 = 1 then
    ((if isLeaf then 0x30 else 0x10) + p.headD 0) :: packPairs p.tail
  else
    (if isLeaf then 0x20 else 0x00) :: packPairs p

/-- `LeafNode::encode` of `hash.rs`. -/
def leafEncode (p : Nibbles) (v : Bytes) : Bytes :=
  let pathB := rlpEncodeBytes (encodePathLeaf p true)
  let valueB := rlpEncodeBytes v
  encodeListHeader (pathB.length + valueB.length) ++ pathB ++ valueB

/-- `DigestNode::encode` of `hash.rs`. -/
def digestEncode (p : Nibbles) (v : B256) : Bytes :=
  if p = [] then rlpEncodeBytes v
  else
    let pathB := rlpEncodeBytes (encodePathLeaf p false)
    encodeListHeader (pathB.length + 33) ++ pathB ++ rlpEncodeBytes v

/-- `DigestNode::hash` of `hash.rs` (the returned value; the Rust method
also writes it into the cache field): the cache if set, otherwise the raw
value for an empty path, otherwise the Keccak of the extension encoding. -/
def digestHash (p : Nibbles) (v : B256) (h : Option B256) : B256 :=
  match h with
  | some hh => hh
  | none => if p = [] then v else keccak256 (digestEncode p v)

/-- `shorten_encoding` of `hash.rs`. -/
def shortenEncoding (b : Bytes) : Bytes :=
  if b.length < 32 then b else rlpEncodeBytes (keccak256 b)

mutual

/-- `LeafNode::encode` / `BranchNode::encode` / `DigestNode::encode` of
`hash.rs`, dispatched on the node kind.  A branch child that is a leaf or a
branch is re-encoded (its cache is not consulted); a digest child
contributes its raw value (empty path) or its `DigestNode::hash` (non-empty
path). -/
def encodeNode : TrieNode → Bytes
  | .leaf p v _ => leafEncode p v
  | .digest p v _ => digestEncode p v
  | .branch bp ch _ =>
    let payload := encodeSlots ch ++ [0x80]
    let inner := encodeListHeader payload.length ++ payload
    if bp = [] then inner
    else
      let pathB := rlpEncodeBytes (encodePathLeaf bp false)
      let shortened := shortenEncoding inner
      encodeListHeader (pathB.length + shortened.length) ++ pathB ++ shortened

/-- The children loop of `BranchNode::encode`: each empty slot contributes
`0x80`. -/
def encodeSlots : Slots → Bytes
  | .nil => []
  | .consE tl => 0x80 :: encodeSlots tl
  | .consF t tl =>
    (match t with
     | .digest p v h =>
       if p = [] then rlpEncodeBytes v else rlpEncodeBytes (digestHash p v h)
     | .leaf p v h => shortenEncoding (encodeNode (.leaf p v h))
     | .branch p c h => shortenEncoding (encodeNode (.branch p c h))) ++
    encodeSlots tl

end

/-- `TrieNode::hash` of `hash.rs` — the value the Rust method returns.  The
Rust method also memoizes: it writes this value into the node's cache (and
`digest.hash()` calls inside `BranchNode::encode` write the digest
children's caches).  Those writes store exactly the values this pure
function computes from the written nodes, and no other cache is ever read
by `encode`/`hash`, so a call sequence of the mutating Rust code returns
the same hashes as this pure function applied to the same pre-call
tries. -/
def nodeHash : TrieNode → B256
  | .leaf p v h =>
    match h with
    | some hh => hh
    | none => keccak256 (leafEncode p v)
  | .branch p ch h =>
    match h with
    | some hh => hh
    | none => keccak256 (encodeNode (.branch p ch none))
  | .digest p v h => digestHash p v h

/-- `Trie::hash`: the root hash (canonical empty-trie root when empty). -/
def Trie.hash (t : Trie) : B256 :=
  match t.root with
  | some r => nodeHash r
  | none => EMPTY_ROOT

/-! ### RLP decoding (`rlp.rs`) -/

/-- `alloy_rlp::Header::decode_raw`: split one RLP item into
`(is_list, payload, rest)` with the canonicality checks `alloy_rlp`
performs (single-byte strings below `0x80` must be encoded as themselves,
long forms must not encode short lengths, length prefixes must have no
leading zero). -/
def rlpSplit (b : Bytes) : Except Err (Bool × Bytes × Bytes) :=
  match b with
  | [] => .error .decodeFail
  | b0 :: rest =>
    if b0 < 0x80 then .ok (false, [b0], rest)
    else if b0 < 0xb8 then
      let len := b0 - 0x80
      if rest.length < len then .error .decodeFail
      else if len = 1 ∧ rest.headD 0 < 0x80 then .error .decodeFail
      else .ok (false, rest.take len, rest.drop len)
    else if b0 < 0xc0 then
      let lenOfLen := b0 - 0xb7
      if rest.length < lenOfLen then .error .decodeFail
      else if rest.headD 0 = 0 then .error .decodeFail
      else
        let len := (rest.take lenOfLen).foldl (fun a b => a * 256 + b) 0
        if len ≤ 55 then .error .decodeFail
        else if (rest.drop lenOfLen).length < len then .error .decodeFail
        else .ok (false, (rest.drop lenOfLen).take len, (rest.drop lenOfLen).drop len)
    else if b0 < 0xf8 then
      let len := b0 - 0xc0
      if rest.length < len then .error .decodeFail
      else .ok (true, rest.take len, rest.drop len)
    else
      let lenOfLen := b0 - 0xf7
      if rest.length < lenOfLen then .error .decodeFail
      else if rest.headD 0 = 0 then .error .decodeFail
      else
        let len := (rest.take lenOfLen).foldl (fun a b => a * 256 + b) 0
        if len ≤ 55 then .error .decodeFail
        else if (rest.drop lenOfLen).length < len then .error .decodeFail
        else .ok (true, (rest.drop lenOfLen).take len, (rest.drop lenOfLen).drop len)

/-- `PayloadView::List`: split a list payload into its raw item slices
(each slice keeps its own header).  Structural fuel; `payload.length` is
always sufficient since every item consumes at least one byte. -/
def splitItems : Nat → Bytes → Except Err (List Bytes)
  | _, [] => .ok []
  | 0, _ => .error .fuel
  | fuel + 1, payload => do
    let (_, _, rest) ← rlpSplit payload
    let items ← splitItems fuel rest
    .ok (payload.take (payload.length - rest.length) :: items)

/-- `decode_path` of `rlp.rs`: strip and interpret the hex-prefix nibble of
an encoded path, returning the path and the leaf flag. -/
def decodePath (b : Bytes) : Except Err (Nibbles × Bool) := do
  let (isL, payload, _) ← rlpSplit b
  if isL then .error .decodeFail
  else
    let path := unpack payload
    if path.length < 2 then .error .decodeFail
    else
      match path.headD 0 with
      | 0 => .ok (path.drop 2, false)
      | 1 => .ok (path.drop 1, false)
      | 2 => .ok (path.drop 2, true)
      | 3 => .ok (path.drop 1, true)
      | _ => .error .decodeFail

mutual

/-- `TrieNode::decode` of `rlp.rs`, with structural fuel: `Ok(None)` for
the empty string, a digest for a 32-byte string, a branch for a 17-item
list (whose value slot must be empty), a leaf or a path-fused
branch/digest for a 2-item list. -/
def decodeNodeF : Nat → Bytes → Except Err (Option TrieNode)
  | 0, _ => .error .fuel
  | fuel + 1, b => do
    let (isList, payload, _) ← rlpSplit b
    if isList then do
      let items ← splitItems payload.length payload
      if items.length = 17 then do
        let ch ← decodeSlotsF fuel (items.take 16)
        if items.getD 16 [] ≠ [0x80] then .error .decodeFail
        else .ok (some (.branch [] ch none))
      else if items.length = 2 then do
        let (path, isLeaf) ← decodePath (items.getD 0 [])
        if isLeaf then do
          let (isL, vp, _) ← rlpSplit (items.getD 1 [])
          if isL then .error .decodeFail
          else .ok (some (.leaf path vp none))
        else do
          let n? ← decodeNodeF fuel (items.getD 1 [])
          match n? with
          | none => .error .emptyNode
          | some (.branch _ bch bh) => .ok (some (.branch path bch bh))
          | some (.digest _ dv dh) => .ok (some (.digest path dv dh))
          | some (.leaf _ _ _) => .error .decodeFail
      else .error .decodeFail
    else
      if payload = [] then .ok none
      else if payload.length = 32 then .ok (some (.digest [] payload none))
      else .error .decodeFail

/-- The children loop of the 17-item-list arm: a `0x80` slice is an empty
slot, anything else must decode to a node
(`expect("MPT: Unable to decode branch child node.")`).  Fuel is consumed
per slot as well as per nesting level, keeping the recursion structural. -/
def decodeSlotsF : Nat → List Bytes → Except Err Slots
  | _, [] => .ok .nil
  | 0, _ :: _ => .error .fuel
  | fuel + 1, e :: rest =>
    if e = [0x80] then do
      let tl ← decodeSlotsF fuel rest
      .ok (.consE tl)
    else do
      let n? ← decodeNodeF fuel e
      match n? with
      | none => .error .emptyNode
      | some t => do
        let tl ← decodeSlotsF fuel rest
        .ok (.consF t tl)

end

/-- `TrieNode::decode` (fuel seeded above the nesting depth: every nested
item is a strictly shorter slice). -/
def decodeNode (b : Bytes) : Except Err (Option TrieNode) :=
  decodeNodeF (b.length + 1) b

/-! ### Reveal (`reveal.rs`) -/

/-- The `hash → rlp` map (`B256Map<Bytes>`), as an association list;
lookup takes the most recently inserted binding, matching `HashMap`
overwrite semantics. -/
abbrev RlpMap := List (B256 × Bytes)

/-- `B256Map::get`. -/
def mapLookup (m : RlpMap) (k : B256) : Option Bytes :=
  (m.find? fun kv => kv.1 = k).map (·.2)

mutual

/-- `TrieNode::reveal` of `reveal.rs`, with structural fuel (the Rust
recursion is unbounded on adversarial maps).  A digest found in the map is
decoded; a decoded empty-path digest reveals nothing (early return); a
decoded branch takes over the digest's path (`core::mem::take` empties the
digest's path before `digest.hash()` is evaluated for `set_cache`, which
is why the branch arm seeds cache `digestHash [] dv dh`); the replacement
node gets its cache seeded from `digest.hash()` and is revealed
recursively. -/
def revealNodeF : Nat → RlpMap → TrieNode → Except Err TrieNode
  | 0, _, _ => .error .fuel
  | _ + 1, _, .leaf lp lv lh => .ok (.leaf lp lv lh)
  | fuel + 1, m, .branch p ch h => do
    let ch' ← revealSlotsF fuel m ch
    .ok (.branch p ch' h)
  | fuel + 1, m, .digest dp dv dh =>
    match mapLookup m dv with
    | none => .ok (.digest dp dv dh)
    | some rlp => do
      let n? ← decodeNode rlp
      match n? with
      | none => .error .emptyNode
      | some (.digest p' v' _) =>
        if p' = [] then .ok (.digest dp dv dh)
        else revealNodeF fuel m (.digest p' v' (some (digestHash dp dv dh)))
      | some (.branch _ bch _) =>
        revealNodeF fuel m (.branch dp bch (some (digestHash [] dv dh)))
      | some (.leaf lp lv _) =>
        revealNodeF fuel m (.leaf lp lv (some (digestHash dp dv dh)))

/-- The children loop of the `Branch` arm of `reveal`.  Fuel is consumed
per slot as well as per nesting level, keeping the recursion structural. -/
def revealSlotsF : Nat → RlpMap → Slots → Except Err Slots
  | _, _, .nil => .ok .nil
  | 0, _, .consE _ => .error .fuel
  | 0, _, .consF _ _ => .error .fuel
  | fuel + 1, m, .consE tl => do
    let tl' ← revealSlotsF fuel m tl
    .ok (.consE tl')
  | fuel + 1, m, .consF t tl => do
    let t' ← revealNodeF fuel m t
    let tl' ← revealSlotsF fuel m tl
    .ok (.consF t' tl')

end

/-- `Trie::reveal_from_rlp` of `trie.rs`: the empty root yields the empty
trie; otherwise the root is seeded as a digest with cached hash
`root_hash` and revealed against the map.  `fuel` bounds the reveal
recursion depth (the Rust recursion is unbounded on adversarial maps). -/
def Trie.revealFromRlp (fuel : Nat) (rootHash : B256) (m : RlpMap) :
    Except Err Trie :=
  if rootHash = EMPTY_ROOT then .ok ⟨none⟩
  else do
    let r ← revealNodeF fuel m (.digest [] rootHash (some rootHash))
    .ok ⟨some r⟩


/-! ### The sparse state layer (`simple-sparse-state/src/lib.rs`) -/

/-- `alloy_trie::TrieAccount`: the RLP-encoded account record. -/
structure TrieAccount where
  nonce : Nat
  balance : Nat
  storageRoot : B256
  codeHash : B256
deriving DecidableEq, Repr

/-- `alloy_rlp` encoding of a `Nat` (a minimal big-endian string). -/
def rlpEncodeNat (n : Nat) : Bytes := rlpEncodeBytes (beBytes n)

/-- `alloy_rlp::encode` of a `TrieAccount` (4-item list). -/
def encodeAccount (a : TrieAccount) : Bytes :=
  let payload := rlpEncodeNat a.nonce ++ rlpEncodeNat a.balance ++
    rlpEncodeBytes a.storageRoot ++ rlpEncodeBytes a.codeHash
  encodeListHeader payload.length ++ payload

/-- `alloy_rlp` decoding of an unsigned integer item (canonical: a string
with no leading zero byte, at most `maxBytes` long). -/
def rlpDecodeNat (maxBytes : Nat) (b : Bytes) : Except Err Nat := do
  let (isL, payload, _) ← rlpSplit b
  if isL then .error .stateDecode
  else if payload.headD 1 = 0 then .error .stateDecode
  else if maxBytes < payload.length then .error .stateDecode
  else .ok (payload.foldl (fun a b => a * 256 + b) 0)

/-- `alloy_rlp::decode_exact::<TrieAccount>`: a 4-item list
`[nonce, balance, storage_root, code_hash]` consuming the whole input. -/
def decodeAccount (b : Bytes) : Except Err TrieAccount := do
  let (isL, payload, rest) ← rlpSplit b
  if isL = false ∨ rest ≠ [] then .error .stateDecode
  else do
    let items ← splitItems payload.length payload
    match items with
    | [n, bal, sr, chsh] => do
      let nonce ← rlpDecodeNat 8 n
      let balance ← rlpDecodeNat 32 bal
      let (isL1, srp, _) ← rlpSplit sr
      let (isL2, chp, _) ← rlpSplit chsh
      if isL1 ∨ isL2 ∨ srp.length ≠ 32 ∨ chp.length ≠ 32 then
        .error .stateDecode
      else .ok ⟨nonce, balance, srp, chp⟩
    | _ => .error .stateDecode

/-- The 32-byte big-endian representation of a `U256` storage slot
(`B256::from(slot)`). -/
def be32 (n : Nat) : Bytes :=
  (List.range 32).map fun i => n / 256 ^ (31 - i) % 256

/-- `reth_stateless::ExecutionWitness` (the four byte-string vectors). -/
structure ExecutionWitness where
  state : List Bytes
  codes : List Bytes
  keys : List Bytes
  headers : List Bytes

/-- `SimpleSparseState`: the account trie, the memoized storage tries
(`RefCell<B256Map<Box<Trie>>>`, an interior-mutability memo), and the
witness node map.  Both maps are association lists where the most recent
binding shadows older ones, matching `HashMap` insertion. -/
structure SState where
  state : Trie
  storages : List (B256 × Trie)
  rlpByDigest : RlpMap

/-- Storage-memo lookup. -/
def memoLookup (m : List (B256 × Trie)) (k : B256) : Option Trie :=
  (m.find? fun kv => kv.1 = k).map (·.2)

/-- `SimpleSparseState::new` (the `StatelessTrie` constructor): hash every
witness RLP node once, reveal the account trie against the pre-state root,
hash the bytecodes.  (The `debug_assert_eq!(state.hash(), pre_state_root)`
is compiled out of release builds and not modelled as a failure.)  `fuel`
bounds the reveal recursion. -/
def SState.new (fuel : Nat) (w : ExecutionWitness) (preStateRoot : B256) :
    Except Err (SState × List (B256 × Bytes)) := do
  let rlpByDigest : RlpMap :=
    w.state.foldl (fun acc rlp => (keccak256 rlp, rlp) :: acc) []
  let state ← Trie.revealFromRlp fuel preStateRoot rlpByDigest
  let bytecode := w.codes.foldl (fun acc c => (keccak256 c, c) :: acc) []
  .ok (⟨state, [], rlpByDigest⟩, bytecode)

/-- `SimpleSparseState::storage`: requires no prior `account` call — a
missing storage memo entry (as after construction) yields `U256::ZERO`, as
does a missing slot; a present slot is RLP-decoded
(`U256::decode(..).unwrap()`). -/
def SState.storage (s : SState) (address : Bytes) (slot : Nat) :
    Except Err Nat := do
  match memoLookup s.storages (keccak256 address) with
  | some storageTrie =>
    match ← storageTrie.getB (keccak256 (be32 slot)) with
    | some value => rlpDecodeNat 32 value
    | none => .ok 0
  | none => .ok 0

/-- `SimpleSparseState::account`: look the hashed address up in the account
trie, decode the account (a decode failure is reported as absence), and
memoize the account's storage trie (revealed against its storage root when
that is not the empty root).  Returns the result together with the updated
memo (the Rust method does this through the `RefCell`). -/
def SState.account (fuel : Nat) (s : SState) (address : Bytes) :
    Except Err (Option TrieAccount × SState) := do
  let hashedAddress := keccak256 address
  match ← s.state.getB hashedAddress with
  | some value =>
    match decodeAccount value with
    | .ok account =>
      match memoLookup s.storages hashedAddress with
      | some _ => .ok (some account, s)
      | none =>
        if account.storageRoot ≠ EMPTY_ROOT then do
          let t ← Trie.revealFromRlp fuel account.storageRoot s.rlpByDigest
          .ok (some account, { s with storages := (hashedAddress, t) :: s.storages })
        else
          .ok (some account, { s with storages := (hashedAddress, Trie.new) :: s.storages })
    | .error _ => .ok (none, s)
  | none => .ok (none, s)

/-- `SimpleSparseState::clear_storage`: replace (or create) the account's
storage memo entry with a fresh empty trie. -/
def SState.clearStorage (s : SState) (hashedAddress : B256) : Trie × SState :=
  (Trie.new, { s with storages := (hashedAddress, Trie.new) :: s.storages })

/-- `SimpleSparseState::storage_trie_mut`: the memoized storage trie if
present, otherwise reveal it against the account's storage root (the empty
root when the account is absent; `decode_exact::<TrieAccount>(..).unwrap()`
on a present value). -/
def SState.storageTrieMut (fuel : Nat) (s : SState) (hashedAddress : B256) :
    Except Err (Trie × SState) := do
  match memoLookup s.storages hashedAddress with
  | some t => .ok (t, s)
  | none => do
    let storageRoot ←
      match ← s.state.getB hashedAddress with
      | none => pure EMPTY_ROOT
      | some value =>
        match decodeAccount value with
        | .ok a => pure a.storageRoot
        | .error _ => .error .stateDecode
    let t ← Trie.revealFromRlp fuel storageRoot s.rlpByDigest
    .ok (t, { s with storages := (hashedAddress, t) :: s.storages })

/-- `reth_primitives_traits::Account` (the post-state account record). -/
structure PostAccount where
  nonce : Nat
  balance : Nat
  bytecodeHash : Option B256

/-- One account's storage changes in a `HashedPostState`. -/
structure PostStorage where
  wiped : Bool
  storage : List (B256 × Nat)

/-- `reth_trie_common::HashedPostState` (accounts and storages as
association lists; `HashMap` iteration order is arbitrary in Rust, the
embedding iterates in list order). -/
structure HashedPostState where
  accounts : List (B256 × Option PostAccount)
  storages : List (B256 × PostStorage)

/-- Post-state storage lookup (`state.storages.get(&hashed_address)`). -/
def postStorageLookup (m : List (B256 × PostStorage)) (k : B256) :
    Option PostStorage :=
  (m.find? fun kv => kv.1 = k).map (·.2)

/-- `SimpleSparseState::remove_account`. -/
def SState.removeAccount (s : SState) (hashedAddress : B256) :
    Except Err SState := do
  let state' ← s.state.removeB hashedAddress
  let s' : SState :=
    { s with state := state',
             storages := s.storages.filter (fun kv => kv.1 ≠ hashedAddress) }
  .ok s'

/-- `SimpleSparseState::calculate_state_root`: fold over the post-state
accounts — a `None` account is queued for removal; an updated account
first applies its storage changes (a wiped storage starts from a fresh
empty trie; non-zero slots are inserted before zero slots are removed),
then re-encodes the account with the new storage root (`KECCAK256_EMPTY`
for a missing code hash) and inserts it into the account trie.  Queued
removals are applied after all updates; the result is the account trie's
root hash. -/
def SState.calculateStateRoot (fuel : Nat) (s : SState)
    (post : HashedPostState) : Except Err (B256 × SState) := do
  let (s, removedAccounts) ← post.accounts.foldlM
    (fun (acc : SState × List B256) kv => do
      let (s, removed) := acc
      match kv.2 with
      | none => pure (s, removed ++ [kv.1])
      | some account => do
        let (storageRoot, s) ←
          match postStorageLookup post.storages kv.1 with
          | none => do
            let (t, s) ← s.storageTrieMut fuel kv.1
            pure (t.hash, s)
          | some storage => do
            let (t, s) ←
              if storage.wiped then pure (s.clearStorage kv.1)
              else s.storageTrieMut fuel kv.1
            let t ← storage.storage.foldlM
              (fun t hkv =>
                if hkv.2 ≠ 0 then t.insertB hkv.1 (rlpEncodeNat hkv.2)
                else pure t)
              t
            let t ← storage.storage.foldlM
              (fun t hkv => if hkv.2 = 0 then t.removeB hkv.1 else pure t)
              t
            pure (t.hash, { s with storages := (kv.1, t) :: s.storages })
        let acct : TrieAccount :=
          ⟨account.nonce, account.balance, storageRoot,
           account.bytecodeHash.getD KECCAK_EMPTY⟩
        let state' ← s.state.insertB kv.1 (encodeAccount acct)
        pure ({ s with state := state' }, removed))
    (s, [])
  let s ← removedAccounts.foldlM (fun s h => s.removeAccount h) s
  .ok (s.state.hash, s)


/-! ### Predicates and relations used by the specification claims -/

/-- The cached hash field of a node. -/
def cacheOf : TrieNode → Option B256
  | .leaf _ _ h => h
  | .branch _ _ h => h
  | .digest _ _ h => h

/-- `TrieNode::clear_cache` of `reveal.rs` (clears only this node's cache
field). -/
def clearCacheTop : TrieNode → TrieNode
  | .leaf p v _ => .leaf p v none
  | .branch p ch _ => .branch p ch none
  | .digest p v _ => .digest p v none

/-- Number of occupied slots (the population count of `flags`). -/
def countFull : Slots → Nat
  | .nil => 0
  | .consE tl => countFull tl
  | .consF _ tl => countFull tl + 1

mutual

/-- Invariant I1 of the spec: every `Branch` in the tree has at least two
non-empty children. -/
def nodeGe2 : TrieNode → Bool
  | .leaf _ _ _ => true
  | .digest _ _ _ => true
  | .branch _ ch _ => (2 ≤ countFull ch) && slotsGe2 ch

def slotsGe2 : Slots → Bool
  | .nil => true
  | .consE tl => slotsGe2 tl
  | .consF t tl => nodeGe2 t && slotsGe2 tl

end

/-- Invariant I1 at the trie level. -/
def trieGe2 (t : Trie) : Bool :=
  match t.root with
  | none => true
  | some r => nodeGe2 r

mutual

/-- The tree contains no `Digest` node. -/
def nodeDigestFree : TrieNode → Bool
  | .leaf _ _ _ => true
  | .digest _ _ _ => false
  | .branch _ ch _ => slotsDigestFree ch

def slotsDigestFree : Slots → Bool
  | .nil => true
  | .consE tl => slotsDigestFree tl
  | .consF t tl => nodeDigestFree t && slotsDigestFree tl

end

/-- Digest-freedom at the trie level. -/
def trieDigestFree (t : Trie) : Bool :=
  match t.root with
  | none => true
  | some r => nodeDigestFree r

mutual

/-- Structural equality of trees ignoring every cached hash field. -/
def eqUpToCache : TrieNode → TrieNode → Bool
  | .leaf p v _, .leaf p' v' _ => p = p' && v = v'
  | .branch p ch _, .branch p' ch' _ => p = p' && eqUpToCacheS ch ch'
  | .digest p v _, .digest p' v' _ => p = p' && v = v'
  | _, _ => false

def eqUpToCacheS : Slots → Slots → Bool
  | .nil, .nil => true
  | .consE tl, .consE tl' => eqUpToCacheS tl tl'
  | .consF t tl, .consF t' tl' => eqUpToCache t t' && eqUpToCacheS tl tl'
  | _, _ => false

end

mutual

/-- The materialization order of spec §P9: `matzNode t₁ t₂` holds when
`t₂` is `t₁` with some `Digest` placeholders replaced by materialized
subtrees (hash caches are not compared). -/
def matzNode : TrieNode → TrieNode → Bool
  | .digest _ _ _, _ => true
  | .leaf p v _, .leaf p' v' _ => p = p' && v = v'
  | .branch p ch _, .branch p' ch' _ => p = p' && matzSlots ch ch'
  | .leaf _ _ _, _ => false
  | .branch _ _ _, _ => false

def matzSlots : Slots → Slots → Bool
  | .nil, .nil => true
  | .consE tl, .consE tl' => matzSlots tl tl'
  | .consF t tl, .consF t' tl' => matzNode t t' && matzSlots tl tl'
  | _, _ => false

end

/-- Materialization order at the trie level. -/
def trieMatz (t₁ t₂ : Trie) : Bool :=
  match t₁.root, t₂.root with
  | none, none => true
  | some r₁, some r₂ => matzNode r₁ r₂
  | _, _ => false

/-- Invariant I3 at the root: the root's cache is unset or equal to the
hash recomputed with the cache cleared. -/
def rootCacheOk (t : Trie) : Bool :=
  match t.root with
  | none => true
  | some r =>
    match cacheOf r with
    | none => true
    | some h => h = nodeHash (clearCacheTop r)

/-- Map inclusion for reveal maps: every binding of `m₁` is a binding of
`m₂`. -/
def RlpMap.subset (m₁ m₂ : RlpMap) : Prop :=
  ∀ k v, mapLookup m₁ k = some v → mapLookup m₂ k = some v

/-- Build a trie by inserting the (32-byte key, value) pairs of a list in
order through the public `Trie::insert` boundary. -/
def buildTrie (l : List (Bytes × Bytes)) : Except Err Trie :=
  l.foldlM (fun t kv => t.insertB kv.1 kv.2) Trie.new

/-- The reference lookup semantics of an insertion list: the value of the
last pair whose unpacked key equals the query path (later inserts
overwrite earlier ones). -/
def insSem : List (Bytes × Bytes) → Nibbles → Option Bytes
  | [], _ => none
  | kv :: rest, q =>
    match insSem rest q with
    | some v => some v
    | none => if unpack kv.1 = q then some kv.2 else none

mutual

/-- Representation well-formedness: every path entry is a nibble and every
branch's child table has exactly 16 slots (as the Rust types guarantee). -/
def nodeNib : TrieNode → Bool
  | .leaf p _ _ => p.all (· < 16)
  | .branch p ch _ => p.all (· < 16) && (ch.size = 16) && slotsNib ch
  | .digest p _ _ => p.all (· < 16)

def slotsNib : Slots → Bool
  | .nil => true
  | .consE tl => slotsNib tl
  | .consF t tl => nodeNib t && slotsNib tl

end

/-- Representation well-formedness at the trie level. -/
def trieNib (t : Trie) : Bool :=
  match t.root with
  | none => true
  | some r => nodeNib r

mutual

/-- Depth uniformity: every leaf of the tree sits at remaining key depth
exactly `m` (64 for tries keyed by 32-byte hashes), and the tree is
digest-free. -/
def nodeDepth : Nat → TrieNode → Bool
  | m, .leaf p _ _ => p.length = m
  | m, .branch p ch _ => (p.length + 1 ≤ m) && nodeDepthS (m - (p.length + 1)) ch
  | _, .digest _ _ _ => false

def nodeDepthS : Nat → Slots → Bool
  | _, .nil => true
  | m, .consE tl => nodeDepthS m tl
  | m, .consF t tl => nodeDepth m t && nodeDepthS m tl

end

/-! ### Concrete inputs used by the claim evaluations -/

/-- The regression blob of spec scenario 6 and the
`remove_last_child_from_revealed_one_child_branch_does_not_panic` tests: an
RLP branch whose only child is the inlined leaf `[0x20, 0x01]` (empty path,
value `0x01`) at index 0. -/
def c1blob : Bytes :=
  [0xd3, 0xc2, 0x20, 0x01, 0x80, 0x80, 0x80, 0x80, 0x80, 0x80, 0x80, 0x80,
   0x80, 0x80, 0x80, 0x80, 0x80, 0x80, 0x80, 0x80]

/-- The trie `Trie::reveal_from_rlp` builds from `c1blob` keyed by its
Keccak-256 hash: a branch with the single leaf child and the root hash
cached. -/
def c1Trie : Trie :=
  ⟨some (.branch [] (.consF (.leaf [] [1] none) (Slots.empties 15))
    (some (keccak256 c1blob)))⟩

/-- An RLP branch with two children: the one-child branch `c1blob` inlined
at index 0 and the inlined leaf `[0x20, 0x02]` at index 1 (a decodable
witness node that violates invariant I1 below the root). -/
def c8blob : Bytes :=
  0xe6 :: (c1blob ++ [0xc2, 0x20, 0x02] ++ List.replicate 14 0x80 ++ [0x80])

/-- A root-hash key for `c8blob` (reveal does not verify hashes, so any
non-empty-root key works). -/
def c8root : B256 := List.replicate 32 0x11

/-- The trie revealed from `c8blob`. -/
def c8Trie : Trie :=
  ⟨some (.branch []
    (.consF (.branch [] (.consF (.leaf [] [1] none) (Slots.empties 15)) none)
      (.consF (.leaf [] [2] none) (Slots.empties 14)))
    (some c8root))⟩


/-! ### Helper lemmas -/

theorem bind_ok {α β : Type} {e : Except Err α} {k : α → Except Err β}
    {b : β} : (e >>= k) = .ok b ↔ ∃ a, e = .ok a ∧ k a = .ok b := by
  cases e <;> simp [Bind.bind, Except.bind]

theorem error_bind {α β : Type} {e : Err} {k : α → Except Err β} :
    (Except.error e >>= k : Except Err β) = .error e := rfl

theorem nodeHash_cache {t : TrieNode} {h : B256} (hc : cacheOf t = some h) :
    nodeHash t = h := by
  cases t <;> simp [cacheOf] at hc <;> simp [nodeHash, digestHash, hc]

/-- `reveal` preserves a cached root hash: every node it substitutes for a
digest inherits the digest's cached hash. -/
theorem revealNodeF_cache {r : B256} :
    ∀ {fuel : Nat} {m : RlpMap} {t t' : TrieNode},
      revealNodeF fuel m t = .ok t' → cacheOf t = some r →
      cacheOf t' = some r := by
  intro fuel
  induction fuel with
  | zero => intro m t t' h; simp [revealNodeF] at h
  | succ fuel ih =>
    intro m t t' h hc
    cases t with
    | leaf p v hh =>
      simp [revealNodeF] at h
      subst h; exact hc
    | branch p ch hh =>
      simp [revealNodeF, bind_ok] at h
      obtain ⟨ch', _, h2⟩ := h
      cases h2; exact hc
    | digest dp dv dh =>
      simp [cacheOf] at hc
      subst hc
      rw [revealNodeF] at h
      cases hl : mapLookup m dv with
      | none => rw [hl] at h; cases h; rfl
      | some rlp =>
        rw [hl] at h
        simp [bind_ok] at h
        obtain ⟨n?, hdec, h2⟩ := h
        cases n? with
        | none => simp at h2
        | some node =>
          cases node with
          | digest p' v' h' =>
            simp at h2
            by_cases hp : p' = []
            · simp [hp] at h2; cases h2; rfl
            · simp [hp] at h2
              exact ih h2 (by simp [cacheOf, digestHash])
          | branch bp bch bh =>
            simp at h2
            exact ih h2 (by simp [cacheOf, digestHash])
          | leaf lp lv lh =>
            simp at h2
            exact ih h2 (by simp [cacheOf, digestHash])

/-- `reveal_from_rlp` yields a trie whose root hash is the requested root
hash (the root cache is seeded with it and survives reveal). -/
theorem revealFromRlp_hash {fuel : Nat} {r : B256} {m : RlpMap} {t : Trie}
    (h : Trie.revealFromRlp fuel r m = .ok t) : t.hash = r := by
  rw [Trie.revealFromRlp] at h
  by_cases he : r = EMPTY_ROOT
  · simp [he] at h; cases h; simp [Trie.hash, he]
  · simp [he, bind_ok] at h
    obtain ⟨root, hrev, h2⟩ := h
    cases h2
    have hc := revealNodeF_cache (r := r) hrev rfl
    simp [Trie.hash, nodeHash_cache hc]

/-! ### Claim C9 -/

/-- C9: for every `SimpleSparseState` successfully constructed from a
witness and a pre-state root, `calculate_state_root` of an empty post-state
(no account changes, no storage changes) returns the pre-state root
unchanged (and leaves the state as it was). -/
theorem claim_c9 {fuel fuel2 : Nat} {w : ExecutionWitness} {r : B256}
    {s : SState} {codes : List (B256 × Bytes)}
    (h : SState.new fuel w r = .ok (s, codes)) :
    s.calculateStateRoot fuel2 ⟨[], []⟩ = .ok (r, s) := by
  rw [SState.new] at h
  simp [bind_ok] at h
  obtain ⟨state, hrev, h2⟩ := h
  cases h2.left
  have hh : state.hash = r := revealFromRlp_hash hrev
  simp [SState.calculateStateRoot, hh]

/-- Witness for C9 at the empty witness and the empty pre-state root. -/
theorem claim_c9_witness :
    SState.new 1 ⟨[], [], [], []⟩ EMPTY_ROOT = .ok (⟨⟨none⟩, [], []⟩, []) ∧
    SState.calculateStateRoot 1 ⟨⟨none⟩, [], []⟩ ⟨[], []⟩ =
      .ok (EMPTY_ROOT, ⟨⟨none⟩, [], []⟩) := by
  have h : SState.new 1 ⟨[], [], [], []⟩ EMPTY_ROOT =
      .ok (⟨⟨none⟩, [], []⟩, ([] : List (B256 × Bytes))) := rfl
  exact ⟨h, claim_c9 h⟩

/-! ### Claim C10 -/

/-- C10: on a freshly constructed `SimpleSparseState` (where `account` has
never been called, so no storage trie has been memoized), `storage` returns
`Ok(U256::ZERO)` for every address and slot, without error or panic — even
when the account exists and has a non-empty storage root. -/
theorem claim_c10 {fuel : Nat} {w : ExecutionWitness} {r : B256}
    {s : SState} {codes : List (B256 × Bytes)}
    (h : SState.new fuel w r = .ok (s, codes)) (address : Bytes)
    (slot : Nat) : s.storage address slot = .ok 0 := by
  rw [SState.new] at h
  simp [bind_ok] at h
  obtain ⟨state, _, h2⟩ := h
  cases h2.left
  simp [SState.storage, memoLookup]

/-- Witness for C10 at the empty witness, the zero address and slot 7. -/
theorem claim_c10_witness :
    SState.new 1 ⟨[], [], [], []⟩ EMPTY_ROOT = .ok (⟨⟨none⟩, [], []⟩, []) ∧
    SState.storage ⟨⟨none⟩, [], []⟩ (List.replicate 20 0) 7 = .ok 0 := by
  have h : SState.new 1 ⟨[], [], [], []⟩ EMPTY_ROOT =
      .ok (⟨⟨none⟩, [], []⟩, ([] : List (B256 × Bytes))) := rfl
  exact ⟨h, claim_c10 h (List.replicate 20 0) 7⟩


/-! ### Claim C2 -/

/-- C2 counterexample: inserting the empty byte string under the all-zero
32-byte key through the public `Trie::insert` does not fail — it stores an
empty-valued leaf and the trie state changes (the claim says the call
fails and the state is unchanged). -/
theorem claim_c2_counterexample :
    Trie.new.insertB (List.replicate 32 0) [] =
      .ok ⟨some (.leaf (List.replicate 64 0) [] none)⟩ ∧
    (⟨some (.leaf (List.replicate 64 0) [] none)⟩ : Trie).root ≠
      Trie.new.root := by
  exact ⟨rfl, by simp [Trie.new]⟩

/-- C2 (amended): for every 32-byte key `k`, the public `insert` with the
empty byte string succeeds — neither crate checks for empty values — and
on the empty trie it stores a leaf with the empty value: the state changes
and `get` returns the empty value.  (The empty-value rejection is enforced
only for the external zeth tries in the fuzz harness, which never forwards
an empty value to this crate.) -/
theorem claim_c2 (key : Bytes) (_hk : key.length = 32) :
    Trie.new.insertB key [] = .ok ⟨some (.leaf (unpack key) [] none)⟩ ∧
    (⟨some (.leaf (unpack key) [] none)⟩ : Trie).root ≠ Trie.new.root ∧
    Trie.getB ⟨some (.leaf (unpack key) [] none)⟩ key = .ok (some []) := by
  refine ⟨rfl, by simp [Trie.new], ?_⟩
  simp [Trie.getB, Trie.getPath, getNode, getNodeF]

/-- Witness for C2 at the all-ones key. -/
theorem claim_c2_witness :
    (List.replicate 32 1).length = 32 ∧
    Trie.new.insertB (List.replicate 32 1) [] =
      .ok ⟨some (.leaf (unpack (List.replicate 32 1)) [] none)⟩ :=
  ⟨by decide, (claim_c2 (List.replicate 32 1) (by decide)).1⟩

/-! ### Claim C6 -/

/-- C6 counterexample: a query path that ends exactly at a Digest's
position (the empty path against an empty-path root digest) panics as an
unresolved access instead of returning `None` as the claim states. -/
theorem claim_c6_counterexample :
    Trie.getPath ⟨some (.digest [] (List.replicate 32 0xaa) none)⟩ [] =
      .error .unresolved := rfl

/-- C6 (amended): a `get` whose walk reaches a `Digest` node returns
`None` exactly when the remaining query path fails to cover the digest's
whole extension prefix (`common_prefix_length < |digest.path|`); as soon
as the path covers the full prefix — including ending exactly at the
digest's position — the access panics as unresolved. -/
theorem claim_c6 (dp : Nibbles) (dv : B256) (dh : Option B256)
    (p : Nibbles) :
    (commonPrefixLength p dp < dp.length →
      Trie.getPath ⟨some (.digest dp dv dh)⟩ p = .ok none) ∧
    (dp.length ≤ commonPrefixLength p dp →
      Trie.getPath ⟨some (.digest dp dv dh)⟩ p = .error .unresolved) := by
  constructor <;> intro h
  · simp [Trie.getPath, getNode, getNodeF, h]
  · simp [Trie.getPath, getNode, getNodeF]
    omega

/-- Witness for C6: a short query misses a two-nibble digest prefix
(absence), a one-nibble query against an empty-path digest panics. -/
theorem claim_c6_witness :
    Trie.getPath ⟨some (.digest [1, 2] (List.replicate 32 0xcc) none)⟩ [1] =
      .ok none ∧
    Trie.getPath ⟨some (.digest [] (List.replicate 32 0xcc) none)⟩ [5] =
      .error .unresolved :=
  ⟨(claim_c6 [1, 2] (List.replicate 32 0xcc) none [1]).1 (by decide),
   (claim_c6 [] (List.replicate 32 0xcc) none [5]).2 (by decide)⟩

/-! ### Claim C7 -/

/-- C7 counterexample: a remove that reaches a Digest whose path `[1]` is
a strict prefix of the remove path `[1, 2]` panics as an unresolved access
instead of silently succeeding as the claim states. -/
theorem claim_c7_counterexample :
    Trie.removePath ⟨some (.digest [1] (List.replicate 32 0xbb) none)⟩
      [1, 2] = .error .unresolved := rfl

/-- C7 (amended): every `remove` whose descent enters a `Digest` node
fails with the unresolved-access panic, regardless of how the digest's
path relates to the remaining remove path — at the root for any path, and
below a branch as soon as the dispatch nibble selects a digest child.  A
remove never silently succeeds through a digest. -/
theorem claim_c7 :
    (∀ (dp : Nibbles) (dv : B256) (dh : Option B256) (p : Nibbles),
      Trie.removePath ⟨some (.digest dp dv dh)⟩ p = .error .unresolved) ∧
    (∀ (bp : Nibbles) (ch : Slots) (bh : Option B256) (p : Nibbles)
      (dp : Nibbles) (dv : B256) (dh : Option B256)
      (hc : commonPrefixLength bp p = bp.length)
      (hlt : commonPrefixLength bp p < p.length),
      ch.get (p.get ⟨commonPrefixLength bp p, hlt⟩) =
        some (.digest dp dv dh) →
      Trie.removePath ⟨some (.branch bp ch bh)⟩ p = .error .unresolved) := by
  constructor
  · intro dp dv dh p
    simp [Trie.removePath, removeNode, removeNodeF, Except.map]
  · intro bp ch bh p dp dv dh hc hlt hget
    obtain ⟨k, hk⟩ : ∃ k, p.length = k + 1 := ⟨p.length - 1, by omega⟩
    have hblen : List.length bp < k + 1 := by omega
    simp only [List.get_eq_getElem] at hget
    simp only [hc] at hget
    simp [Trie.removePath, removeNode, hk, removeNodeF, hc, hblen, hget,
      Except.map, bind_ok, error_bind]

/-- Witness for C7: the root-digest arm at the counterexample input and
the branch arm with a digest child at dispatch nibble 0. -/
theorem claim_c7_witness :
    Trie.removePath ⟨some (.digest [3] (List.replicate 32 0xbb) none)⟩
      [3, 1] = .error .unresolved ∧
    Trie.removePath
      ⟨some (.branch []
        (.consF (.digest [] (List.replicate 32 0xdd) none)
          (.consF (.leaf [] [9] none) (Slots.empties 14))) none)⟩
      [0, 5] = .error .unresolved := by
  constructor
  · exact claim_c7.1 [3] (List.replicate 32 0xbb) none [3, 1]
  · exact claim_c7.2 []
      (.consF (.digest [] (List.replicate 32 0xdd) none)
        (.consF (.leaf [] [9] none) (Slots.empties 14))) none [0, 5]
      [] (List.replicate 32 0xdd) none (by decide) (by decide) (by rfl)

/-! ### Claim C1 -/

set_option maxRecDepth 100000 in
/-- C1: evaluating the code at the failing input of spec scenario 6.
Revealing the literal regression blob (a branch whose only child is an
inlined leaf at index 0, keyed by its Keccak-256 hash) succeeds, but
`remove([0])` then reaches `one_child_left` on an emptied branch and the
`simple-trie` copy underflows `flags - 1` (a panic in debug builds,
wrapped arithmetic plus an out-of-bounds `children[16]` access in
release builds) — the call does not return.  Even the guarded `ref-mpt`
variant, which does not panic, leaves a childless branch at the root, so
`hash()` returns the Keccak of a 17-empty-item list, not the canonical
empty-trie root the claim requires. -/
theorem claim_c1 :
    Trie.revealFromRlp 100 (keccak256 c1blob)
      [(keccak256 c1blob, c1blob)] = .ok c1Trie ∧
    c1Trie.removePath [0] = .error .underflow ∧
    c1Trie.removePathG [0] = .ok ⟨some (.branch [] (Slots.empties 16) none)⟩ ∧
    Trie.hash ⟨some (.branch [] (Slots.empties 16) none)⟩ ≠ EMPTY_ROOT := by
  exact ⟨rfl, rfl, rfl, by decide⟩

/-! ### Claim C8 (counterexample) -/

/-- C8 counterexample: revealing `c8blob` (a decodable branch whose slot 0
holds an inlined one-child branch) and removing the key `[1]` completes
without error, yet the resulting trie's root is a branch with exactly one
non-empty child — a mutating operation (`remove`) whose result violates
the claimed ≥2-children invariant. -/
theorem claim_c8_counterexample :
    Trie.revealFromRlp 100 c8root [(c8root, c8blob)] = .ok c8Trie ∧
    c8Trie.removePath [1] =
      .ok ⟨some (.branch [0] (.consF (.leaf [] [1] none) (Slots.empties 15))
        none)⟩ ∧
    trieGe2 ⟨some (.branch [0] (.consF (.leaf [] [1] none)
      (Slots.empties 15)) none)⟩ = false := by
  exact ⟨rfl, rfl, rfl⟩


/-! ### Claim C4 -/

/-- Reveal is monotone in the map: with the same fuel, a superset map
yields an equal-or-more-materialized result, pointwise over the tree. -/
theorem reveal_mono : ∀ fuel : Nat,
    (∀ (m1 m2 : RlpMap) (t t1 t2 : TrieNode), RlpMap.subset m1 m2 →
      revealNodeF fuel m1 t = .ok t1 → revealNodeF fuel m2 t = .ok t2 →
      matzNode t1 t2 = true) ∧
    (∀ (m1 m2 : RlpMap) (ch ch1 ch2 : Slots), RlpMap.subset m1 m2 →
      revealSlotsF fuel m1 ch = .ok ch1 → revealSlotsF fuel m2 ch = .ok ch2 →
      matzSlots ch1 ch2 = true) := by
  intro fuel
  induction fuel with
  | zero =>
    constructor
    · intro m1 m2 t t1 t2 _ h1 _
      simp [revealNodeF] at h1
    · intro m1 m2 ch ch1 ch2 _ h1 h2
      cases ch with
      | nil =>
        simp [revealSlotsF] at h1 h2
        subst h1; subst h2; rfl
      | consE tl => simp [revealSlotsF] at h1
      | consF t tl => simp [revealSlotsF] at h1
  | succ fuel ih =>
    constructor
    · intro m1 m2 t t1 t2 hsub h1 h2
      cases t with
      | leaf p v h =>
        simp [revealNodeF] at h1 h2
        subst h1; subst h2; simp [matzNode]
      | branch p ch hh =>
        simp only [revealNodeF, bind_ok] at h1 h2
        obtain ⟨ch1', hs1, e1⟩ := h1
        obtain ⟨ch2', hs2, e2⟩ := h2
        cases e1; cases e2
        simp [matzNode]
        exact ih.2 m1 m2 ch ch1' ch2' hsub hs1 hs2
      | digest dp dv dh =>
        rw [revealNodeF] at h1 h2
        cases hl : mapLookup m1 dv with
        | none =>
          rw [hl] at h1
          cases h1
          simp [matzNode]
        | some rlp =>
          rw [hl] at h1
          rw [hsub dv rlp hl] at h2
          simp only [bind_ok] at h1 h2
          obtain ⟨n1, hdec1, k1⟩ := h1
          obtain ⟨n2, hdec2, k2⟩ := h2
          rw [hdec1] at hdec2
          cases hdec2
          cases n1 with
          | none => simp at k1
          | some node =>
            cases node with
            | digest p' v' h' =>
              by_cases hp : p' = []
              · simp [hp] at k1
                cases k1
                simp [matzNode]
              · simp [hp] at k1 k2
                exact ih.1 m1 m2 _ t1 t2 hsub k1 k2
            | branch bp bch bh =>
              simp at k1 k2
              exact ih.1 m1 m2 _ t1 t2 hsub k1 k2
            | leaf lp lv lh =>
              simp at k1 k2
              exact ih.1 m1 m2 _ t1 t2 hsub k1 k2
    · intro m1 m2 ch ch1 ch2 hsub h1 h2
      cases ch with
      | nil =>
        simp [revealSlotsF] at h1 h2
        subst h1; subst h2; rfl
      | consE tl =>
        simp only [revealSlotsF, bind_ok] at h1 h2
        obtain ⟨tl1, hs1, e1⟩ := h1
        obtain ⟨tl2, hs2, e2⟩ := h2
        cases e1; cases e2
        simp [matzSlots]
        exact ih.2 m1 m2 tl tl1 tl2 hsub hs1 hs2
      | consF t tl =>
        simp only [revealSlotsF, bind_ok] at h1 h2
        obtain ⟨t1', hn1, tl1, hs1, e1⟩ := h1
        obtain ⟨t2', hn2, tl2, hs2, e2⟩ := h2
        cases e1; cases e2
        simp [matzSlots]
        exact ⟨ih.1 m1 m2 t t1' t2' hsub hn1 hn2,
               ih.2 m1 m2 tl tl1 tl2 hsub hs1 hs2⟩

/-- C4: for every root hash and reveal maps `m1 ⊆ m2` (with the same
reveal fuel), whenever both reveals return a trie, each returned trie
hashes to the requested root hash, and the `m2`-trie is an
equal-or-more-materialized version of the `m1`-trie (reveal is idempotent
— take `m1 = m2` — and monotone, and the root hash never changes through
reveal). -/
theorem claim_c4 {fuel : Nat} {r : B256} {m1 m2 : RlpMap} {t1 t2 : Trie}
    (h1 : Trie.revealFromRlp fuel r m1 = .ok t1)
    (hsub : RlpMap.subset m1 m2)
    (h2 : Trie.revealFromRlp fuel r m2 = .ok t2) :
    t1.hash = r ∧ t2.hash = r ∧ trieMatz t1 t2 = true := by
  refine ⟨revealFromRlp_hash h1, revealFromRlp_hash h2, ?_⟩
  rw [Trie.revealFromRlp] at h1 h2
  by_cases he : r = EMPTY_ROOT
  · simp [he] at h1 h2
    subst h1; subst h2; rfl
  · simp only [he, if_false, bind_ok] at h1 h2
    obtain ⟨root1, hr1, e1⟩ := h1
    obtain ⟨root2, hr2, e2⟩ := h2
    cases e1; cases e2
    simpa [trieMatz] using
      (reveal_mono fuel).1 m1 m2 _ root1 root2 hsub hr1 hr2

/-- Witness for C4: the empty map against the map holding `c8blob`. -/
theorem claim_c4_witness :
    Trie.revealFromRlp 100 c8root [] =
      .ok ⟨some (.digest [] c8root (some c8root))⟩ ∧
    RlpMap.subset [] [(c8root, c8blob)] ∧
    (⟨some (.digest [] c8root (some c8root))⟩ : Trie).hash = c8root ∧
    c8Trie.hash = c8root ∧
    trieMatz ⟨some (.digest [] c8root (some c8root))⟩ c8Trie = true := by
  have h1 : Trie.revealFromRlp 100 c8root [] =
      .ok ⟨some (.digest [] c8root (some c8root))⟩ := rfl
  have h2 : Trie.revealFromRlp 100 c8root [(c8root, c8blob)] = .ok c8Trie :=
    rfl
  have hsub : RlpMap.subset [] [(c8root, c8blob)] := by
    intro k v hkv
    simp [mapLookup] at hkv
  obtain ⟨a, b, c⟩ := claim_c4 h1 hsub h2
  exact ⟨h1, hsub, a, b, c⟩


/-! ### Claim C5: supporting lemmas -/

theorem land_two_mul_add_one (a b : Nat) :
    (2 * a) &&& (2 * b + 1) = 2 * (a &&& b) := by
  apply Nat.eq_of_testBit_eq
  intro i
  cases i with
  | zero => simp [Nat.testBit_zero, Nat.testBit_land]
  | succ i =>
    rw [Nat.testBit_land, Nat.testBit_succ, Nat.testBit_succ,
      Nat.testBit_succ]
    have h1 : 2 * a / 2 = a := by omega
    have h2 : (2 * b + 1) / 2 = b := by omega
    have h3 : 2 * (a &&& b) / 2 = a &&& b := by omega
    rw [h1, h2, h3, Nat.testBit_land]

theorem add_one_land_two_mul (a b : Nat) :
    (2 * a + 1) &&& (2 * b) = 2 * (a &&& b) := by
  apply Nat.eq_of_testBit_eq
  intro i
  cases i with
  | zero => simp [Nat.testBit_zero, Nat.testBit_land]
  | succ i =>
    rw [Nat.testBit_land, Nat.testBit_succ, Nat.testBit_succ,
      Nat.testBit_succ]
    have h1 : (2 * a + 1) / 2 = a := by omega
    have h2 : 2 * b / 2 = b := by omega
    have h3 : 2 * (a &&& b) / 2 = a &&& b := by omega
    rw [h1, h2, h3, Nat.testBit_land]

theorem flags_eq_zero_iff : ∀ ch : Slots, ch.flags = 0 ↔ countFull ch = 0
  | .nil => by simp [Slots.flags, countFull]
  | .consE tl => by simp [Slots.flags, countFull, flags_eq_zero_iff tl]
  | .consF t tl => by simp [Slots.flags, countFull]

theorem flags_land_pred_iff :
    ∀ ch : Slots, (ch.flags &&& (ch.flags - 1) = 0) ↔ countFull ch ≤ 1
  | .nil => by simp [Slots.flags, countFull]
  | .consE tl => by
    simp only [Slots.flags, countFull]
    by_cases hz : tl.flags = 0
    · simp [hz, (flags_eq_zero_iff tl).mp hz]
    · have hf : 2 * tl.flags - 1 = 2 * (tl.flags - 1) + 1 := by omega
      rw [hf, land_two_mul_add_one]
      simpa using flags_land_pred_iff tl
  | .consF t tl => by
    simp only [Slots.flags, countFull]
    have hf : 2 * tl.flags + 1 - 1 = 2 * tl.flags := by omega
    have hself : tl.flags &&& tl.flags = tl.flags :=
      Nat.eq_of_testBit_eq fun i => by simp [Nat.testBit_land]
    rw [hf, add_one_land_two_mul, hself]
    constructor
    · intro h
      have := (flags_eq_zero_iff tl).mp (by omega)
      omega
    · intro h
      have : countFull tl = 0 := by omega
      have := (flags_eq_zero_iff tl).mpr this
      omega

theorem oneChildLeftU_of_ge2 {ch : Slots} (h : 2 ≤ countFull ch) :
    oneChildLeftU ch = .ok none := by
  have h0 : ch.flags ≠ 0 := fun hz => by
    have := (flags_eq_zero_iff ch).mp hz
    omega
  have h1 : ch.flags &&& (ch.flags - 1) ≠ 0 := fun hz => by
    have := (flags_land_pred_iff ch).mp hz
    omega
  simp [oneChildLeftU, h0, h1]

theorem chIsEmpty_false_of_pos {ch : Slots} (h : 1 ≤ countFull ch) :
    chIsEmpty ch = false := by
  have h0 : ch.flags ≠ 0 := fun hz => by
    have := (flags_eq_zero_iff ch).mp hz
    omega
  simp [chIsEmpty, h0]

theorem slotsDigestFree_get :
    ∀ (ch : Slots) (i : Nat) {c : TrieNode}, slotsDigestFree ch = true →
      ch.get i = some c → nodeDigestFree c = true
  | .nil, i, _, _, hg => by simp [Slots.get] at hg
  | .consE tl, 0, _, _, hg => by simp [Slots.get] at hg
  | .consE tl, n + 1, _, hdf, hg =>
    slotsDigestFree_get tl n (by simpa [slotsDigestFree] using hdf) hg
  | .consF t tl, 0, c, hdf, hg => by
    simp only [slotsDigestFree, Bool.and_eq_true] at hdf
    simp [Slots.get] at hg
    exact hg ▸ hdf.1
  | .consF t tl, n + 1, _, hdf, hg => by
    simp only [slotsDigestFree, Bool.and_eq_true] at hdf
    exact slotsDigestFree_get tl n hdf.2 hg

theorem slotsGe2_get :
    ∀ (ch : Slots) (i : Nat) {c : TrieNode}, slotsGe2 ch = true →
      ch.get i = some c → nodeGe2 c = true
  | .nil, i, _, _, hg => by simp [Slots.get] at hg
  | .consE tl, 0, _, _, hg => by simp [Slots.get] at hg
  | .consE tl, n + 1, _, hdf, hg =>
    slotsGe2_get tl n (by simpa [slotsGe2] using hdf) hg
  | .consF t tl, 0, c, hdf, hg => by
    simp only [slotsGe2, Bool.and_eq_true] at hdf
    simp [Slots.get] at hg
    exact hg ▸ hdf.1
  | .consF t tl, n + 1, _, hdf, hg => by
    simp only [slotsGe2, Bool.and_eq_true] at hdf
    exact slotsGe2_get tl n hdf.2 hg

theorem countFull_setF_of_get_some :
    ∀ (ch : Slots) (i : Nat) {c : TrieNode} (c' : TrieNode),
      ch.get i = some c → countFull (ch.setF i c') = countFull ch
  | .nil, i, _, _, hg => by simp [Slots.get] at hg
  | .consE tl, 0, _, _, hg => by simp [Slots.get] at hg
  | .consE tl, n + 1, _, c', hg => by
    simp [Slots.setF, countFull, countFull_setF_of_get_some tl n c' hg]
  | .consF t tl, 0, _, c', hg => by simp [Slots.setF, countFull]
  | .consF t tl, n + 1, _, c', hg => by
    simp [Slots.setF, countFull, countFull_setF_of_get_some tl n c' hg]

mutual

theorem eqUpToCache_refl : ∀ t : TrieNode, eqUpToCache t t = true
  | .leaf p v h => by simp [eqUpToCache]
  | .branch p ch h => by simp [eqUpToCache, eqUpToCacheS_refl ch]
  | .digest p v h => by simp [eqUpToCache]

theorem eqUpToCacheS_refl : ∀ ch : Slots, eqUpToCacheS ch ch = true
  | .nil => rfl
  | .consE tl => by simpa [eqUpToCacheS] using eqUpToCacheS_refl tl
  | .consF t tl => by
    simp [eqUpToCacheS, eqUpToCache_refl t, eqUpToCacheS_refl tl]

end

theorem eqUpToCacheS_setF :
    ∀ (ch : Slots) (i : Nat) {c c' : TrieNode}, ch.get i = some c →
      eqUpToCache c c' = true → eqUpToCacheS ch (ch.setF i c') = true
  | .nil, i, _, _, hg, _ => by simp [Slots.get] at hg
  | .consE tl, 0, _, _, hg, _ => by simp [Slots.get] at hg
  | .consE tl, n + 1, _, _, hg, he => by
    simpa [Slots.setF, eqUpToCacheS] using eqUpToCacheS_setF tl n hg he
  | .consF t tl, 0, c, c', hg, he => by
    simp [Slots.get] at hg
    subst hg
    simp [Slots.setF, eqUpToCacheS, he, eqUpToCacheS_refl]
  | .consF t tl, n + 1, _, _, hg, he => by
    simp [Slots.setF, eqUpToCacheS, eqUpToCacheS_setF tl n hg he,
      eqUpToCache_refl]

theorem countFull_eqS :
    ∀ (ch ch' : Slots), eqUpToCacheS ch ch' = true →
      countFull ch' = countFull ch
  | .nil, .nil, _ => rfl
  | .nil, .consE _, he => by simp [eqUpToCacheS] at he
  | .nil, .consF _ _, he => by simp [eqUpToCacheS] at he
  | .consE _, .nil, he => by simp [eqUpToCacheS] at he
  | .consE tl, .consE tl', he => by
    simp only [eqUpToCacheS] at he
    simp [countFull, countFull_eqS tl tl' he]
  | .consE _, .consF _ _, he => by simp [eqUpToCacheS] at he
  | .consF _ _, .nil, he => by simp [eqUpToCacheS] at he
  | .consF _ _, .consE _, he => by simp [eqUpToCacheS] at he
  | .consF t tl, .consF t' tl', he => by
    simp only [eqUpToCacheS, Bool.and_eq_true] at he
    simp [countFull, countFull_eqS tl tl' he.2]


mutual

theorem encodeNode_congr :
    ∀ (t t' : TrieNode), nodeDigestFree t = true →
      eqUpToCache t t' = true → encodeNode t' = encodeNode t
  | .leaf p v h, .leaf p' v' h', _, he => by
    simp only [eqUpToCache, Bool.and_eq_true, decide_eq_true_eq] at he
    simp [encodeNode, he.1, he.2]
  | .branch p ch h, .branch p' ch' h', hdf, he => by
    simp only [eqUpToCache, Bool.and_eq_true, decide_eq_true_eq] at he
    have hs := encodeSlots_congr ch ch'
      (by simpa [nodeDigestFree] using hdf) he.2
    simp [encodeNode, he.1, hs]
  | .leaf _ _ _, .branch _ _ _, _, he => by simp [eqUpToCache] at he
  | .leaf _ _ _, .digest _ _ _, _, he => by simp [eqUpToCache] at he
  | .branch _ _ _, .leaf _ _ _, _, he => by simp [eqUpToCache] at he
  | .branch _ _ _, .digest _ _ _, _, he => by simp [eqUpToCache] at he
  | .digest _ _ _, _, hdf, _ => by simp [nodeDigestFree] at hdf

theorem encodeSlots_congr :
    ∀ (ch ch' : Slots), slotsDigestFree ch = true →
      eqUpToCacheS ch ch' = true → encodeSlots ch' = encodeSlots ch
  | .nil, .nil, _, _ => rfl
  | .nil, .consE _, _, he => by simp [eqUpToCacheS] at he
  | .nil, .consF _ _, _, he => by simp [eqUpToCacheS] at he
  | .consE _, .nil, _, he => by simp [eqUpToCacheS] at he
  | .consE tl, .consE tl', hdf, he => by
    simp only [eqUpToCacheS] at he
    simp [encodeSlots,
      encodeSlots_congr tl tl' (by simpa [slotsDigestFree] using hdf) he]
  | .consE _, .consF _ _, _, he => by simp [eqUpToCacheS] at he
  | .consF _ _, .nil, _, he => by simp [eqUpToCacheS] at he
  | .consF _ _, .consE _, _, he => by simp [eqUpToCacheS] at he
  | .consF t tl, .consF t' tl', hdf, he => by
    simp only [eqUpToCacheS, Bool.and_eq_true] at he
    simp only [slotsDigestFree, Bool.and_eq_true] at hdf
    have hn := encodeNode_congr t t' hdf.1 he.1
    have hs := encodeSlots_congr tl tl' hdf.2 he.2
    cases t with
    | digest _ _ _ => exact absurd hdf.1 (by simp [nodeDigestFree])
    | leaf p v h =>
      cases t' with
      | leaf p2 v2 h2 => simp [encodeSlots, hs, hn]
      | branch _ _ _ => simp [eqUpToCache] at he
      | digest _ _ _ => simp [eqUpToCache] at he
    | branch p ch2 h =>
      cases t' with
      | leaf _ _ _ => simp [eqUpToCache] at he
      | branch p2 ch3 h2 => simp [encodeSlots, hs, hn]
      | digest _ _ _ => simp [eqUpToCache] at he

end

/-- Removing an absent path from a digest-free trie whose branches all have
at least two children is a structural no-op: the call succeeds and returns
the same tree up to cleared hash caches, with the root cache cleared. -/
theorem ok_bind {α β : Type} {a : α} {k : α → Except Err β} :
    (Except.ok a >>= k : Except Err β) = k a := rfl

theorem removeNoop :
    ∀ {fuel : Nat} {t : TrieNode} {path : Nibbles},
      nodeDigestFree t = true → nodeGe2 t = true →
      getNodeF fuel t path = .ok none →
      ∃ t', removeNodeF fuel t path = .ok t' ∧ eqUpToCache t t' = true ∧
        cacheOf t' = none := by
  intro fuel
  induction fuel with
  | zero => intro t path _ _ hget; simp [getNodeF] at hget
  | succ fuel ih =>
    intro t path hdf hg2 hget
    cases t with
    | digest dp dv dh => simp [nodeDigestFree] at hdf
    | leaf lp v h =>
      refine ⟨.leaf lp v none, rfl, ?_, rfl⟩
      simp [eqUpToCache]
    | branch bp ch bh =>
      simp only [nodeGe2, Bool.and_eq_true, decide_eq_true_eq] at hg2
      simp only [nodeDigestFree] at hdf
      rw [getNodeF] at hget
      rw [removeNodeF]
      by_cases hc : commonPrefixLength bp path = bp.length
      · rw [if_pos hc] at hget ⊢
        by_cases hlt : commonPrefixLength bp path < path.length
        · rw [dif_pos hlt] at hget ⊢
          cases hch : ch.get (path.get ⟨commonPrefixLength bp path, hlt⟩) with
          | none =>
            simp only [hch] at hget ⊢
            refine ⟨.branch bp ch none, ?_, ?_, rfl⟩
            · show (Except.ok ch >>= _) = _
              rw [ok_bind, oneChildLeftU_of_ge2 hg2.1, ok_bind]
            · simp [eqUpToCache, eqUpToCacheS_refl]
          | some child =>
            simp only [hch] at hget ⊢
            have hcdf := slotsDigestFree_get ch _ hdf hch
            have hcg2 := slotsGe2_get ch _ hg2.2 hch
            obtain ⟨child', hrem, heq, hcache⟩ := ih hcdf hcg2 hget
            rw [hrem]
            cases child with
            | digest _ _ _ => simp [nodeDigestFree] at hcdf
            | leaf clp cv chh =>
              cases child' with
              | branch _ _ _ => simp [eqUpToCache] at heq
              | digest _ _ _ => simp [eqUpToCache] at heq
              | leaf clp' cv' chh' =>
                simp only [eqUpToCache, Bool.and_eq_true,
                  decide_eq_true_eq] at heq
                obtain ⟨hp, hv⟩ := heq
                subst hp; subst hv
                simp only [cacheOf] at hcache
                subst hcache
                have hne : clp ≠ path.drop (commonPrefixLength bp path + 1) := by
                  intro hcontra
                  cases fuel with
                  | zero => simp [getNodeF] at hget
                  | succ f =>
                    rw [getNodeF] at hget
                    simp [hcontra] at hget
                have hcnt := countFull_setF_of_get_some ch
                  (path.get ⟨commonPrefixLength bp path, hlt⟩)
                  (TrieNode.leaf clp cv none) hch
                have hone := @oneChildLeftU_of_ge2 (ch.setF
                  (path.get ⟨commonPrefixLength bp path, hlt⟩)
                  (.leaf clp cv none)) (by omega)
                refine ⟨.branch bp
                  (ch.setF (path.get ⟨commonPrefixLength bp path, hlt⟩)
                    (.leaf clp cv none)) none, ?_, ?_, rfl⟩
                · rw [ok_bind]
                  simp only [List.get_eq_getElem] at hone
                  simp [hne, ok_bind, hone]
                · have hset := eqUpToCacheS_setF ch _ hch
                    (show eqUpToCache (TrieNode.leaf clp cv chh)
                      (TrieNode.leaf clp cv none) = true by
                        simp [eqUpToCache])
                  simp only [List.get_eq_getElem] at hset
                  simp [eqUpToCache, hset]
            | branch cbp cch cbh =>
              cases child' with
              | leaf _ _ _ => simp [eqUpToCache] at heq
              | digest _ _ _ => simp [eqUpToCache] at heq
              | branch cbp' cch' cbh' =>
                simp only [eqUpToCache, Bool.and_eq_true,
                  decide_eq_true_eq] at heq
                obtain ⟨hp, hs⟩ := heq
                subst hp
                simp only [nodeGe2, Bool.and_eq_true,
                  decide_eq_true_eq] at hcg2
                have hemp : chIsEmpty cch' = false := by
                  apply chIsEmpty_false_of_pos
                  rw [countFull_eqS cch cch' hs]
                  omega
                have hcnt := countFull_setF_of_get_some ch
                  (path.get ⟨commonPrefixLength bp path, hlt⟩)
                  (TrieNode.branch cbp cch' cbh') hch
                have hone := @oneChildLeftU_of_ge2 (ch.setF
                  (path.get ⟨commonPrefixLength bp path, hlt⟩)
                  (.branch cbp cch' cbh')) (by omega)
                refine ⟨.branch bp
                  (ch.setF (path.get ⟨commonPrefixLength bp path, hlt⟩)
                    (.branch cbp cch' cbh')) none, ?_, ?_, rfl⟩
                · rw [ok_bind]
                  simp only [List.get_eq_getElem] at hone
                  simp [hemp, ok_bind, hone]
                · have hset := eqUpToCacheS_setF ch _ hch
                    (show eqUpToCache (TrieNode.branch cbp cch cbh)
                      (TrieNode.branch cbp cch' cbh') = true by
                        simp [eqUpToCache, hs])
                  simp only [List.get_eq_getElem] at hset
                  simp [eqUpToCache, hset]
        · rw [dif_neg hlt] at hget
          simp at hget
      · rw [if_neg hc] at hget ⊢
        refine ⟨.branch bp ch none, ?_, ?_, rfl⟩
        · show (Except.ok ch >>= _) = _
          rw [ok_bind, oneChildLeftU_of_ge2 hg2.1, ok_bind]
        · simp [eqUpToCache, eqUpToCacheS_refl]


/-- C5 (amended): for every trie that contains no `Digest` nodes,
satisfies invariant I1 (every branch has at least two non-empty children)
and invariant I3 at the root (the root cache is unset or consistent),
removing a key that is not present (`get` returns `None`) succeeds and
leaves the root hash unchanged. -/
theorem claim_c5 {t : Trie} {key : Bytes}
    (hdf : trieDigestFree t = true) (hg : trieGe2 t = true)
    (hcache : rootCacheOk t = true)
    (habs : t.getB key = .ok none) :
    ∃ t', t.removeB key = .ok t' ∧ t'.hash = t.hash := by
  cases hr : t.root with
  | none =>
    refine ⟨t, ?_, rfl⟩
    simp [Trie.removeB, Trie.removePath, hr]
  | some root =>
    cases root with
    | digest dp dv dh =>
      simp [trieDigestFree, hr, nodeDigestFree] at hdf
    | leaf lp v h =>
      have hne : unpack key ≠ lp := by
        simp [Trie.getB, Trie.getPath, hr, getNode, getNodeF] at habs
        intro hcontra
        simp [hcontra] at habs
      refine ⟨t, ?_, rfl⟩
      simp [Trie.removeB, Trie.removePath, hr, hne]
    | branch bp ch bh =>
      have hdf' : nodeDigestFree (.branch bp ch bh) = true := by
        simpa [trieDigestFree, hr] using hdf
      have hg' : nodeGe2 (.branch bp ch bh) = true := by
        simpa [trieGe2, hr] using hg
      have hget' : getNodeF ((unpack key).length + 1) (.branch bp ch bh)
          (unpack key) = .ok none := by
        simpa [Trie.getB, Trie.getPath, hr, getNode] using habs
      obtain ⟨t', hrem, heq, hcache'⟩ := removeNoop hdf' hg' hget'
      refine ⟨⟨some t'⟩, ?_, ?_⟩
      · simp [Trie.removeB, Trie.removePath, hr, removeNode, hrem,
          Except.map]
      · cases t' with
        | leaf _ _ _ => simp [eqUpToCache] at heq
        | digest _ _ _ => simp [eqUpToCache] at heq
        | branch bp' ch' bh' =>
          simp only [cacheOf] at hcache'
          subst hcache'
          simp only [eqUpToCache, Bool.and_eq_true, decide_eq_true_eq] at heq
          obtain ⟨hbp, hs⟩ := heq
          subst hbp
          have henc := encodeNode_congr (.branch bp ch bh)
            (.branch bp ch' none) hdf'
            (by simp [eqUpToCache, hs])
          have hencb : encodeNode (.branch bp ch bh) =
              encodeNode (.branch bp ch none) := by
            simp [encodeNode]
          simp only [Trie.hash, hr, nodeHash]
          cases bh with
          | none => rw [henc, hencb]
          | some hh =>
            have hcc : hh = nodeHash (clearCacheTop (.branch bp ch (some hh))) := by
              simpa [rootCacheOk, hr, cacheOf] using hcache
            rw [henc, hencb, hcc]
            simp [clearCacheTop, nodeHash]

/-- Witness for C5: a two-leaf branch trie with the absent key `0x2000…00`. -/
theorem claim_c5_witness :
    ∃ t', Trie.removeB
        ⟨some (.branch []
          (.consF (.leaf (List.replicate 63 0) [1] none)
            (.consF (.leaf (List.replicate 63 0) [2] none)
              (Slots.empties 14))) none)⟩
        (0x20 :: List.replicate 31 0) = .ok t' ∧
      t'.hash = Trie.hash ⟨some (.branch []
        (.consF (.leaf (List.replicate 63 0) [1] none)
          (.consF (.leaf (List.replicate 63 0) [2] none)
            (Slots.empties 14))) none)⟩ :=
  claim_c5 (by rfl) (by rfl) (by rfl) (by rfl)

set_option maxRecDepth 100000 in
/-- Counterexample to C5 as stated: the claim quantifies over *every* trie
with no `Digest` nodes, but on a digest-free trie whose root branch has a
single non-empty child (violating invariant I1, which the claim does not
assume), removing the absent key `0x000…00` collapses the branch into a
leaf and the root hash changes. -/
theorem claim_c5_counterexample :
    trieDigestFree
        ⟨some (.branch [0] (.consF (.leaf [] [1] none) (Slots.empties 15))
          none)⟩ = true ∧
      Trie.getB
        ⟨some (.branch [0] (.consF (.leaf [] [1] none) (Slots.empties 15))
          none)⟩ (List.replicate 32 0) = .ok none ∧
      Trie.removeB
        ⟨some (.branch [0] (.consF (.leaf [] [1] none) (Slots.empties 15))
          none)⟩ (List.replicate 32 0) = .ok ⟨some (.leaf [0, 0] [1] none)⟩ ∧
      Trie.hash ⟨some (.leaf [0, 0] [1] none)⟩ ≠
        Trie.hash ⟨some (.branch [0]
          (.consF (.leaf [] [1] none) (Slots.empties 15)) none)⟩ := by
  refine ⟨rfl, rfl, rfl, ?_⟩
  decide

/-! ### Claim C8: supporting lemmas -/

theorem size_setF : ∀ (ch : Slots) (i : Nat) (c : TrieNode),
    (ch.setF i c).size = ch.size
  | .nil, _, _ => rfl
  | .consE _, 0, _ => rfl
  | .consF _ _, 0, _ => rfl
  | .consE tl, n + 1, c => by
    simp [Slots.setF, Slots.size, size_setF tl n c]
  | .consF t tl, n + 1, c => by
    simp [Slots.setF, Slots.size, size_setF tl n c]

theorem size_setE : ∀ (ch : Slots) (i : Nat), (ch.setE i).size = ch.size
  | .nil, _ => rfl
  | .consE _, 0 => rfl
  | .consF _ _, 0 => rfl
  | .consE tl, n + 1 => by simp [Slots.setE, Slots.size, size_setE tl n]
  | .consF t tl, n + 1 => by simp [Slots.setE, Slots.size, size_setE tl n]

theorem empties_size : ∀ n : Nat, (Slots.empties n).size = n
  | 0 => rfl
  | n + 1 => by simp [Slots.empties, Slots.size, empties_size n]

theorem empties_get : ∀ n i : Nat, (Slots.empties n).get i = none
  | 0, _ => rfl
  | _ + 1, 0 => rfl
  | n + 1, i + 1 => by simp [Slots.empties, Slots.get, empties_get n i]

theorem countFull_empties : ∀ n : Nat, countFull (Slots.empties n) = 0
  | 0 => rfl
  | n + 1 => by simp [Slots.empties, countFull, countFull_empties n]

theorem slotsGe2_empties : ∀ n : Nat, slotsGe2 (Slots.empties n) = true
  | 0 => rfl
  | n + 1 => by simp [Slots.empties, slotsGe2, slotsGe2_empties n]

theorem slotsNib_empties : ∀ n : Nat, slotsNib (Slots.empties n) = true
  | 0 => rfl
  | n + 1 => by simp [Slots.empties, slotsNib, slotsNib_empties n]

theorem get_setF_self : ∀ (ch : Slots) (i : Nat) (c : TrieNode),
    i < ch.size → (ch.setF i c).get i = some c
  | .nil, _, _, h => by simp [Slots.size] at h
  | .consE _, 0, _, _ => rfl
  | .consF _ _, 0, _, _ => rfl
  | .consE tl, n + 1, c, h => by
    simp only [Slots.size] at h
    simp [Slots.setF, Slots.get, get_setF_self tl n c (by omega)]
  | .consF t tl, n + 1, c, h => by
    simp only [Slots.size] at h
    simp [Slots.setF, Slots.get, get_setF_self tl n c (by omega)]

theorem get_setF_ne : ∀ (ch : Slots) (i j : Nat) (c : TrieNode), i ≠ j →
    (ch.setF i c).get j = ch.get j
  | .nil, _, _, _, _ => rfl
  | .consE _, 0, 0, _, h => absurd rfl h
  | .consF _ _, 0, 0, _, h => absurd rfl h
  | .consE _, 0, _ + 1, _, _ => rfl
  | .consF _ _, 0, _ + 1, _, _ => rfl
  | .consE _, _ + 1, 0, _, _ => rfl
  | .consF _ _, _ + 1, 0, _, _ => rfl
  | .consE tl, i + 1, j + 1, c, h => by
    simp [Slots.setF, Slots.get, get_setF_ne tl i j c (by omega)]
  | .consF t tl, i + 1, j + 1, c, h => by
    simp [Slots.setF, Slots.get, get_setF_ne tl i j c (by omega)]

theorem countFull_setF_of_get_none :
    ∀ (ch : Slots) (i : Nat) (c : TrieNode), ch.get i = none →
      i < ch.size → countFull (ch.setF i c) = countFull ch + 1
  | .nil, i, _, _, h => by simp [Slots.size] at h
  | .consE tl, 0, c, _, _ => by simp [Slots.setF, countFull]
  | .consF _ _, 0, _, hg, _ => by simp [Slots.get] at hg
  | .consE tl, n + 1, c, hg, h => by
    simp only [Slots.size] at h
    simp only [Slots.get] at hg
    simp [Slots.setF, countFull,
      countFull_setF_of_get_none tl n c hg (by omega)]
  | .consF t tl, n + 1, c, hg, h => by
    simp only [Slots.size] at h
    simp only [Slots.get] at hg
    simp [Slots.setF, countFull,
      countFull_setF_of_get_none tl n c hg (by omega)]

theorem countFull_setE_of_get_some :
    ∀ (ch : Slots) (i : Nat) {c : TrieNode}, ch.get i = some c →
      countFull (ch.setE i) + 1 = countFull ch
  | .nil, i, _, hg => by simp [Slots.get] at hg
  | .consE _, 0, _, hg => by simp [Slots.get] at hg
  | .consF _ _, 0, _, _ => by simp [Slots.setE, countFull]
  | .consE tl, n + 1, _, hg => by
    simp only [Slots.get] at hg
    simp [Slots.setE, countFull, countFull_setE_of_get_some tl n hg]
  | .consF t tl, n + 1, _, hg => by
    simp only [Slots.get] at hg
    have := countFull_setE_of_get_some tl n hg
    simp only [Slots.setE, countFull]
    omega

theorem slotsGe2_setF :
    ∀ (ch : Slots) (i : Nat) {c : TrieNode}, slotsGe2 ch = true →
      nodeGe2 c = true → slotsGe2 (ch.setF i c) = true
  | .nil, _, _, h, _ => h
  | .consE tl, 0, c, h, hc => by
    simp only [slotsGe2] at h
    simp [Slots.setF, slotsGe2, h, hc]
  | .consF t tl, 0, c, h, hc => by
    simp only [slotsGe2, Bool.and_eq_true] at h
    simp [Slots.setF, slotsGe2, h.2, hc]
  | .consE tl, n + 1, c, h, hc => by
    simp only [slotsGe2] at h
    simp [Slots.setF, slotsGe2, slotsGe2_setF tl n h hc]
  | .consF t tl, n + 1, c, h, hc => by
    simp only [slotsGe2, Bool.and_eq_true] at h
    simp [Slots.setF, slotsGe2, h.1, slotsGe2_setF tl n h.2 hc]

theorem slotsGe2_setE :
    ∀ (ch : Slots) (i : Nat), slotsGe2 ch = true →
      slotsGe2 (ch.setE i) = true
  | .nil, _, h => h
  | .consE tl, 0, h => by
    simp only [slotsGe2] at h
    simp [Slots.setE, slotsGe2, h]
  | .consF t tl, 0, h => by
    simp only [slotsGe2, Bool.and_eq_true] at h
    simp [Slots.setE, slotsGe2, h.2]
  | .consE tl, n + 1, h => by
    simp only [slotsGe2] at h
    simp [Slots.setE, slotsGe2, slotsGe2_setE tl n h]
  | .consF t tl, n + 1, h => by
    simp only [slotsGe2, Bool.and_eq_true] at h
    simp [Slots.setE, slotsGe2, h.1, slotsGe2_setE tl n h.2]

theorem slotsNib_setF :
    ∀ (ch : Slots) (i : Nat) {c : TrieNode}, slotsNib ch = true →
      nodeNib c = true → slotsNib (ch.setF i c) = true
  | .nil, _, _, h, _ => h
  | .consE tl, 0, c, h, hc => by
    simp only [slotsNib] at h
    simp [Slots.setF, slotsNib, h, hc]
  | .consF t tl, 0, c, h, hc => by
    simp only [slotsNib, Bool.and_eq_true] at h
    simp [Slots.setF, slotsNib, h.2, hc]
  | .consE tl, n + 1, c, h, hc => by
    simp only [slotsNib] at h
    simp [Slots.setF, slotsNib, slotsNib_setF tl n h hc]
  | .consF t tl, n + 1, c, h, hc => by
    simp only [slotsNib, Bool.and_eq_true] at h
    simp [Slots.setF, slotsNib, h.1, slotsNib_setF tl n h.2 hc]

theorem slotsNib_setE :
    ∀ (ch : Slots) (i : Nat), slotsNib ch = true →
      slotsNib (ch.setE i) = true
  | .nil, _, h => h
  | .consE tl, 0, h => by
    simp only [slotsNib] at h
    simp [Slots.setE, slotsNib, h]
  | .consF t tl, 0, h => by
    simp only [slotsNib, Bool.and_eq_true] at h
    simp [Slots.setE, slotsNib, h.2]
  | .consE tl, n + 1, h => by
    simp only [slotsNib] at h
    simp [Slots.setE, slotsNib, slotsNib_setE tl n h]
  | .consF t tl, n + 1, h => by
    simp only [slotsNib, Bool.and_eq_true] at h
    simp [Slots.setE, slotsNib, h.1, slotsNib_setE tl n h.2]

theorem slotsNib_get :
    ∀ (ch : Slots) (i : Nat) {c : TrieNode}, slotsNib ch = true →
      ch.get i = some c → nodeNib c = true
  | .nil, i, _, _, hg => by simp [Slots.get] at hg
  | .consE tl, 0, _, _, hg => by simp [Slots.get] at hg
  | .consE tl, n + 1, _, hdf, hg =>
    slotsNib_get tl n (by simpa [slotsNib] using hdf) hg
  | .consF t tl, 0, c, hdf, hg => by
    simp only [slotsNib, Bool.and_eq_true] at hdf
    simp [Slots.get] at hg
    exact hg ▸ hdf.1
  | .consF t tl, n + 1, _, hdf, hg => by
    simp only [slotsNib, Bool.and_eq_true] at hdf
    exact slotsNib_get tl n hdf.2 hg

theorem flags_lt_two_pow : ∀ ch : Slots, ch.flags < 2 ^ ch.size
  | .nil => by simp [Slots.flags, Slots.size]
  | .consE tl => by
    have := flags_lt_two_pow tl
    simp only [Slots.flags, Slots.size, Nat.pow_succ]
    omega
  | .consF t tl => by
    have := flags_lt_two_pow tl
    simp only [Slots.flags, Slots.size, Nat.pow_succ]
    omega

theorem trailZerosAux_succ (k n : Nat) :
    trailZerosAux (k + 1) n =
      if n % 2 = 1 then 0 else trailZerosAux k (n / 2) + 1 := rfl

theorem trailZerosAux_congr : ∀ (k k' n : Nat), n ≠ 0 → n < 2 ^ k →
    n < 2 ^ k' → trailZerosAux k n = trailZerosAux k' n
  | 0, _, n, hn, hk, _ => by simp [Nat.pow_zero] at hk; omega
  | _ + 1, 0, n, hn, _, hk' => by simp [Nat.pow_zero] at hk'; omega
  | k + 1, k' + 1, n, hn, hk, hk' => by
    by_cases h2 : n % 2 = 1
    · simp [trailZerosAux_succ, h2]
    · have hhalf : n / 2 ≠ 0 := by omega
      have h1 : n / 2 < 2 ^ k := by
        rw [Nat.pow_succ] at hk; omega
      have h1' : n / 2 < 2 ^ k' := by
        rw [Nat.pow_succ] at hk'; omega
      simp [trailZerosAux_succ, h2,
        trailZerosAux_congr k k' (n / 2) hhalf h1 h1']

theorem trailZeros_two_mul {f : Nat} (h0 : f ≠ 0) (hf : f < 2 ^ 15) :
    trailZeros (2 * f) = trailZeros f + 1 := by
  have hev : ¬(2 * f % 2 = 1) := by omega
  have hdiv : 2 * f / 2 = f := by omega
  show trailZerosAux (15 + 1) (2 * f) = trailZerosAux 16 f + 1
  have hf' : f < 2 ^ 16 := by
    have h16 : (2:Nat) ^ 15 < 2 ^ 16 := by norm_num
    omega
  rw [trailZerosAux_succ, if_neg hev, hdiv,
    trailZerosAux_congr 15 16 f h0 hf hf']

theorem trailZeros_get : ∀ ch : Slots, ch.size ≤ 16 → countFull ch = 1 →
    ∃ c, ch.get (trailZeros ch.flags) = some c ∧
      trailZeros ch.flags < ch.size
  | .nil, _, hcnt => by simp [countFull] at hcnt
  | .consF t tl, _, hcnt => by
    have h0 : countFull tl = 0 := by
      simp only [countFull] at hcnt; omega
    have hf0 : tl.flags = 0 := (flags_eq_zero_iff tl).mpr h0
    have hfl : (Slots.consF t tl).flags = 1 := by simp [Slots.flags, hf0]
    rw [hfl]
    have h1 : trailZeros 1 = 0 := by decide
    rw [h1]
    exact ⟨t, rfl, by simp [Slots.size]⟩
  | .consE tl, hsz, hcnt => by
    simp only [countFull] at hcnt
    simp only [Slots.size] at hsz
    obtain ⟨c, hget, hlt⟩ := trailZeros_get tl (by omega) hcnt
    have hf0 : tl.flags ≠ 0 := fun hz => by
      have := (flags_eq_zero_iff tl).mp hz; omega
    have hfl : tl.flags < 2 ^ 15 := by
      have h1 := flags_lt_two_pow tl
      have h2 : (2:Nat) ^ tl.size ≤ 2 ^ 15 :=
        Nat.pow_le_pow_right (by omega) (by omega)
      omega
    have htz := trailZeros_two_mul hf0 hfl
    simp only [Slots.flags]
    rw [htz]
    exact ⟨c, by simpa [Slots.get] using hget,
      by simp only [Slots.size]; omega⟩

theorem oneChildLeftU_of_one {ch : Slots} (hsz : ch.size ≤ 16)
    (hcnt : countFull ch = 1) :
    ∃ i c, oneChildLeftU ch = .ok (some (i, c)) ∧ ch.get i = some c ∧
      i < ch.size := by
  obtain ⟨c, hget, hlt⟩ := trailZeros_get ch hsz hcnt
  have h0 : ch.flags ≠ 0 := fun hz => by
    have := (flags_eq_zero_iff ch).mp hz; omega
  have h1 : ch.flags &&& (ch.flags - 1) = 0 :=
    (flags_land_pred_iff ch).mpr (by omega)
  exact ⟨trailZeros ch.flags, c,
    by simp [oneChildLeftU, h0, h1, hget], hget, hlt⟩

theorem all_take_lt {l : List Nat} {n : Nat} (h : l.all (· < 16) = true) :
    (l.take n).all (· < 16) = true := by
  simp only [List.all_eq_true] at h ⊢
  intro x hx
  exact h x (List.take_subset n l hx)

theorem all_drop_lt {l : List Nat} {n : Nat} (h : l.all (· < 16) = true) :
    (l.drop n).all (· < 16) = true := by
  simp only [List.all_eq_true] at h ⊢
  intro x hx
  exact h x (List.drop_subset n l hx)

theorem all_get_lt {l : List Nat} (i : Fin l.length)
    (h : l.all (· < 16) = true) : l.get i < 16 := by
  simp only [List.all_eq_true, decide_eq_true_eq] at h
  exact h _ (List.get_mem l i.1 i.2)

theorem cpl_le_left : ∀ a b : Nibbles, commonPrefixLength a b ≤ a.length
  | [], _ => Nat.le_refl 0
  | _ :: _, [] => Nat.zero_le _
  | x :: as, y :: bs => by
    rw [commonPrefixLength]
    by_cases h : x = y
    · have := cpl_le_left as bs
      simp only [if_pos h, List.length_cons]
      omega
    · simp [h]

theorem get_cpl_ne : ∀ (a b : Nibbles)
    (h1 : commonPrefixLength a b < a.length)
    (h2 : commonPrefixLength a b < b.length),
    a.get ⟨commonPrefixLength a b, h1⟩ ≠ b.get ⟨commonPrefixLength a b, h2⟩
  | [], _, h1, _ => by simp at h1
  | _ :: _, [], _, h2 => by simp at h2
  | x :: as, y :: bs, h1, h2 => by
    by_cases hxy : x = y
    · generalize hgen : commonPrefixLength (x :: as) (y :: bs) = n at h1 h2 ⊢
      have hc : n = commonPrefixLength as bs + 1 := by
        rw [← hgen, commonPrefixLength, if_pos hxy]
      subst hc
      have h1' : commonPrefixLength as bs < as.length := by simpa using h1
      have h2' : commonPrefixLength as bs < bs.length := by simpa using h2
      have ihne := get_cpl_ne as bs h1' h2'
      simp only [List.get_eq_getElem, List.getElem_cons_succ] at ihne ⊢
      exact ihne
    · generalize hgen : commonPrefixLength (x :: as) (y :: bs) = n at h1 h2 ⊢
      have hc : n = 0 := by
        rw [← hgen, commonPrefixLength, if_neg hxy]
      subst hc
      simp only [List.get_eq_getElem, List.getElem_cons_zero]
      exact hxy

theorem unpack_all : ∀ key : Bytes, key.all (· < 256) = true →
    (unpack key).all (· < 16) = true
  | [], _ => rfl
  | b :: rest, h => by
    simp only [List.all_cons, Bool.and_eq_true, decide_eq_true_eq] at h
    have hrest := unpack_all rest h.2
    show (b / 16 :: b % 16 :: unpack rest).all (· < 16) = true
    simp only [List.all_cons, Bool.and_eq_true, decide_eq_true_eq]
    refine ⟨?_, ?_, hrest⟩
    · exact Nat.div_lt_of_lt_mul (lt_of_lt_of_le h.1 (by norm_num))
    · exact Nat.mod_lt _ (by norm_num)

theorem branchNew_good {pre : Nibbles} {i1 i2 : Nat} {c1 c2 : TrieNode}
    (hne : i1 ≠ i2) (h1 : i1 < 16) (h2 : i2 < 16)
    (hg1 : nodeGe2 c1 = true) (hg2 : nodeGe2 c2 = true)
    (hn1 : nodeNib c1 = true) (hn2 : nodeNib c2 = true)
    (hpre : pre.all (· < 16) = true) :
    nodeGe2 (branchNew pre i1 c1 i2 c2) = true ∧
      nodeNib (branchNew pre i1 c1 i2 c2) = true := by
  have hsz0 : (Slots.empties 16).size = 16 := empties_size 16
  have hsz1 := size_setF (Slots.empties 16) i1 c1
  have hsz2 := size_setF ((Slots.empties 16).setF i1 c1) i2 c2
  have hcnt1 : countFull ((Slots.empties 16).setF i1 c1) =
      countFull (Slots.empties 16) + 1 :=
    countFull_setF_of_get_none _ i1 c1 (empties_get 16 i1) (by omega)
  have hgn : ((Slots.empties 16).setF i1 c1).get i2 = none := by
    rw [get_setF_ne _ i1 i2 c1 hne]; exact empties_get 16 i2
  have hcnt2 : countFull (((Slots.empties 16).setF i1 c1).setF i2 c2) =
      countFull ((Slots.empties 16).setF i1 c1) + 1 :=
    countFull_setF_of_get_none _ i2 c2 hgn (by omega)
  have hcnt0 := countFull_empties 16
  constructor
  · simp only [branchNew, nodeGe2, Bool.and_eq_true, decide_eq_true_eq]
    exact ⟨by omega,
      slotsGe2_setF _ i2 (slotsGe2_setF _ i1 (slotsGe2_empties 16) hg1) hg2⟩
  · simp only [branchNew, nodeNib, Bool.and_eq_true, decide_eq_true_eq]
    exact ⟨⟨hpre, by omega⟩,
      slotsNib_setF _ i2 (slotsNib_setF _ i1 (slotsNib_empties 16) hn1) hn2⟩

/-- `TrieNode::insert` preserves invariant I1 and representation
well-formedness. -/
theorem insert_pres :
    ∀ {fuel : Nat} {t : TrieNode} {path : Nibbles} {value : Bytes}
      {t' : TrieNode},
      insertNodeF fuel t path value = .ok t' → nodeGe2 t = true →
      nodeNib t = true → path.all (· < 16) = true →
      nodeGe2 t' = true ∧ nodeNib t' = true := by
  intro fuel
  induction fuel with
  | zero => intro t path value t' h _ _ _; simp [insertNodeF] at h
  | succ fuel ih =>
    intro t path value t' h hg hn hp
    cases t with
    | leaf lp lv lh =>
      rw [insertNodeF] at h
      by_cases hpl : path = lp
      · rw [if_pos hpl] at h
        cases h
        exact ⟨rfl, hn⟩
      · rw [if_neg hpl] at h
        by_cases h1 : commonPrefixLength lp path < lp.length
        · rw [dif_pos h1] at h
          by_cases h2 : commonPrefixLength lp path < path.length
          · rw [dif_pos h2] at h
            cases h
            exact branchNew_good (get_cpl_ne lp path h1 h2)
              (all_get_lt _ hn) (all_get_lt _ hp) rfl rfl
              (all_drop_lt hn) (all_drop_lt hp) (all_take_lt hp)
          · rw [dif_neg h2] at h; cases h
        · rw [dif_neg h1] at h; cases h
    | digest dp dv dh =>
      rw [insertNodeF] at h
      by_cases h1 : commonPrefixLength path dp < dp.length
      · rw [dif_pos h1] at h
        by_cases h2 : commonPrefixLength path dp < path.length
        · rw [dif_pos h2] at h
          cases h
          exact branchNew_good (Ne.symm (get_cpl_ne path dp h2 h1))
            (all_get_lt _ hn) (all_get_lt _ hp) rfl rfl
            (all_drop_lt hn) (all_drop_lt hp) (all_take_lt hp)
        · rw [dif_neg h2] at h; cases h
      · rw [dif_neg h1] at h; cases h
    | branch bp ch bh =>
      simp only [nodeGe2, Bool.and_eq_true, decide_eq_true_eq] at hg
      simp only [nodeNib, Bool.and_eq_true, decide_eq_true_eq] at hn
      rw [insertNodeF] at h
      by_cases hc : commonPrefixLength bp path = bp.length
      · rw [if_pos hc] at h
        by_cases hlt : commonPrefixLength bp path < path.length
        · rw [dif_pos hlt] at h
          cases hch : ch.get (path.get ⟨commonPrefixLength bp path, hlt⟩) with
          | some child =>
            simp only [hch] at h
            rw [bind_ok] at h
            obtain ⟨child', hchild, heq⟩ := h
            cases heq
            obtain ⟨hgc, hnc⟩ := ih hchild (slotsGe2_get ch _ hg.2 hch)
              (slotsNib_get ch _ hn.2 hch) (all_drop_lt hp)
            constructor
            · simp only [nodeGe2, Bool.and_eq_true, decide_eq_true_eq]
              refine ⟨?_, slotsGe2_setF _ _ hg.2 hgc⟩
              have := countFull_setF_of_get_some ch _ child' hch
              simp only [List.get_eq_getElem] at this ⊢
              omega
            · simp only [nodeNib, Bool.and_eq_true, decide_eq_true_eq]
              refine ⟨⟨hn.1.1, ?_⟩, slotsNib_setF _ _ hn.2 hnc⟩
              rw [size_setF]
              exact hn.1.2
          | none =>
            simp only [hch] at h
            cases h
            have hidx : path.get ⟨commonPrefixLength bp path, hlt⟩ < 16 :=
              all_get_lt _ hp
            constructor
            · simp only [nodeGe2, Bool.and_eq_true, decide_eq_true_eq]
              have hcnt := countFull_setF_of_get_none ch _
                (.leaf (path.drop (commonPrefixLength bp path + 1)) value
                  none) hch (by rw [hn.1.2]; exact hidx)
              refine ⟨?_, slotsGe2_setF _ _ hg.2 rfl⟩
              simp only [List.get_eq_getElem] at hcnt ⊢
              omega
            · simp only [nodeNib, Bool.and_eq_true, decide_eq_true_eq]
              refine ⟨⟨hn.1.1, ?_⟩, slotsNib_setF _ _ hn.2 (all_drop_lt hp)⟩
              rw [size_setF]
              exact hn.1.2
        · rw [dif_neg hlt] at h; cases h
      · rw [if_neg hc] at h
        have h1 : commonPrefixLength bp path < bp.length :=
          lt_of_le_of_ne (cpl_le_left bp path) hc
        rw [dif_pos h1] at h
        by_cases h2 : commonPrefixLength bp path < path.length
        · rw [dif_pos h2] at h
          cases h
          refine branchNew_good (get_cpl_ne bp path h1 h2)
            (all_get_lt _ hn.1.1) (all_get_lt _ hp) ?_ rfl ?_
            (all_drop_lt hp) (all_take_lt hp)
          · simp only [nodeGe2, Bool.and_eq_true, decide_eq_true_eq]
            exact hg
          · simp only [nodeNib, Bool.and_eq_true, decide_eq_true_eq]
            exact ⟨⟨all_drop_lt hn.1.1, hn.1.2⟩, hn.2⟩
        · rw [dif_neg h2] at h; cases h
/-- `TrieNode::remove` preserves invariant I1 and representation
well-formedness whenever it succeeds. -/
theorem remove_pres :
    ∀ {fuel : Nat} {t : TrieNode} {path : Nibbles} {t' : TrieNode},
      removeNodeF fuel t path = .ok t' → nodeGe2 t = true →
      nodeNib t = true → nodeGe2 t' = true ∧ nodeNib t' = true := by
  intro fuel
  induction fuel with
  | zero => intro t path t' h _ _; simp [removeNodeF] at h
  | succ fuel ih =>
    intro t path t' h hg hn
    cases t with
    | leaf lp v hh =>
      rw [removeNodeF] at h
      cases h
      exact ⟨rfl, hn⟩
    | digest dp dv dh =>
      rw [removeNodeF] at h
      cases h
    | branch bp ch bh =>
      simp only [nodeGe2, Bool.and_eq_true, decide_eq_true_eq] at hg
      simp only [nodeNib, Bool.and_eq_true, decide_eq_true_eq] at hn
      rw [removeNodeF] at h
      rw [bind_ok] at h
      obtain ⟨ch', hinner, houter⟩ := h
      have hprops : slotsGe2 ch' = true ∧ slotsNib ch' = true ∧
          ch'.size = ch.size ∧ countFull ch ≤ countFull ch' + 1 := by
        by_cases hc : commonPrefixLength bp path = bp.length
        · rw [if_pos hc] at hinner
          by_cases hlt : commonPrefixLength bp path < path.length
          · rw [dif_pos hlt] at hinner
            cases hch : ch.get
                (path.get ⟨commonPrefixLength bp path, hlt⟩) with
            | none =>
              simp only [hch] at hinner
              cases hinner
              exact ⟨hg.2, hn.2, rfl, by omega⟩
            | some child =>
              simp only [hch] at hinner
              rw [bind_ok] at hinner
              obtain ⟨child', hrem, hmt⟩ := hinner
              obtain ⟨hcg, hcn⟩ := ih hrem (slotsGe2_get ch _ hg.2 hch)
                (slotsNib_get ch _ hn.2 hch)
              have hcntS := countFull_setE_of_get_some ch _ hch
              have hcntF := countFull_setF_of_get_some ch _ child' hch
              cases child' with
              | digest _ _ _ => cases hmt
              | leaf clp cv chh =>
                by_cases hdrop :
                    clp = path.drop (commonPrefixLength bp path + 1)
                · have hmt' : (pure (ch.setE
                      (path.get ⟨commonPrefixLength bp path, hlt⟩)) :
                        Except Err Slots) = .ok ch' := by
                    rw [← hmt]
                    simp [hdrop]
                  cases hmt'
                  exact ⟨slotsGe2_setE _ _ hg.2, slotsNib_setE _ _ hn.2,
                    size_setE _ _, by omega⟩
                · have hmt' : (pure (ch.setF
                      (path.get ⟨commonPrefixLength bp path, hlt⟩)
                      (.leaf clp cv chh)) : Except Err Slots) = .ok ch' := by
                    rw [← hmt]
                    simp [hdrop]
                  cases hmt'
                  exact ⟨slotsGe2_setF _ _ hg.2 hcg,
                    slotsNib_setF _ _ hn.2 hcn, size_setF _ _ _, by omega⟩
              | branch cbp cch cbh =>
                by_cases hemp : chIsEmpty cch = true
                · have hmt' : (pure (ch.setE
                      (path.get ⟨commonPrefixLength bp path, hlt⟩)) :
                        Except Err Slots) = .ok ch' := by
                    rw [← hmt]
                    simp [hemp]
                  cases hmt'
                  exact ⟨slotsGe2_setE _ _ hg.2, slotsNib_setE _ _ hn.2,
                    size_setE _ _, by omega⟩
                · have hmt' : (pure (ch.setF
                      (path.get ⟨commonPrefixLength bp path, hlt⟩)
                      (.branch cbp cch cbh)) : Except Err Slots) =
                        .ok ch' := by
                    rw [← hmt]
                    simp [hemp]
                  cases hmt'
                  exact ⟨slotsGe2_setF _ _ hg.2 hcg,
                    slotsNib_setF _ _ hn.2 hcn, size_setF _ _ _, by omega⟩
          · rw [dif_neg hlt] at hinner
            cases hinner
        · rw [if_neg hc] at hinner
          cases hinner
          exact ⟨hg.2, hn.2, rfl, by omega⟩
      rw [bind_ok] at houter
      obtain ⟨o, hone, hmatch⟩ := houter
      by_cases hcnt : 2 ≤ countFull ch'
      · rw [oneChildLeftU_of_ge2 hcnt] at hone
        cases hone
        cases hmatch
        constructor
        · simp only [nodeGe2, Bool.and_eq_true, decide_eq_true_eq]
          exact ⟨hcnt, hprops.1⟩
        · simp only [nodeNib, Bool.and_eq_true, decide_eq_true_eq]
          exact ⟨⟨hn.1.1, by rw [hprops.2.2.1]; exact hn.1.2⟩, hprops.2.1⟩
      · have hcnt1 : countFull ch' = 1 := by
          have := hg.1
          have := hprops.2.2.2
          omega
        obtain ⟨i, c, honeEq, hgetc, hilt⟩ := oneChildLeftU_of_one
          (by rw [hprops.2.2.1, hn.1.2]) hcnt1
        rw [honeEq] at hone
        cases hone
        have hi16 : i < 16 := by
          have := hprops.2.2.1
          have := hn.1.2
          omega
        cases c with
        | digest _ _ _ => cases hmatch
        | leaf clp cv chh =>
          cases hmatch
          have hcnib := slotsNib_get ch' i hprops.2.1 hgetc
          refine ⟨rfl, ?_⟩
          simp only [nodeNib, List.all_append, Bool.and_eq_true,
            List.all_cons, List.all_nil, decide_eq_true_eq] at hcnib ⊢
          exact ⟨⟨hn.1.1, ⟨hi16, trivial⟩⟩, hcnib⟩
        | branch cp cch cchh =>
          cases hmatch
          have hcge := slotsGe2_get ch' i hprops.1 hgetc
          have hcnib := slotsNib_get ch' i hprops.2.1 hgetc
          simp only [nodeGe2, Bool.and_eq_true, decide_eq_true_eq] at hcge
          simp only [nodeNib, Bool.and_eq_true, decide_eq_true_eq] at hcnib
          constructor
          · simp only [nodeGe2, Bool.and_eq_true, decide_eq_true_eq]
            exact hcge
          · simp only [nodeNib, List.all_append, Bool.and_eq_true,
              List.all_cons, List.all_nil, decide_eq_true_eq]
            exact ⟨⟨⟨⟨hn.1.1, ⟨hi16, trivial⟩⟩, hcnib.1.1⟩, hcnib.1.2⟩, hcnib.2⟩
/-- C8 (amended): every *successful* mutating operation through the public
boundary (insert and remove with a pre-hashed key) on a well-formed trie
satisfying invariant I1 (every branch has at least two non-empty children)
yields a trie satisfying I1 again; a branch that would be left with one
child is collapsed by the mutation code.  (As stated the claim is about the
operations that complete: the `simple-trie` remove can also abort with the
`one_child_left` underflow of C1, and either copy can panic on digests per
C6/C7 - those calls return no trie at all.) -/
theorem claim_c8 {t : Trie} {key value : Bytes} {t₁ t₂ : Trie}
    (hg : trieGe2 t = true) (hn : trieNib t = true)
    (hk : key.all (· < 256) = true) :
    (t.insertB key value = .ok t₁ → trieGe2 t₁ = true) ∧
      (t.removeB key = .ok t₂ → trieGe2 t₂ = true) := by
  have hpath : (unpack key).all (· < 16) = true := unpack_all key hk
  constructor
  · intro h
    rw [Trie.insertB, Trie.insertPath] at h
    cases hr : t.root with
    | none =>
      rw [hr] at h
      cases h
      rfl
    | some r =>
      rw [hr] at h
      have h' : Except.map (fun r' => (⟨some r'⟩ : Trie))
          (insertNode r (unpack key) value) = .ok t₁ := h
      cases hins : insertNode r (unpack key) value with
      | error e => rw [hins] at h'; cases h'
      | ok r' =>
        rw [hins] at h'
        cases h'
        rw [insertNode] at hins
        have hpres := insert_pres hins
          (by simpa [trieGe2, hr] using hg) (by simpa [trieNib, hr] using hn)
          hpath
        simpa [trieGe2] using hpres.1
  · intro h
    rw [Trie.removeB, Trie.removePath] at h
    cases hr : t.root with
    | none =>
      rw [hr] at h
      cases h
      exact hg
    | some r =>
      rw [hr] at h
      cases r with
      | leaf lp v hh =>
        have h' : (if unpack key = lp then Except.ok (⟨none⟩ : Trie)
            else .ok t) = .ok t₂ := h
        by_cases hq : unpack key = lp
        · rw [if_pos hq] at h'
          cases h'
          rfl
        · rw [if_neg hq] at h'
          cases h'
          exact hg
      | digest dp dv dh =>
        have h' : (removeNode (.digest dp dv dh) (unpack key)).map
            (fun r' => (⟨some r'⟩ : Trie)) = .ok t₂ := h
        rw [removeNode, removeNodeF] at h'
        cases h'
      | branch bp ch bh =>
        have h' : (removeNode (.branch bp ch bh) (unpack key)).map
            (fun r' => (⟨some r'⟩ : Trie)) = .ok t₂ := h
        cases hrem : removeNode (.branch bp ch bh) (unpack key) with
        | error e => rw [hrem] at h'; cases h'
        | ok r' =>
          rw [hrem] at h'
          cases h'
          rw [removeNode] at hrem
          have hpres := remove_pres hrem
            (by simpa [trieGe2, hr] using hg)
            (by simpa [trieNib, hr] using hn)
          simpa [trieGe2] using hpres.1

/-- Witness for C8: on a well-formed two-leaf trie, inserting the key
`0x1000…00` overwrites the second leaf (the branch keeps two children) and
removing it collapses the branch into the single remaining leaf; both
results satisfy I1. -/
theorem claim_c8_witness :
    trieGe2 ⟨some (.branch []
        (.consF (.leaf (List.replicate 63 0) [1] none)
          (.consF (.leaf (List.replicate 63 0) [7] none) (Slots.empties 14)))
        none)⟩ = true ∧
      trieGe2 ⟨some (.leaf (0 :: List.replicate 63 0) [1] none)⟩ = true := by
  have h := @claim_c8
    ⟨some (.branch []
      (.consF (.leaf (List.replicate 63 0) [1] none)
        (.consF (.leaf (List.replicate 63 0) [2] none) (Slots.empties 14)))
      none)⟩
    (0x10 :: List.replicate 31 0) [7]
    ⟨some (.branch []
      (.consF (.leaf (List.replicate 63 0) [1] none)
        (.consF (.leaf (List.replicate 63 0) [7] none) (Slots.empties 14)))
      none)⟩
    ⟨some (.leaf (0 :: List.replicate 63 0) [1] none)⟩
    rfl rfl rfl
  exact ⟨h.1 rfl, h.2 rfl⟩
/-! ### Claim C3: supporting lemmas -/

theorem exists_full_slot : ∀ ch : Slots, 1 ≤ countFull ch →
    ∃ i c, ch.get i = some c ∧ i < ch.size
  | .nil, h => by simp [countFull] at h
  | .consF t tl, _ => ⟨0, t, rfl, by simp [Slots.size]⟩
  | .consE tl, h => by
    obtain ⟨i, c, hg, hlt⟩ :=
      exists_full_slot tl (by simpa [countFull] using h)
    exact ⟨i + 1, c, by simpa [Slots.get] using hg,
      by simp only [Slots.size]; omega⟩

theorem two_full_slots : ∀ ch : Slots, 2 ≤ countFull ch →
    ∃ i j ci cj, i ≠ j ∧ ch.get i = some ci ∧ ch.get j = some cj ∧
      i < ch.size ∧ j < ch.size
  | .nil, h => by simp [countFull] at h
  | .consF t tl, h => by
    obtain ⟨j, cj, hg, hlt⟩ :=
      exists_full_slot tl (by simp only [countFull] at h; omega)
    exact ⟨0, j + 1, t, cj, by omega, rfl, by simpa [Slots.get] using hg,
      by simp [Slots.size], by simp only [Slots.size]; omega⟩
  | .consE tl, h => by
    obtain ⟨i, j, ci, cj, hne, hgi, hgj, hi, hj⟩ :=
      two_full_slots tl (by simpa [countFull] using h)
    exact ⟨i + 1, j + 1, ci, cj, by omega,
      by simpa [Slots.get] using hgi, by simpa [Slots.get] using hgj,
      by simp only [Slots.size]; omega, by simp only [Slots.size]; omega⟩

theorem cpl_refl : ∀ a : Nibbles, commonPrefixLength a a = a.length
  | [] => rfl
  | x :: as => by
    rw [commonPrefixLength, if_pos rfl, cpl_refl as]
    rfl

theorem cpl_append_left : ∀ (x a b : Nibbles),
    commonPrefixLength (x ++ a) (x ++ b) = x.length + commonPrefixLength a b
  | [], _, _ => by simp
  | h :: xs, a, b => by
    simp only [List.cons_append]
    rw [commonPrefixLength, if_pos rfl, cpl_append_left xs a b]
    simp only [List.length_cons]
    omega

theorem cpl_le_right : ∀ a b : Nibbles, commonPrefixLength a b ≤ b.length
  | [], _ => Nat.zero_le _
  | _ :: _, [] => Nat.le_refl 0
  | x :: as, y :: bs => by
    rw [commonPrefixLength]
    by_cases h : x = y
    · have := cpl_le_right as bs
      simp only [if_pos h, List.length_cons]
      omega
    · simp [h]

theorem take_cpl_eq : ∀ a b : Nibbles,
    a.take (commonPrefixLength a b) = b.take (commonPrefixLength a b)
  | [], _ => rfl
  | _ :: _, [] => by simp [commonPrefixLength]
  | x :: as, y :: bs => by
    rw [commonPrefixLength]
    by_cases h : x = y
    · subst h
      rw [if_pos rfl]
      simp only [List.take_succ_cons, take_cpl_eq as bs]
    · simp [h]

theorem eq_of_cpl_eq_length {a b : Nibbles}
    (h : commonPrefixLength a b = a.length) (hlen : a.length = b.length) :
    a = b := by
  have ht := take_cpl_eq a b
  rw [h, List.take_length] at ht
  rw [ht, hlen, List.take_length]

theorem cpl_lt_of_ne {a b : Nibbles} (hlen : a.length = b.length)
    (hne : a ≠ b) : commonPrefixLength a b < a.length := by
  have hle := cpl_le_left a b
  rcases Nat.lt_or_ge (commonPrefixLength a b) a.length with h | h
  · exact h
  · exact absurd (eq_of_cpl_eq_length (by omega) hlen) hne

theorem take_get_drop_split : ∀ (a : List Nat) (n : Nat) (h : n < a.length),
    a = a.take n ++ a.get ⟨n, h⟩ :: a.drop (n + 1)
  | x :: as, 0, _ => by simp
  | x :: as, n + 1, h => by
    have := take_get_drop_split as n (by simpa using h)
    simp only [List.take_succ_cons, List.get_eq_getElem,
      List.getElem_cons_succ, List.drop_succ_cons, List.cons_append]
    exact congrArg (x :: ·) this

theorem eq_iff_drop_eq {a b : List Nat} {n : Nat}
    (h1 : n < a.length) (h2 : n < b.length)
    (ht : a.take n = b.take n) (hg : a.get ⟨n, h1⟩ = b.get ⟨n, h2⟩) :
    a = b ↔ a.drop (n + 1) = b.drop (n + 1) := by
  constructor
  · intro h; rw [h]
  · intro h
    rw [take_get_drop_split a n h1, take_get_drop_split b n h2, ht, hg, h]

theorem getElem_append_cons : ∀ (x : List Nat) (i : Nat) (r : List Nat)
    (h : x.length < (x ++ i :: r).length),
    (x ++ i :: r).get ⟨x.length, h⟩ = i
  | [], _, _, _ => rfl
  | y :: xs, i, r, h => by
    simp only [List.cons_append, List.length_cons, List.get_eq_getElem,
      List.getElem_cons_succ]
    have := getElem_append_cons xs i r (by
      simp only [List.length_append, List.length_cons] at h ⊢
      omega)
    simpa using this

theorem drop_append_cons : ∀ (x : List Nat) (i : Nat) (r : List Nat),
    (x ++ i :: r).drop (x.length + 1) = r
  | [], _, _ => rfl
  | y :: xs, i, r => by
    simp only [List.cons_append, List.length_cons, List.drop_succ_cons]
    exact drop_append_cons xs i r

theorem take_append_older (x r : List Nat) : (x ++ r).take x.length = x := by
  simp
theorem getNodeF_fuel :
    ∀ {fuel fuel' : Nat} {t : TrieNode} {q : Nibbles},
      q.length < fuel → q.length < fuel' →
      getNodeF fuel t q = getNodeF fuel' t q := by
  intro fuel
  induction fuel with
  | zero => intro fuel' t q h _; exact absurd h (Nat.not_lt_zero _)
  | succ fuel ih =>
    intro fuel' t q h h'
    cases fuel' with
    | zero => exact absurd h' (Nat.not_lt_zero _)
    | succ fuel' =>
      cases t with
      | leaf lp v hh => rfl
      | digest dp dv dh => rfl
      | branch bp ch bh =>
        rw [getNodeF, getNodeF]
        by_cases hc : commonPrefixLength bp q = bp.length
        · rw [if_pos hc, if_pos hc]
          by_cases hlt : commonPrefixLength bp q < q.length
          · rw [dif_pos hlt, dif_pos hlt]
            cases hch : ch.get (q.get ⟨commonPrefixLength bp q, hlt⟩) with
            | some child =>
              simp only [hch]
              exact ih (by simp only [List.length_drop] at h ⊢; omega)
                (by simp only [List.length_drop] at h' ⊢; omega)
            | none => simp only [hch]
          · rw [dif_neg hlt, dif_neg hlt]
        · rw [if_neg hc, if_neg hc]

theorem nodeDepthS_empties : ∀ (m n : Nat),
    nodeDepthS m (Slots.empties n) = true
  | _, 0 => rfl
  | m, n + 1 => by simp [Slots.empties, nodeDepthS, nodeDepthS_empties m n]

theorem nodeDepthS_setF :
    ∀ (ch : Slots) (m i : Nat) {c : TrieNode}, nodeDepthS m ch = true →
      nodeDepth m c = true → nodeDepthS m (ch.setF i c) = true
  | .nil, _, _, _, h, _ => h
  | .consE tl, m, 0, c, h, hc => by
    simp only [nodeDepthS] at h
    simp [Slots.setF, nodeDepthS, h, hc]
  | .consF t tl, m, 0, c, h, hc => by
    simp only [nodeDepthS, Bool.and_eq_true] at h
    simp [Slots.setF, nodeDepthS, h.2, hc]
  | .consE tl, m, n + 1, c, h, hc => by
    simp only [nodeDepthS] at h
    simp [Slots.setF, nodeDepthS, nodeDepthS_setF tl m n h hc]
  | .consF t tl, m, n + 1, c, h, hc => by
    simp only [nodeDepthS, Bool.and_eq_true] at h
    simp [Slots.setF, nodeDepthS, h.1, nodeDepthS_setF tl m n h.2 hc]

theorem nodeDepthS_get :
    ∀ (ch : Slots) (m i : Nat) {c : TrieNode}, nodeDepthS m ch = true →
      ch.get i = some c → nodeDepth m c = true
  | .nil, _, i, _, _, hg => by simp [Slots.get] at hg
  | .consE tl, _, 0, _, _, hg => by simp [Slots.get] at hg
  | .consE tl, m, n + 1, _, hd, hg =>
    nodeDepthS_get tl m n (by simpa [nodeDepthS] using hd) hg
  | .consF t tl, m, 0, c, hd, hg => by
    simp only [nodeDepthS, Bool.and_eq_true] at hd
    simp [Slots.get] at hg
    exact hg ▸ hd.1
  | .consF t tl, m, n + 1, _, hd, hg => by
    simp only [nodeDepthS, Bool.and_eq_true] at hd
    exact nodeDepthS_get tl m n hd.2 hg

/-- On a depth-uniform tree, `TrieNode::insert` with a full-depth path
always succeeds and preserves depth uniformity. -/
theorem insert_total :
    ∀ {fuel : Nat} {t : TrieNode} {p : Nibbles} {v : Bytes},
      p.length < fuel → nodeDepth p.length t = true →
      ∃ t', insertNodeF fuel t p v = .ok t' ∧
        nodeDepth p.length t' = true := by
  intro fuel
  induction fuel with
  | zero => intro t p v h _; exact absurd h (Nat.not_lt_zero _)
  | succ fuel ih =>
    intro t p v h hd
    cases t with
    | digest dp dv dh => simp [nodeDepth] at hd
    | leaf lp lv lh =>
      simp only [nodeDepth, decide_eq_true_eq] at hd
      rw [insertNodeF]
      by_cases hpl : p = lp
      · rw [if_pos hpl]
        exact ⟨.leaf lp v none, rfl, by simp [nodeDepth, hd]⟩
      · rw [if_neg hpl]
        have h1 : commonPrefixLength lp p < lp.length :=
          cpl_lt_of_ne (by omega) (fun hcontra => hpl hcontra.symm)
        have h2 : commonPrefixLength lp p < p.length := by omega
        rw [dif_pos h1, dif_pos h2]
        refine ⟨_, rfl, ?_⟩
        simp only [branchNew, nodeDepth, Bool.and_eq_true,
          decide_eq_true_eq]
        have hcle : commonPrefixLength lp p ≤ p.length := by omega
        constructor
        · simp only [List.length_take]
          omega
        · apply nodeDepthS_setF _ _ _
            (nodeDepthS_setF _ _ _ (nodeDepthS_empties _ 16) ?_) ?_
          · simp only [nodeDepth, decide_eq_true_eq, List.length_drop,
              List.length_take]
            omega
          · simp only [nodeDepth, decide_eq_true_eq, List.length_drop,
              List.length_take]
            omega
    | branch bp ch bh =>
      simp only [nodeDepth, Bool.and_eq_true, decide_eq_true_eq] at hd
      rw [insertNodeF]
      by_cases hc : commonPrefixLength bp p = bp.length
      · rw [if_pos hc]
        have hlt : commonPrefixLength bp p < p.length := by omega
        rw [dif_pos hlt]
        cases hch : ch.get (p.get ⟨commonPrefixLength bp p, hlt⟩) with
        | some child =>
          simp only [hch]
          have hcd : nodeDepth (p.drop (commonPrefixLength bp p + 1)).length
              child = true := by
            have := nodeDepthS_get ch _ _ hd.2 hch
            simp only [List.length_drop]
            have he : p.length - (commonPrefixLength bp p + 1) =
                p.length - (bp.length + 1) := by omega
            rw [he]
            exact this
          obtain ⟨child', hins, hd'⟩ := ih
            (by simp only [List.length_drop]; omega) hcd
          rw [hins, ok_bind]
          refine ⟨_, rfl, ?_⟩
          simp only [nodeDepth, Bool.and_eq_true, decide_eq_true_eq]
          refine ⟨hd.1, nodeDepthS_setF _ _ _ hd.2 ?_⟩
          simp only [List.length_drop] at hd'
          have he : p.length - (commonPrefixLength bp p + 1) =
              p.length - (bp.length + 1) := by omega
          rw [he] at hd'
          exact hd'
        | none =>
          simp only [hch]
          refine ⟨_, rfl, ?_⟩
          simp only [nodeDepth, Bool.and_eq_true, decide_eq_true_eq]
          refine ⟨hd.1, nodeDepthS_setF _ _ _ hd.2 ?_⟩
          simp only [nodeDepth, decide_eq_true_eq, List.length_drop]
          omega
      · rw [if_neg hc]
        have hle := cpl_le_left bp p
        have h1 : commonPrefixLength bp p < bp.length := by omega
        have h2 : commonPrefixLength bp p < p.length := by omega
        rw [dif_pos h1, dif_pos h2]
        refine ⟨_, rfl, ?_⟩
        simp only [branchNew, nodeDepth, Bool.and_eq_true,
          decide_eq_true_eq]
        constructor
        · simp only [List.length_take]
          omega
        · apply nodeDepthS_setF _ _ _
            (nodeDepthS_setF _ _ _ (nodeDepthS_empties _ 16) ?_) ?_
          · simp only [nodeDepth, Bool.and_eq_true, decide_eq_true_eq,
              List.length_drop, List.length_take]
            refine ⟨by omega, ?_⟩
            have hmin : commonPrefixLength bp p ⊓ p.length =
                commonPrefixLength bp p := by omega
            rw [hmin]
            have he : p.length - (commonPrefixLength bp p + 1) -
                (bp.length - (commonPrefixLength bp p + 1) + 1) =
                p.length - (bp.length + 1) := by omega
            rw [he]
            exact hd.2
          · simp only [nodeDepth, decide_eq_true_eq, List.length_drop,
              List.length_take]
            omega
theorem drop_append_add : ∀ (x r : List Nat) (n : Nat),
    (x ++ r).drop (x.length + n) = r.drop n
  | [], _, _ => by simp
  | y :: xs, r, n => by
    simp only [List.cons_append, List.length_cons]
    have he : xs.length + 1 + n = (xs.length + n) + 1 := by omega
    rw [he, List.drop_succ_cons]
    exact drop_append_add xs r n

theorem get_append_add : ∀ (x r : List Nat) (n : Nat)
    (h : x.length + n < (x ++ r).length) (h' : n < r.length),
    (x ++ r).get ⟨x.length + n, h⟩ = r.get ⟨n, h'⟩
  | [], r, n, h, h' => by simp
  | y :: xs, r, n, h, h' => by
    simp only [List.cons_append, List.length_cons, List.get_eq_getElem]
    have he : xs.length + 1 + n = (xs.length + n) + 1 := by omega
    simp only [he, List.getElem_cons_succ]
    have := get_append_add xs r n (by
      simp only [List.length_append]
      omega) h'
    simpa using this

/-- Shifting a shared prefix out of a branch path does not change `get`:
walking `x ++ r` through a branch with extension path `x ++ y` is walking
`r` through the same branch with extension path `y` (the cached hash is
irrelevant to `get`). -/
theorem getNode_shift (x y : Nibbles) (ch : Slots) (c c' : Option B256)
    (r : Nibbles) :
    getNode (.branch (x ++ y) ch c) (x ++ r) =
      getNode (.branch y ch c') r := by
  rw [getNode, getNode, getNodeF, getNodeF]
  have hcpl : commonPrefixLength (x ++ y) (x ++ r) =
      x.length + commonPrefixLength y r := cpl_append_left x y r
  by_cases hc : commonPrefixLength y r = y.length
  · have hc' : commonPrefixLength (x ++ y) (x ++ r) = (x ++ y).length := by
      rw [hcpl, hc, List.length_append]
    rw [if_pos hc, if_pos hc']
    by_cases hlt : commonPrefixLength y r < r.length
    · have hlt' : commonPrefixLength (x ++ y) (x ++ r) <
          (x ++ r).length := by
        rw [hcpl, List.length_append]
        omega
      rw [dif_pos hlt, dif_pos hlt']
      have hidx : (x ++ r).get ⟨commonPrefixLength (x ++ y) (x ++ r),
          hlt'⟩ = r.get ⟨commonPrefixLength y r, hlt⟩ := by
        have := get_append_add x r (commonPrefixLength y r)
          (by rw [← hcpl]; exact hlt') hlt
        rw [← this]
        congr 1
        simp [hcpl]
      rw [hidx]
      cases hch : ch.get (r.get ⟨commonPrefixLength y r, hlt⟩) with
      | none => simp only [hch]
      | some child =>
        simp only [hch]
        have hdrop : (x ++ r).drop
            (commonPrefixLength (x ++ y) (x ++ r) + 1) =
            r.drop (commonPrefixLength y r + 1) := by
          rw [hcpl, show x.length + commonPrefixLength y r + 1 =
            x.length + (commonPrefixLength y r + 1) from by omega]
          exact drop_append_add x r _
        rw [hdrop]
        exact getNodeF_fuel
          (by simp only [List.length_drop, List.length_append]; omega)
          (by simp only [List.length_drop]; omega)
    · have hlt' : ¬commonPrefixLength (x ++ y) (x ++ r) <
          (x ++ r).length := by
        rw [hcpl, List.length_append]
        omega
      rw [dif_neg hlt, dif_neg hlt']
  · have hc' : ¬commonPrefixLength (x ++ y) (x ++ r) =
        (x ++ y).length := by
      rw [hcpl, List.length_append]
      have := cpl_le_right y r
      have := cpl_le_left y r
      omega
    rw [if_neg hc, if_neg hc']
theorem cpl_self_append : ∀ a r : Nibbles,
    commonPrefixLength a (a ++ r) = a.length
  | [], _ => rfl
  | x :: as, r => by
    simp only [List.cons_append]
    rw [commonPrefixLength, if_pos rfl, cpl_self_append as r]
    rfl

theorem cpl_prefix_of_take {a q : Nibbles} (h : q.take a.length = a) :
    commonPrefixLength a q = a.length := by
  have hq : q = a ++ q.drop a.length := by
    conv_lhs => rw [← List.take_append_drop a.length q, h]
  rw [hq]
  exact cpl_self_append a _

theorem take_eq_of_cpl_eq {a q : Nibbles}
    (h : commonPrefixLength a q = a.length) : q.take a.length = a := by
  have ht := take_cpl_eq a q
  rw [h, List.take_length] at ht
  exact ht.symm

theorem getNode_leaf (lp : Nibbles) (lv : Bytes) (lh : Option B256)
    (q : Nibbles) :
    getNode (.leaf lp lv lh) q = .ok (if lp = q then some lv else none) :=
  rfl

theorem getNode_branch_miss {bp q : Nibbles} (ch : Slots)
    (c : Option B256) (hc : commonPrefixLength bp q ≠ bp.length) :
    getNode (.branch bp ch c) q = .ok none := by
  rw [getNode, getNodeF, if_neg hc]

theorem getNode_branch_some {bp q : Nibbles} {ch : Slots}
    {c : Option B256} {child : TrieNode}
    (hc : commonPrefixLength bp q = bp.length)
    (hlt : commonPrefixLength bp q < q.length)
    (hch : ch.get (q.get ⟨commonPrefixLength bp q, hlt⟩) = some child) :
    getNode (.branch bp ch c) q =
      getNode child (q.drop (commonPrefixLength bp q + 1)) := by
  rw [getNode, getNodeF, if_pos hc, dif_pos hlt]
  simp only [hch]
  exact getNodeF_fuel (by simp only [List.length_drop]; omega)
    (by simp only [List.length_drop]; omega)

theorem getNode_branch_empty {bp q : Nibbles} {ch : Slots}
    {c : Option B256}
    (hc : commonPrefixLength bp q = bp.length)
    (hlt : commonPrefixLength bp q < q.length)
    (hch : ch.get (q.get ⟨commonPrefixLength bp q, hlt⟩) = none) :
    getNode (.branch bp ch c) q = .ok none := by
  rw [getNode, getNodeF, if_pos hc, dif_pos hlt]
  simp only [hch]
theorem getNode_at_some {a : Nibbles} {i : Nibble} {rest : Nibbles}
    {ch : Slots} {c : Option B256} {child : TrieNode}
    (hch : ch.get i = some child) :
    getNode (.branch a ch c) (a ++ i :: rest) = getNode child rest := by
  have hc : commonPrefixLength a (a ++ i :: rest) = a.length :=
    cpl_self_append a _
  have hlt : commonPrefixLength a (a ++ i :: rest) <
      (a ++ i :: rest).length := by
    rw [hc, List.length_append, List.length_cons]
    omega
  rw [getNode, getNodeF, if_pos hc, dif_pos hlt]
  have hidx : (a ++ i :: rest).get
      ⟨commonPrefixLength a (a ++ i :: rest), hlt⟩ = i := by
    generalize hg : commonPrefixLength a (a ++ i :: rest) = m at hlt ⊢
    have hm : m = a.length := by rw [← hg, hc]
    subst hm
    exact getElem_append_cons a i rest _
  rw [hidx]
  simp only [hch]
  have hdrop : (a ++ i :: rest).drop
      (commonPrefixLength a (a ++ i :: rest) + 1) = rest := by
    rw [hc]
    exact drop_append_cons a i rest
  rw [hdrop]
  exact getNodeF_fuel
    (by simp only [List.length_append, List.length_cons]; omega)
    (by omega)

theorem getNode_at_none {a : Nibbles} {i : Nibble} {rest : Nibbles}
    {ch : Slots} {c : Option B256} (hch : ch.get i = none) :
    getNode (.branch a ch c) (a ++ i :: rest) = .ok none := by
  have hc : commonPrefixLength a (a ++ i :: rest) = a.length :=
    cpl_self_append a _
  have hlt : commonPrefixLength a (a ++ i :: rest) <
      (a ++ i :: rest).length := by
    rw [hc, List.length_append, List.length_cons]
    omega
  rw [getNode, getNodeF, if_pos hc, dif_pos hlt]
  have hidx : (a ++ i :: rest).get
      ⟨commonPrefixLength a (a ++ i :: rest), hlt⟩ = i := by
    generalize hg : commonPrefixLength a (a ++ i :: rest) = m at hlt ⊢
    have hm : m = a.length := by rw [← hg, hc]
    subst hm
    exact getElem_append_cons a i rest _
  rw [hidx]
  simp only [hch]
/-- The get/insert interaction: after a successful full-depth insert, `get`
answers the inserted key with the new value and every other full-depth key
exactly as before. -/
theorem get_insert :
    ∀ {fuel : Nat} {t t' : TrieNode} {p q : Nibbles} {v : Bytes},
      p.length < fuel → nodeDepth p.length t = true →
      nodeNib t = true → p.all (· < 16) = true → q.length = p.length →
      insertNodeF fuel t p v = .ok t' →
      getNode t' q = if q = p then .ok (some v) else getNode t q := by
  intro fuel
  induction fuel with
  | zero => intro t t' p q v h _ _ _ _ _; exact absurd h (Nat.not_lt_zero _)
  | succ fuel ih =>
    intro t t' p q v hfuel hd hn hp hq h
    cases t with
    | digest dp dv dh => simp [nodeDepth] at hd
    | leaf lp lv lh =>
      simp only [nodeDepth, decide_eq_true_eq] at hd
      rw [insertNodeF] at h
      by_cases hpl : p = lp
      · rw [if_pos hpl] at h
        cases h
        rw [getNode_leaf]
        by_cases hqp : q = p
        · rw [if_pos hqp]
          have hlq : lp = q := by rw [hqp, hpl]
          simp [hlq]
        · rw [if_neg hqp, getNode_leaf]
          have hlq : ¬(lp = q) := fun hc2 => hqp (hc2.symm.trans hpl.symm)
          simp [hlq]
      · rw [if_neg hpl] at h
        have h1 : commonPrefixLength lp p < lp.length :=
          cpl_lt_of_ne (by omega) (fun hcontra => hpl hcontra.symm)
        have h2 : commonPrefixLength lp p < p.length := by omega
        rw [dif_pos h1, dif_pos h2] at h
        cases h
        have hne_gets := get_cpl_ne lp p h1 h2
        have hlp_take := take_cpl_eq lp p
        simp only [branchNew]
        generalize hgen : commonPrefixLength lp p = n at h1 h2 hne_gets hlp_take ⊢
        have hpre_len : (p.take n).length = n := by
          simp only [List.length_take]
          omega
        by_cases hcq : commonPrefixLength (p.take n) q = (p.take n).length
        · have hltq : n < q.length := by omega
          have hq_take : q.take n = p.take n := by
            have := take_eq_of_cpl_eq hcq
            rw [hpre_len] at this
            exact this
          have hq_split := take_get_drop_split q n hltq
          rw [hq_take] at hq_split
          conv_lhs => rw [hq_split]
          by_cases hj2 : q.get ⟨n, hltq⟩ = p.get ⟨n, h2⟩
          · have hslot : (((Slots.empties 16).setF (lp.get ⟨n, h1⟩)
                (.leaf (lp.drop (n + 1)) lv none)).setF (p.get ⟨n, h2⟩)
                (.leaf (p.drop (n + 1)) v none)).get
                (q.get ⟨n, hltq⟩) = some (.leaf (p.drop (n + 1)) v none) := by
              rw [hj2]
              exact get_setF_self _ _ _
                (by rw [size_setF, empties_size]; exact all_get_lt _ hp)
            rw [getNode_at_some hslot, getNode_leaf]
            have hiff : q = p ↔ q.drop (n + 1) = p.drop (n + 1) :=
              eq_iff_drop_eq hltq h2 hq_take hj2
            by_cases hqp : q = p
            · rw [if_pos hqp, if_pos ((hiff.mp hqp).symm)]
            · rw [if_neg hqp,
                if_neg (fun hc2 => hqp (hiff.mpr hc2.symm)), getNode_leaf]
              have hlq : ¬(lp = q) := by
                intro hc2
                subst hc2
                exact hne_gets (hj2.symm ▸ rfl)
              simp [hlq]
          · by_cases hj1 : q.get ⟨n, hltq⟩ = lp.get ⟨n, h1⟩
            · have hslot : (((Slots.empties 16).setF (lp.get ⟨n, h1⟩)
                  (.leaf (lp.drop (n + 1)) lv none)).setF (p.get ⟨n, h2⟩)
                  (.leaf (p.drop (n + 1)) v none)).get (q.get ⟨n, hltq⟩) =
                  some (.leaf (lp.drop (n + 1)) lv none) := by
                rw [get_setF_ne _ _ _ _ (fun hc2 => hj2 hc2.symm), hj1]
                exact get_setF_self _ _ _
                  (by rw [empties_size]; exact all_get_lt _ hn)
              rw [getNode_at_some hslot, getNode_leaf]
              have hqp : ¬(q = p) := by
                intro hc2
                subst hc2
                exact hj2 rfl
              rw [if_neg hqp, getNode_leaf]
              have hiff : lp = q ↔ lp.drop (n + 1) = q.drop (n + 1) :=
                eq_iff_drop_eq h1 hltq (hlp_take.trans hq_take.symm)
                  hj1.symm
              by_cases hlq : lp = q
              · rw [if_pos hlq, if_pos (hiff.mp hlq)]
              · rw [if_neg hlq, if_neg (fun hc2 => hlq (hiff.mpr hc2))]
            · have hslot : (((Slots.empties 16).setF (lp.get ⟨n, h1⟩)
                  (.leaf (lp.drop (n + 1)) lv none)).setF (p.get ⟨n, h2⟩)
                  (.leaf (p.drop (n + 1)) v none)).get
                  (q.get ⟨n, hltq⟩) = none := by
                rw [get_setF_ne _ _ _ _ (fun hc2 => hj2 hc2.symm),
                  get_setF_ne _ _ _ _ (fun hc2 => hj1 hc2.symm)]
                exact empties_get 16 _
              rw [getNode_at_none hslot]
              have hqp : ¬(q = p) := by
                intro hc2
                subst hc2
                exact hj2 rfl
              rw [if_neg hqp, getNode_leaf]
              have hlq : ¬(lp = q) := by
                intro hc2
                subst hc2
                exact hj1 rfl
              simp [hlq]
        · rw [getNode_branch_miss _ _ hcq]
          have hcp_p : commonPrefixLength (p.take n) p =
              (p.take n).length := cpl_prefix_of_take (by rw [hpre_len])
          have hqp : ¬(q = p) := by
            intro hc2
            subst hc2
            exact hcq hcp_p
          have hcp_lp : commonPrefixLength (p.take n) lp =
              (p.take n).length :=
            cpl_prefix_of_take (by rw [hpre_len]; exact hlp_take)
          have hlq : ¬(lp = q) := by
            intro hc2
            subst hc2
            exact hcq hcp_lp
          rw [if_neg hqp, getNode_leaf]
          simp [hlq]
    | branch bp ch bh =>
      simp only [nodeDepth, Bool.and_eq_true, decide_eq_true_eq] at hd
      simp only [nodeNib, Bool.and_eq_true, decide_eq_true_eq] at hn
      rw [insertNodeF] at h
      by_cases hc : commonPrefixLength bp p = bp.length
      · rw [if_pos hc] at h
        have hlt : commonPrefixLength bp p < p.length := by omega
        rw [dif_pos hlt] at h
        have hp_take : p.take bp.length = bp := take_eq_of_cpl_eq hc
        cases hch : ch.get (p.get ⟨commonPrefixLength bp p, hlt⟩) with
        | some child =>
          simp only [hch] at h
          rw [bind_ok] at h
          obtain ⟨child', hins, heq⟩ := h
          cases heq
          generalize hgen : commonPrefixLength bp p = m at hlt hch hins ⊢
          have hm : m = bp.length := by rw [← hgen]; exact hc
          subst hm
          by_cases hcbq : commonPrefixLength bp q = bp.length
          · have hltq : bp.length < q.length := by omega
            have hq_take : q.take bp.length = bp := take_eq_of_cpl_eq hcbq
            have hq_split := take_get_drop_split q bp.length hltq
            rw [hq_take] at hq_split
            conv_lhs => rw [hq_split]
            by_cases hjq : q.get ⟨bp.length, hltq⟩ =
                p.get ⟨bp.length, hlt⟩
            · have hslot : (ch.setF (p.get ⟨bp.length, hlt⟩) child').get
                  (q.get ⟨bp.length, hltq⟩) = some child' := by
                rw [hjq]
                exact get_setF_self _ _ _
                  (by rw [hn.1.2]; exact all_get_lt _ hp)
              rw [getNode_at_some hslot]
              have hdc : nodeDepth (p.drop (bp.length + 1)).length child =
                  true := by
                simp only [List.length_drop]
                exact nodeDepthS_get ch _ _ hd.2 hch
              rw [ih (by simp only [List.length_drop]; omega) hdc
                (slotsNib_get ch _ hn.2 hch) (all_drop_lt hp)
                (by simp only [List.length_drop]; omega) hins]
              have hiff : q = p ↔
                  q.drop (bp.length + 1) = p.drop (bp.length + 1) :=
                eq_iff_drop_eq hltq hlt (hq_take.trans hp_take.symm) hjq
              have hslot2 : ch.get (q.get ⟨bp.length, hltq⟩) =
                  some child := by rw [hjq]; exact hch
              by_cases hqp : q = p
              · rw [if_pos hqp, if_pos (hiff.mp hqp)]
              · rw [if_neg hqp, if_neg (fun hc2 => hqp (hiff.mpr hc2))]
                conv_rhs => rw [hq_split]
                rw [getNode_at_some hslot2]
            · have hslot : (ch.setF (p.get ⟨bp.length, hlt⟩) child').get
                  (q.get ⟨bp.length, hltq⟩) =
                  ch.get (q.get ⟨bp.length, hltq⟩) :=
                get_setF_ne _ _ _ _ (fun hc2 => hjq hc2.symm)
              have hqp : ¬(q = p) := by
                intro hc2
                subst hc2
                exact hjq rfl
              rw [if_neg hqp]
              conv_rhs => rw [hq_split]
              cases hch2 : ch.get (q.get ⟨bp.length, hltq⟩) with
              | some c2 =>
                rw [getNode_at_some (hslot.trans hch2),
                  getNode_at_some hch2]
              | none =>
                rw [getNode_at_none (hslot.trans hch2),
                  getNode_at_none hch2]
          · rw [getNode_branch_miss _ _ hcbq]
            have hqp : ¬(q = p) := by
              intro hc2
              subst hc2
              exact hcbq hc
            rw [if_neg hqp, getNode_branch_miss _ _ hcbq]
        | none =>
          simp only [hch] at h
          cases h
          generalize hgen : commonPrefixLength bp p = m at hlt hch ⊢
          have hm : m = bp.length := by rw [← hgen]; exact hc
          subst hm
          by_cases hcbq : commonPrefixLength bp q = bp.length
          · have hltq : bp.length < q.length := by omega
            have hq_take : q.take bp.length = bp := take_eq_of_cpl_eq hcbq
            have hq_split := take_get_drop_split q bp.length hltq
            rw [hq_take] at hq_split
            conv_lhs => rw [hq_split]
            by_cases hjq : q.get ⟨bp.length, hltq⟩ =
                p.get ⟨bp.length, hlt⟩
            · have hslot : (ch.setF (p.get ⟨bp.length, hlt⟩)
                  (.leaf (p.drop (bp.length + 1)) v none)).get
                  (q.get ⟨bp.length, hltq⟩) =
                  some (.leaf (p.drop (bp.length + 1)) v none) := by
                rw [hjq]
                exact get_setF_self _ _ _
                  (by rw [hn.1.2]; exact all_get_lt _ hp)
              rw [getNode_at_some hslot, getNode_leaf]
              have hiff : q = p ↔
                  q.drop (bp.length + 1) = p.drop (bp.length + 1) :=
                eq_iff_drop_eq hltq hlt (hq_take.trans hp_take.symm) hjq
              by_cases hqp : q = p
              · rw [if_pos hqp, if_pos ((hiff.mp hqp).symm)]
              · rw [if_neg hqp,
                  if_neg (fun hc2 => hqp (hiff.mpr hc2.symm))]
                conv_rhs => rw [hq_split]
                rw [getNode_at_none (by rw [hjq]; exact hch)]
            · have hslot : (ch.setF (p.get ⟨bp.length, hlt⟩)
                  (.leaf (p.drop (bp.length + 1)) v none)).get
                  (q.get ⟨bp.length, hltq⟩) =
                  ch.get (q.get ⟨bp.length, hltq⟩) :=
                get_setF_ne _ _ _ _ (fun hc2 => hjq hc2.symm)
              have hqp : ¬(q = p) := by
                intro hc2
                subst hc2
                exact hjq rfl
              rw [if_neg hqp]
              conv_rhs => rw [hq_split]
              cases hch2 : ch.get (q.get ⟨bp.length, hltq⟩) with
              | some c2 =>
                rw [getNode_at_some (hslot.trans hch2),
                  getNode_at_some hch2]
              | none =>
                rw [getNode_at_none (hslot.trans hch2),
                  getNode_at_none hch2]
          · rw [getNode_branch_miss _ _ hcbq]
            have hqp : ¬(q = p) := by
              intro hc2
              subst hc2
              exact hcbq hc
            rw [if_neg hqp, getNode_branch_miss _ _ hcbq]
      · rw [if_neg hc] at h
        have hle := cpl_le_left bp p
        have h1 : commonPrefixLength bp p < bp.length := by omega
        have h2 : commonPrefixLength bp p < p.length := by omega
        rw [dif_pos h1, dif_pos h2] at h
        cases h
        have hne_gets := get_cpl_ne bp p h1 h2
        have hbp_take := take_cpl_eq bp p
        simp only [branchNew]
        generalize hgen : commonPrefixLength bp p = n at h1 h2 hne_gets hbp_take ⊢
        have hpre_len : (p.take n).length = n := by
          simp only [List.length_take]
          omega
        have hb_split := take_get_drop_split bp n h1
        rw [hbp_take] at hb_split
        by_cases hcq : commonPrefixLength (p.take n) q = (p.take n).length
        · have hltq : n < q.length := by omega
          have hq_take : q.take n = p.take n := by
            have := take_eq_of_cpl_eq hcq
            rw [hpre_len] at this
            exact this
          have hq_split := take_get_drop_split q n hltq
          rw [hq_take] at hq_split
          conv_lhs => rw [hq_split]
          by_cases hj2 : q.get ⟨n, hltq⟩ = p.get ⟨n, h2⟩
          · have hslot : (((Slots.empties 16).setF (bp.get ⟨n, h1⟩)
                (.branch (bp.drop (n + 1)) ch none)).setF (p.get ⟨n, h2⟩)
                (.leaf (p.drop (n + 1)) v none)).get (q.get ⟨n, hltq⟩) =
                some (.leaf (p.drop (n + 1)) v none) := by
              rw [hj2]
              exact get_setF_self _ _ _
                (by rw [size_setF, empties_size]; exact all_get_lt _ hp)
            rw [getNode_at_some hslot, getNode_leaf]
            have hiff : q = p ↔ q.drop (n + 1) = p.drop (n + 1) :=
              eq_iff_drop_eq hltq h2 hq_take hj2
            by_cases hqp : q = p
            · rw [if_pos hqp, if_pos ((hiff.mp hqp).symm)]
            · rw [if_neg hqp,
                if_neg (fun hc2 => hqp (hiff.mpr hc2.symm))]
              have hcplbq : commonPrefixLength bp q = n := by
                conv_lhs => rw [hb_split, hq_split]
                rw [cpl_append_left, commonPrefixLength,
                  if_neg (fun hc2 => hne_gets (by rw [hc2, hj2]))]
                simp [hpre_len]
              rw [getNode_branch_miss _ _
                (by rw [hcplbq]; omega)]
          · by_cases hj1 : q.get ⟨n, hltq⟩ = bp.get ⟨n, h1⟩
            · have hslot : (((Slots.empties 16).setF (bp.get ⟨n, h1⟩)
                  (.branch (bp.drop (n + 1)) ch none)).setF (p.get ⟨n, h2⟩)
                  (.leaf (p.drop (n + 1)) v none)).get (q.get ⟨n, hltq⟩) =
                  some (.branch (bp.drop (n + 1)) ch none) := by
                rw [get_setF_ne _ _ _ _ (fun hc2 => hj2 hc2.symm), hj1]
                exact get_setF_self _ _ _
                  (by rw [empties_size]; exact all_get_lt _ hn.1.1)
              rw [getNode_at_some hslot]
              have hqp : ¬(q = p) := by
                intro hc2
                subst hc2
                exact hj2 rfl
              rw [if_neg hqp]
              conv_rhs => rw [hq_split, hb_split, hj1]
              have hshift := getNode_shift
                (p.take n ++ [bp.get ⟨n, h1⟩]) (bp.drop (n + 1)) ch bh
                none (q.drop (n + 1))
              simp only [List.append_assoc, List.cons_append,
                List.nil_append] at hshift
              exact hshift.symm
            · have hslot : (((Slots.empties 16).setF (bp.get ⟨n, h1⟩)
                  (.branch (bp.drop (n + 1)) ch none)).setF (p.get ⟨n, h2⟩)
                  (.leaf (p.drop (n + 1)) v none)).get
                  (q.get ⟨n, hltq⟩) = none := by
                rw [get_setF_ne _ _ _ _ (fun hc2 => hj2 hc2.symm),
                  get_setF_ne _ _ _ _ (fun hc2 => hj1 hc2.symm)]
                exact empties_get 16 _
              rw [getNode_at_none hslot]
              have hqp : ¬(q = p) := by
                intro hc2
                subst hc2
                exact hj2 rfl
              rw [if_neg hqp]
              have hcplbq : commonPrefixLength bp q = n := by
                conv_lhs => rw [hb_split, hq_split]
                rw [cpl_append_left, commonPrefixLength,
                  if_neg (fun hc2 => hj1 hc2.symm)]
                simp [hpre_len]
              rw [getNode_branch_miss _ _ (by rw [hcplbq]; omega)]
        · rw [getNode_branch_miss _ _ hcq]
          have hcp_p : commonPrefixLength (p.take n) p =
              (p.take n).length := cpl_prefix_of_take (by rw [hpre_len])
          have hqp : ¬(q = p) := by
            intro hc2
            subst hc2
            exact hcq hcp_p
          rw [if_neg hqp]
          have hcbq : commonPrefixLength bp q ≠ bp.length := by
            intro hc2
            apply hcq
            have hqt := take_eq_of_cpl_eq hc2
            apply cpl_prefix_of_take
            rw [hpre_len]
            have hqn : q.take n = bp.take n := by
              rw [← hqt, List.take_take]
              congr 1
              omega
            rw [hqn, hbp_take]
          rw [getNode_branch_miss _ _ hcbq]
theorem get_none_of_ge_size : ∀ (ch : Slots) (i : Nat), ch.size ≤ i →
    ch.get i = none
  | .nil, _, _ => rfl
  | .consE tl, 0, h => by simp [Slots.size] at h
  | .consF t tl, 0, h => by simp [Slots.size] at h
  | .consE tl, n + 1, h => by
    simp only [Slots.size] at h
    simpa [Slots.get] using get_none_of_ge_size tl n (by omega)
  | .consF t tl, n + 1, h => by
    simp only [Slots.size] at h
    simpa [Slots.get] using get_none_of_ge_size tl n (by omega)

theorem eqS_of_pointwise : ∀ (ch ch' : Slots), ch.size = ch'.size →
    (∀ i, (ch.get i).isSome = (ch'.get i).isSome) →
    (∀ i c c', ch.get i = some c → ch'.get i = some c' →
      eqUpToCache c c' = true) →
    eqUpToCacheS ch ch' = true
  | .nil, .nil, _, _, _ => rfl
  | .nil, .consE _, hsz, _, _ => by simp [Slots.size] at hsz
  | .nil, .consF _ _, hsz, _, _ => by simp [Slots.size] at hsz
  | .consE _, .nil, hsz, _, _ => by simp [Slots.size] at hsz
  | .consF _ _, .nil, hsz, _, _ => by simp [Slots.size] at hsz
  | .consE tl, .consE tl', hsz, hiso, hrel => by
    simp only [eqUpToCacheS]
    exact eqS_of_pointwise tl tl' (by simpa [Slots.size] using hsz)
      (fun i => hiso (i + 1)) (fun i => hrel (i + 1))
  | .consE tl, .consF t' tl', _, hiso, _ => by
    have := hiso 0
    simp [Slots.get] at this
  | .consF t tl, .consE tl', _, hiso, _ => by
    have := hiso 0
    simp [Slots.get] at this
  | .consF t tl, .consF t' tl', hsz, hiso, hrel => by
    simp only [eqUpToCacheS, Bool.and_eq_true]
    exact ⟨hrel 0 t t' rfl rfl,
      eqS_of_pointwise tl tl' (by simpa [Slots.size] using hsz)
        (fun i => hiso (i + 1)) (fun i => hrel (i + 1))⟩

/-- Every depth-uniform tree satisfying I1 answers at least one full-depth
query with a value. -/
theorem exists_get_path : ∀ (m : Nat) (t : TrieNode),
    nodeDepth m t = true → nodeGe2 t = true → nodeNib t = true →
    ∃ q v, q.length = m ∧ q.all (· < 16) = true ∧
      getNode t q = .ok (some v) := by
  intro m
  induction m using Nat.strong_induction_on with
  | _ m ih =>
    intro t hd hg hn
    cases t with
    | digest dp dv dh => simp [nodeDepth] at hd
    | leaf lp v lh =>
      simp only [nodeDepth, decide_eq_true_eq] at hd
      exact ⟨lp, v, hd, hn, by rw [getNode_leaf, if_pos rfl]⟩
    | branch bp ch bh =>
      simp only [nodeDepth, Bool.and_eq_true, decide_eq_true_eq] at hd
      simp only [nodeGe2, Bool.and_eq_true, decide_eq_true_eq] at hg
      simp only [nodeNib, Bool.and_eq_true, decide_eq_true_eq] at hn
      obtain ⟨i, c, hget, hilt⟩ := exists_full_slot ch (by omega)
      obtain ⟨qc, vc, hlen, hnib, hgc⟩ := ih (m - (bp.length + 1))
        (by omega) c (nodeDepthS_get ch _ _ hd.2 hget)
        (slotsGe2_get ch _ hg.2 hget) (slotsNib_get ch _ hn.2 hget)
      refine ⟨bp ++ i :: qc, vc, ?_, ?_, ?_⟩
      · simp only [List.length_append, List.length_cons]
        omega
      · simp only [List.all_append, List.all_cons, Bool.and_eq_true,
          decide_eq_true_eq]
        exact ⟨hn.1.1, ⟨by rw [hn.1.2] at hilt; exact hilt, hnib⟩⟩
      · rw [getNode_at_some hget]
        exact hgc

theorem get_some_extends {bp q : Nibbles} {ch : Slots} {c : Option B256}
    {v : Bytes} (h : getNode (.branch bp ch c) q = .ok (some v)) :
    q.take bp.length = bp := by
  by_cases hc : commonPrefixLength bp q = bp.length
  · exact take_eq_of_cpl_eq hc
  · rw [getNode_branch_miss _ _ hc] at h
    simp at h
theorem get_take : ∀ (l : List Nat) (n i : Nat)
    (h : i < (l.take n).length) (h2 : i < l.length),
    (l.take n).get ⟨i, h⟩ = l.get ⟨i, h2⟩
  | l, 0, i, h, _ => by simp at h
  | [], n + 1, i, h, _ => by simp at h
  | x :: xs, n + 1, 0, _, _ => rfl
  | x :: xs, n + 1, i + 1, h, h2 => by
    simp only [List.take_succ_cons, List.get_eq_getElem,
      List.getElem_cons_succ]
    have := get_take xs n i (by simpa using h) (by simpa using h2)
    simpa using this

theorem get_congr : ∀ {l l' : List Nat} (h : l = l') {n : Nat}
    (h1 : n < l.length), l.get ⟨n, h1⟩ = l'.get ⟨n, h ▸ h1⟩ := by
  intro l l' h n h1
  subst h
  rfl

/-- No depth-uniform I1 leaf can be `get`-equivalent to a branch: a branch
answers two full-depth queries that differ at the branch position, a leaf
answers only one query. -/
theorem leaf_branch_sem_absurd {m : Nat} {lp : Nibbles} {lv : Bytes}
    {lh : Option B256} {bp : Nibbles} {ch : Slots} {bh : Option B256}
    (hd2 : nodeDepth m (.branch bp ch bh) = true)
    (hg2 : nodeGe2 (.branch bp ch bh) = true)
    (hn2 : nodeNib (.branch bp ch bh) = true)
    (hsem : ∀ q : Nibbles, q.length = m → q.all (· < 16) = true →
      getNode (.leaf lp lv lh) q = getNode (.branch bp ch bh) q) :
    False := by
  simp only [nodeDepth, Bool.and_eq_true, decide_eq_true_eq] at hd2
  simp only [nodeGe2, Bool.and_eq_true, decide_eq_true_eq] at hg2
  simp only [nodeNib, Bool.and_eq_true, decide_eq_true_eq] at hn2
  obtain ⟨i, j, ci, cj, hij, hgi, hgj, hilt, hjlt⟩ :=
    two_full_slots ch hg2.1
  obtain ⟨qi, vi, hli, hni, hgqi⟩ := exists_get_path (m - (bp.length + 1))
    ci (nodeDepthS_get ch _ _ hd2.2 hgi) (slotsGe2_get ch _ hg2.2 hgi)
    (slotsNib_get ch _ hn2.2 hgi)
  obtain ⟨qj, vj, hlj, hnj, hgqj⟩ := exists_get_path (m - (bp.length + 1))
    cj (nodeDepthS_get ch _ _ hd2.2 hgj) (slotsGe2_get ch _ hg2.2 hgj)
    (slotsNib_get ch _ hn2.2 hgj)
  rw [hn2.1.2] at hilt hjlt
  have hQi_len : (bp ++ i :: qi).length = m := by
    simp only [List.length_append, List.length_cons]
    omega
  have hQi_nib : (bp ++ i :: qi).all (· < 16) = true := by
    simp only [List.all_append, List.all_cons, Bool.and_eq_true,
      decide_eq_true_eq]
    exact ⟨hn2.1.1, ⟨hilt, hni⟩⟩
  have hQj_len : (bp ++ j :: qj).length = m := by
    simp only [List.length_append, List.length_cons]
    omega
  have hQj_nib : (bp ++ j :: qj).all (· < 16) = true := by
    simp only [List.all_append, List.all_cons, Bool.and_eq_true,
      decide_eq_true_eq]
    exact ⟨hn2.1.1, ⟨hjlt, hnj⟩⟩
  have hi2 := hsem (bp ++ i :: qi) hQi_len hQi_nib
  rw [getNode_leaf, getNode_at_some hgi, hgqi] at hi2
  have hlpi : lp = bp ++ i :: qi := by
    by_cases hc : lp = bp ++ i :: qi
    · exact hc
    · rw [if_neg hc] at hi2
      simp at hi2
  have hj2 := hsem (bp ++ j :: qj) hQj_len hQj_nib
  rw [getNode_leaf, getNode_at_some hgj, hgqj] at hj2
  have hlpj : lp = bp ++ j :: qj := by
    by_cases hc : lp = bp ++ j :: qj
    · exact hc
    · rw [if_neg hc] at hj2
      simp at hj2
  have heq : bp ++ i :: qi = bp ++ j :: qj := by rw [← hlpi, ← hlpj]
  have := List.append_cancel_left heq
  simp only [List.cons.injEq] at this
  exact hij this.1

/-- If two branches are `get`-equivalent on full-depth queries and the
first satisfies I1, the second branch path is no longer than the first. -/
theorem branch_path_le {m : Nat} {bp : Nibbles} {ch : Slots}
    {bh : Option B256} {bp' : Nibbles} {ch' : Slots} {bh' : Option B256}
    (hd1 : nodeDepth m (.branch bp ch bh) = true)
    (hg1 : nodeGe2 (.branch bp ch bh) = true)
    (hn1 : nodeNib (.branch bp ch bh) = true)
    (hsem : ∀ q : Nibbles, q.length = m → q.all (· < 16) = true →
      getNode (.branch bp ch bh) q = getNode (.branch bp' ch' bh') q) :
    bp'.length ≤ bp.length := by
  by_contra hcon
  have hlt : bp.length < bp'.length := by omega
  simp only [nodeDepth, Bool.and_eq_true, decide_eq_true_eq] at hd1
  simp only [nodeGe2, Bool.and_eq_true, decide_eq_true_eq] at hg1
  simp only [nodeNib, Bool.and_eq_true, decide_eq_true_eq] at hn1
  obtain ⟨i, j, ci, cj, hij, hgi, hgj, hilt, hjlt⟩ :=
    two_full_slots ch hg1.1
  obtain ⟨qi, vi, hli, hni, hgqi⟩ := exists_get_path (m - (bp.length + 1))
    ci (nodeDepthS_get ch _ _ hd1.2 hgi) (slotsGe2_get ch _ hg1.2 hgi)
    (slotsNib_get ch _ hn1.2 hgi)
  obtain ⟨qj, vj, hlj, hnj, hgqj⟩ := exists_get_path (m - (bp.length + 1))
    cj (nodeDepthS_get ch _ _ hd1.2 hgj) (slotsGe2_get ch _ hg1.2 hgj)
    (slotsNib_get ch _ hn1.2 hgj)
  rw [hn1.1.2] at hilt hjlt
  have hQi_len : (bp ++ i :: qi).length = m := by
    simp only [List.length_append, List.length_cons]
    omega
  have hQi_nib : (bp ++ i :: qi).all (· < 16) = true := by
    simp only [List.all_append, List.all_cons, Bool.and_eq_true,
      decide_eq_true_eq]
    exact ⟨hn1.1.1, ⟨hilt, hni⟩⟩
  have hQj_len : (bp ++ j :: qj).length = m := by
    simp only [List.length_append, List.length_cons]
    omega
  have hQj_nib : (bp ++ j :: qj).all (· < 16) = true := by
    simp only [List.all_append, List.all_cons, Bool.and_eq_true,
      decide_eq_true_eq]
    exact ⟨hn1.1.1, ⟨hjlt, hnj⟩⟩
  have hi2 := hsem (bp ++ i :: qi) hQi_len hQi_nib
  rw [getNode_at_some hgi, hgqi] at hi2
  have hQi_take : (bp ++ i :: qi).take bp'.length = bp' :=
    get_some_extends hi2.symm
  have hj2 := hsem (bp ++ j :: qj) hQj_len hQj_nib
  rw [getNode_at_some hgj, hgqj] at hj2
  have hQj_take : (bp ++ j :: qj).take bp'.length = bp' :=
    get_some_extends hj2.symm
  have hbi : bp.length < (bp ++ i :: qi).length := by
    simp only [List.length_append, List.length_cons]
    omega
  have hbj : bp.length < (bp ++ j :: qj).length := by
    simp only [List.length_append, List.length_cons]
    omega
  have hti : bp.length < ((bp ++ i :: qi).take bp'.length).length := by
    simp only [List.length_take]
    simp only [List.length_append, List.length_cons]
    omega
  have htj : bp.length < ((bp ++ j :: qj).take bp'.length).length := by
    simp only [List.length_take]
    simp only [List.length_append, List.length_cons]
    omega
  have e1 := get_take (bp ++ i :: qi) bp'.length bp.length hti hbi
  have e2 := get_take (bp ++ j :: qj) bp'.length bp.length htj hbj
  have c1 := get_congr hQi_take hti
  have c2 := get_congr hQj_take htj
  have hQi_at := getElem_append_cons bp i qi hbi
  have hQj_at := getElem_append_cons bp j qj hbj
  have d1 : bp'.get ⟨bp.length, hQi_take ▸ hti⟩ = i := by
    rw [← c1, e1, hQi_at]
  have d2 : bp'.get ⟨bp.length, hQj_take ▸ htj⟩ = j := by
    rw [← c2, e2, hQj_at]
  apply hij
  rw [← d1, ← d2]

/-- Extensionality: two depth-uniform trees satisfying I1 that answer
every full-depth `get` identically are equal up to hash caches. -/
theorem ext_nodes : ∀ (m : Nat) (t1 t2 : TrieNode),
    nodeDepth m t1 = true → nodeGe2 t1 = true → nodeNib t1 = true →
    nodeDepth m t2 = true → nodeGe2 t2 = true → nodeNib t2 = true →
    (∀ q : Nibbles, q.length = m → q.all (· < 16) = true →
      getNode t1 q = getNode t2 q) →
    eqUpToCache t1 t2 = true := by
  intro m
  induction m using Nat.strong_induction_on with
  | _ m ih =>
    intro t1 t2 hd1 hg1 hn1 hd2 hg2 hn2 hsem
    cases t1 with
    | digest dp dv dh => simp [nodeDepth] at hd1
    | leaf lp lv lh =>
      cases t2 with
      | digest dp' dv' dh' => simp [nodeDepth] at hd2
      | branch bp' ch' bh' =>
        exact (leaf_branch_sem_absurd hd2 hg2 hn2 hsem).elim
      | leaf lp' lv' lh' =>
        simp only [nodeDepth, decide_eq_true_eq] at hd1
        have h := hsem lp hd1 hn1
        rw [getNode_leaf, getNode_leaf, if_pos rfl] at h
        by_cases hlp : lp' = lp
        · subst hlp
          rw [if_pos rfl] at h
          simp only [Except.ok.injEq, Option.some.injEq] at h
          simp [eqUpToCache, h]
        · rw [if_neg hlp] at h
          simp at h
    | branch bp ch bh =>
      cases t2 with
      | digest dp' dv' dh' => simp [nodeDepth] at hd2
      | leaf lp' lv' lh' =>
        exact (leaf_branch_sem_absurd hd1 hg1 hn1
          (fun q hl hn => (hsem q hl hn).symm)).elim
      | branch bp' ch' bh' =>
        have hle1 : bp'.length ≤ bp.length :=
          branch_path_le hd1 hg1 hn1 hsem
        have hle2 : bp.length ≤ bp'.length :=
          branch_path_le hd2 hg2 hn2 (fun q hl hn => (hsem q hl hn).symm)
        have hbp : bp = bp' := by
          obtain ⟨Q, v, hQl, hQn, hQget⟩ := exists_get_path m
            (.branch bp ch bh) hd1 hg1 hn1
          have hQ1 : Q.take bp.length = bp := get_some_extends hQget
          have h2get : getNode (.branch bp' ch' bh') Q = .ok (some v) := by
            rw [← hsem Q hQl hQn]
            exact hQget
          have hQ2 : Q.take bp'.length = bp' := get_some_extends h2get
          have heq : bp.length = bp'.length := le_antisymm hle2 hle1
          rw [← hQ1, ← hQ2, heq]
        subst hbp
        simp only [nodeDepth, Bool.and_eq_true, decide_eq_true_eq] at hd1 hd2
        simp only [nodeGe2, Bool.and_eq_true, decide_eq_true_eq] at hg1 hg2
        simp only [nodeNib, Bool.and_eq_true, decide_eq_true_eq] at hn1 hn2
        simp only [eqUpToCache, Bool.and_eq_true, decide_eq_true_eq]
        refine ⟨trivial, ?_⟩
        apply eqS_of_pointwise ch ch' (by rw [hn1.1.2, hn2.1.2])
        · intro i
          by_cases hi : i < 16
          · cases hchi : ch.get i with
            | some c =>
              cases hchi' : ch'.get i with
              | some c' => rfl
              | none =>
                obtain ⟨qc, vc, hql, hqn, hqg⟩ := exists_get_path
                  (m - (bp.length + 1)) c
                  (nodeDepthS_get ch _ _ hd1.2 hchi)
                  (slotsGe2_get ch _ hg1.2 hchi)
                  (slotsNib_get ch _ hn1.2 hchi)
                have hsem' := hsem (bp ++ i :: qc)
                  (by simp only [List.length_append, List.length_cons]
                      omega)
                  (by simp only [List.all_append, List.all_cons,
                        Bool.and_eq_true, decide_eq_true_eq]
                      exact ⟨hn1.1.1, ⟨hi, hqn⟩⟩)
                rw [getNode_at_some hchi, hqg,
                  getNode_at_none hchi'] at hsem'
                simp at hsem'
            | none =>
              cases hchi' : ch'.get i with
              | none => rfl
              | some c' =>
                obtain ⟨qc, vc, hql, hqn, hqg⟩ := exists_get_path
                  (m - (bp.length + 1)) c'
                  (nodeDepthS_get ch' _ _ hd2.2 hchi')
                  (slotsGe2_get ch' _ hg2.2 hchi')
                  (slotsNib_get ch' _ hn2.2 hchi')
                have hsem' := hsem (bp ++ i :: qc)
                  (by simp only [List.length_append, List.length_cons]
                      omega)
                  (by simp only [List.all_append, List.all_cons,
                        Bool.and_eq_true, decide_eq_true_eq]
                      exact ⟨hn1.1.1, ⟨hi, hqn⟩⟩)
                rw [getNode_at_none hchi, getNode_at_some hchi',
                  hqg] at hsem'
                simp at hsem'
          · rw [get_none_of_ge_size ch i (by rw [hn1.1.2]; omega),
              get_none_of_ge_size ch' i (by rw [hn2.1.2]; omega)]
        · intro i c c' hgc hgc'
          have hi : i < 16 := by
            by_contra hcon
            rw [get_none_of_ge_size ch i (by rw [hn1.1.2]; omega)] at hgc
            cases hgc
          apply ih (m - (bp.length + 1)) (by omega) c c'
            (nodeDepthS_get ch _ _ hd1.2 hgc)
            (slotsGe2_get ch _ hg1.2 hgc)
            (slotsNib_get ch _ hn1.2 hgc)
            (nodeDepthS_get ch' _ _ hd2.2 hgc')
            (slotsGe2_get ch' _ hg2.2 hgc')
            (slotsNib_get ch' _ hn2.2 hgc')
          intro qc hql hqn
          have hsem' := hsem (bp ++ i :: qc)
            (by simp only [List.length_append, List.length_cons]; omega)
            (by simp only [List.all_append, List.all_cons,
                  Bool.and_eq_true, decide_eq_true_eq]
                exact ⟨hn1.1.1, ⟨hi, hqn⟩⟩)
          rw [getNode_at_some hgc, getNode_at_some hgc'] at hsem'
          exact hsem'
theorem unpack_length : ∀ key : Bytes, (unpack key).length = 2 * key.length
  | [] => rfl
  | b :: rest => by
    show (b / 16 :: b % 16 :: unpack rest).length = 2 * (b :: rest).length
    simp only [List.length_cons, unpack_length rest]
    omega

theorem unpack_inj : ∀ {k1 k2 : Bytes}, unpack k1 = unpack k2 → k1 = k2
  | [], [], _ => rfl
  | [], b :: r, h => by simp [unpack] at h
  | b :: r, [], h => by simp [unpack] at h
  | b :: r, b' :: r', h => by
    have h' : b / 16 :: b % 16 :: unpack r =
        b' / 16 :: b' % 16 :: unpack r' := h
    simp only [List.cons.injEq] at h'
    obtain ⟨hd, hm, ht⟩ := h'
    have hb : b = b' := by
      have e2 := Nat.div_add_mod b' 16
      rw [← e2, ← hd, ← hm]
      exact (Nat.div_add_mod b 16).symm
    rw [hb, unpack_inj ht]

theorem insert_cache :
    ∀ {fuel : Nat} {t : TrieNode} {p : Nibbles} {v : Bytes} {t' : TrieNode},
      insertNodeF fuel t p v = .ok t' → cacheOf t' = none := by
  intro fuel t p v t' h
  cases fuel with
  | zero => simp [insertNodeF] at h
  | succ fuel =>
    cases t with
    | leaf lp lv lh =>
      rw [insertNodeF] at h
      by_cases hpl : p = lp
      · rw [if_pos hpl] at h; cases h; rfl
      · rw [if_neg hpl] at h
        by_cases h1 : commonPrefixLength lp p < lp.length
        · rw [dif_pos h1] at h
          by_cases h2 : commonPrefixLength lp p < p.length
          · rw [dif_pos h2] at h; cases h; rfl
          · rw [dif_neg h2] at h; cases h
        · rw [dif_neg h1] at h; cases h
    | digest dp dv dh =>
      rw [insertNodeF] at h
      by_cases h1 : commonPrefixLength p dp < dp.length
      · rw [dif_pos h1] at h
        by_cases h2 : commonPrefixLength p dp < p.length
        · rw [dif_pos h2] at h; cases h; rfl
        · rw [dif_neg h2] at h; cases h
      · rw [dif_neg h1] at h; cases h
    | branch bp ch bh =>
      rw [insertNodeF] at h
      by_cases hc : commonPrefixLength bp p = bp.length
      · rw [if_pos hc] at h
        by_cases hlt : commonPrefixLength bp p < p.length
        · rw [dif_pos hlt] at h
          cases hch : ch.get (p.get ⟨commonPrefixLength bp p, hlt⟩) with
          | some child =>
            simp only [hch] at h
            rw [bind_ok] at h
            obtain ⟨child', _, heq⟩ := h
            cases heq
            rfl
          | none => simp only [hch] at h; cases h; rfl
        · rw [dif_neg hlt] at h; cases h
      · rw [if_neg hc] at h
        by_cases h1 : commonPrefixLength bp p < bp.length
        · rw [dif_pos h1] at h
          by_cases h2 : commonPrefixLength bp p < p.length
          · rw [dif_pos h2] at h; cases h; rfl
          · rw [dif_neg h2] at h; cases h
        · rw [dif_neg h1] at h; cases h

mutual

theorem depth_digestFree : ∀ (m : Nat) (t : TrieNode),
    nodeDepth m t = true → nodeDigestFree t = true
  | _, .leaf _ _ _, _ => rfl
  | _, .digest _ _ _, hd => by simp [nodeDepth] at hd
  | m, .branch p ch _, hd => by
    simp only [nodeDepth, Bool.and_eq_true] at hd
    simpa [nodeDigestFree] using depthS_digestFree _ ch hd.2

theorem depthS_digestFree : ∀ (m : Nat) (ch : Slots),
    nodeDepthS m ch = true → slotsDigestFree ch = true
  | _, .nil, _ => rfl
  | m, .consE tl, h => by
    simpa [slotsDigestFree] using
      depthS_digestFree m tl (by simpa [nodeDepthS] using h)
  | m, .consF t tl, h => by
    simp only [nodeDepthS, Bool.and_eq_true] at h
    simp [slotsDigestFree, depth_digestFree m t h.1,
      depthS_digestFree m tl h.2]

end

theorem nodeHash_congr {r₁ r₂ : TrieNode} (hdf : nodeDigestFree r₁ = true)
    (heq : eqUpToCache r₁ r₂ = true) (hc1 : cacheOf r₁ = none)
    (hc2 : cacheOf r₂ = none) : nodeHash r₁ = nodeHash r₂ := by
  cases r₁ with
  | digest _ _ _ => simp [nodeDigestFree] at hdf
  | leaf p v h =>
    cases r₂ with
    | branch _ _ _ => simp [eqUpToCache] at heq
    | digest _ _ _ => simp [eqUpToCache] at heq
    | leaf p' v' h' =>
      simp only [eqUpToCache, Bool.and_eq_true, decide_eq_true_eq] at heq
      simp only [cacheOf] at hc1 hc2
      subst hc1
      subst hc2
      simp [nodeHash, heq.1, heq.2]
  | branch p ch h =>
    cases r₂ with
    | leaf _ _ _ => simp [eqUpToCache] at heq
    | digest _ _ _ => simp [eqUpToCache] at heq
    | branch p' ch' h' =>
      simp only [eqUpToCache, Bool.and_eq_true, decide_eq_true_eq] at heq
      simp only [cacheOf] at hc1 hc2
      subst hc1
      subst hc2
      obtain ⟨hp, hs⟩ := heq
      subst hp
      have := encodeNode_congr (.branch p ch none) (.branch p ch' none)
        (by simpa [nodeDigestFree] using hdf)
        (by simp [eqUpToCache, hs])
      simp [nodeHash, this]
/-- Folding `Trie::insert` over a list of 32-byte keys from a well-formed
trie always succeeds, keeps the trie well-formed, and realizes the
reference lookup semantics `insSem` on full-depth queries. -/
theorem build_go :
    ∀ (l : List (Bytes × Bytes)) (t : Trie),
      (∀ kv ∈ l, kv.1.length = 32 ∧ kv.1.all (· < 256) = true) →
      (t.root = none ∨ ∃ r, t.root = some r ∧ nodeDepth 64 r = true ∧
        nodeGe2 r = true ∧ nodeNib r = true ∧ cacheOf r = none) →
      ∃ t', List.foldlM (fun t kv => Trie.insertB t kv.1 kv.2) t l =
          .ok t' ∧
        (t'.root = none ∨ ∃ r', t'.root = some r' ∧
          nodeDepth 64 r' = true ∧ nodeGe2 r' = true ∧
          nodeNib r' = true ∧ cacheOf r' = none) ∧
        (∀ q : Nibbles, q.length = 64 → q.all (· < 16) = true →
          t'.getPath q = match insSem l q with
            | some v => .ok (some v)
            | none => t.getPath q)
  | [], t, _, hroot => ⟨t, rfl, hroot, fun q _ _ => by simp [insSem]⟩
  | kv :: rest, t, hkeys, hroot => by
    obtain ⟨hk32, hk256⟩ := hkeys kv (by simp)
    have hklen : (unpack kv.1).length = 64 := by
      rw [unpack_length, hk32]
    have hknib := unpack_all kv.1 hk256
    rcases hroot with hnone | ⟨r, hr, hdep, hge, hnib, hcache⟩
    · have hstep : t.insertB kv.1 kv.2 =
          .ok ⟨some (.leaf (unpack kv.1) kv.2 none)⟩ := by
        rw [Trie.insertB, Trie.insertPath, hnone]
      obtain ⟨t', hfold, hwf, hsem⟩ := build_go rest
        ⟨some (.leaf (unpack kv.1) kv.2 none)⟩
        (fun kv2 hm => hkeys kv2 (by simp [hm]))
        (.inr ⟨_, rfl, by simp [nodeDepth, hklen], rfl, hknib, rfl⟩)
      refine ⟨t', ?_, hwf, ?_⟩
      · rw [List.foldlM_cons, hstep, ok_bind]
        exact hfold
      · intro q hql hqn
        rw [hsem q hql hqn]
        cases hps : insSem rest q with
        | some v => simp [insSem, hps]
        | none =>
          simp only [insSem, hps]
          by_cases hqk : unpack kv.1 = q
          · rw [if_pos hqk]
            show getNode (.leaf (unpack kv.1) kv.2 none) q = _
            rw [getNode_leaf, if_pos hqk]
          · rw [if_neg hqk]
            show getNode (.leaf (unpack kv.1) kv.2 none) q = _
            rw [getNode_leaf, if_neg hqk, Trie.getPath, hnone]
    · obtain ⟨r', hok, hdep'⟩ := @insert_total
        ((unpack kv.1).length + 1) r (unpack kv.1) kv.2
        (by omega) (by rw [hklen]; exact hdep)
      have hstep : t.insertB kv.1 kv.2 = .ok ⟨some r'⟩ := by
        have hstep0 : Except.map (fun r' => (⟨some r'⟩ : Trie))
            (insertNode r (unpack kv.1) kv.2) = .ok ⟨some r'⟩ := by
          rw [show insertNode r (unpack kv.1) kv.2 =
            insertNodeF ((unpack kv.1).length + 1) r (unpack kv.1) kv.2
            from rfl, hok]
          rfl
        rw [Trie.insertB, Trie.insertPath, hr]
        exact hstep0
      have hpres := insert_pres hok hge hnib hknib
      have hcach := insert_cache hok
      have hdep64 : nodeDepth 64 r' = true := by
        rw [← hklen]
        exact hdep'
      obtain ⟨t', hfold, hwf, hsem⟩ := build_go rest ⟨some r'⟩
        (fun kv2 hm => hkeys kv2 (by simp [hm]))
        (.inr ⟨r', rfl, hdep64, hpres.1, hpres.2, hcach⟩)
      refine ⟨t', ?_, hwf, ?_⟩
      · rw [List.foldlM_cons, hstep, ok_bind]
        exact hfold
      · intro q hql hqn
        rw [hsem q hql hqn]
        have hGI := get_insert (t := r) (q := q)
          (by omega : (unpack kv.1).length < (unpack kv.1).length + 1)
          (by rw [hklen]; exact hdep) hnib hknib
          (by omega : q.length = (unpack kv.1).length) hok
        cases hps : insSem rest q with
        | some v => simp [insSem, hps]
        | none =>
          simp only [insSem, hps]
          by_cases hqk : unpack kv.1 = q
          · rw [if_pos hqk]
            show getNode r' q = _
            rw [hGI, if_pos hqk.symm]
          · rw [if_neg hqk]
            show getNode r' q = _
            rw [hGI, if_neg (fun hc2 => hqk hc2.symm), Trie.getPath, hr]

/-- `insSem` is invariant under permutation of the list when the keys are
pairwise distinct. -/
theorem insSem_perm :
    ∀ {l₁ l₂ : List (Bytes × Bytes)}, l₁.Perm l₂ →
      (l₁.map Prod.fst).Nodup → ∀ q, insSem l₁ q = insSem l₂ q := by
  intro l₁ l₂ hperm
  induction hperm with
  | nil => intro _ _; rfl
  | cons x hp ihp =>
    intro hnd q
    simp only [List.map_cons, List.nodup_cons] at hnd
    simp only [insSem, ihp hnd.2 q]
  | swap x y l =>
    intro hnd q
    simp only [List.map_cons, List.nodup_cons, List.mem_cons] at hnd
    have hxy : y.1 ≠ x.1 := fun hc2 => hnd.1 (Or.inl hc2)
    simp only [insSem]
    cases hps : insSem l q with
    | some v => rfl
    | none =>
      by_cases hx : unpack x.1 = q
      · by_cases hy : unpack y.1 = q
        · exact absurd (unpack_inj (hy.trans hx.symm)) hxy
        · simp [hx, hy]
      · by_cases hy : unpack y.1 = q
        · simp [hx, hy]
        · simp [hx, hy]
  | trans hp1 hp2 ih1 ih2 =>
    intro hnd q
    rw [ih1 hnd q, ih2 ?_ q]
    exact ((hp1.map Prod.fst).nodup_iff).mp hnd
/-- C3: inserting any finite collection of distinct 32-byte keys with
associated (non-empty) values into the empty trie succeeds and produces
the same root hash in every insertion order. -/
theorem claim_c3 {l₁ l₂ : List (Bytes × Bytes)}
    (hperm : l₁.Perm l₂)
    (hkeys : ∀ kv ∈ l₁, kv.1.length = 32 ∧ kv.1.all (· < 256) = true ∧
      kv.2 ≠ [])
    (hnd : (l₁.map Prod.fst).Nodup) :
    ∃ t₁ t₂, buildTrie l₁ = .ok t₁ ∧ buildTrie l₂ = .ok t₂ ∧
      t₁.hash = t₂.hash := by
  have hkeys₂ : ∀ kv ∈ l₂, kv.1.length = 32 ∧ kv.1.all (· < 256) = true :=
    fun kv hm =>
      ⟨(hkeys kv (hperm.mem_iff.mpr hm)).1,
        (hkeys kv (hperm.mem_iff.mpr hm)).2.1⟩
  obtain ⟨t₁, hb₁, hwf₁, hsem₁⟩ := build_go l₁ Trie.new
    (fun kv hm => ⟨(hkeys kv hm).1, (hkeys kv hm).2.1⟩) (.inl rfl)
  obtain ⟨t₂, hb₂, hwf₂, hsem₂⟩ := build_go l₂ Trie.new hkeys₂ (.inl rfl)
  refine ⟨t₁, t₂, hb₁, hb₂, ?_⟩
  have hsem : ∀ q : Nibbles, q.length = 64 → q.all (· < 16) = true →
      t₁.getPath q = t₂.getPath q := by
    intro q hql hqn
    rw [hsem₁ q hql hqn, hsem₂ q hql hqn, insSem_perm hperm hnd q]
  rcases hwf₁ with h1 | ⟨r₁, hr₁, hd₁, hg₁, hn₁, hc₁⟩
  · rcases hwf₂ with h2 | ⟨r₂, hr₂, hd₂, hg₂, hn₂, hc₂⟩
    · rw [Trie.hash, Trie.hash, h1, h2]
    · obtain ⟨q, v, hql, hqn, hqg⟩ := exists_get_path 64 r₂ hd₂ hg₂ hn₂
      have hsemq := hsem q hql hqn
      have h1get : t₁.getPath q = .ok none := by rw [Trie.getPath, h1]
      have h2get : t₂.getPath q = getNode r₂ q := by
        rw [Trie.getPath, hr₂]
      rw [h1get, h2get, hqg] at hsemq
      simp at hsemq
  · rcases hwf₂ with h2 | ⟨r₂, hr₂, hd₂, hg₂, hn₂, hc₂⟩
    · obtain ⟨q, v, hql, hqn, hqg⟩ := exists_get_path 64 r₁ hd₁ hg₁ hn₁
      have hsemq := hsem q hql hqn
      have h1get : t₁.getPath q = getNode r₁ q := by
        rw [Trie.getPath, hr₁]
      have h2get : t₂.getPath q = .ok none := by rw [Trie.getPath, h2]
      rw [h1get, h2get, hqg] at hsemq
      simp at hsemq
    · have hsem' : ∀ q : Nibbles, q.length = 64 →
          q.all (· < 16) = true → getNode r₁ q = getNode r₂ q := by
        intro q hql hqn
        have h1get : t₁.getPath q = getNode r₁ q := by
          rw [Trie.getPath, hr₁]
        have h2get : t₂.getPath q = getNode r₂ q := by
          rw [Trie.getPath, hr₂]
        rw [← h1get, ← h2get]
        exact hsem q hql hqn
      have hequ := ext_nodes 64 r₁ r₂ hd₁ hg₁ hn₁ hd₂ hg₂ hn₂ hsem'
      have hhash := nodeHash_congr (depth_digestFree 64 r₁ hd₁) hequ hc₁
        hc₂
      rw [Trie.hash, Trie.hash, hr₁, hr₂]
      exact hhash

/-- Witness for C3: two distinct keys inserted in both orders give tries
with the same root hash. -/
theorem claim_c3_witness :
    ∃ t₁ t₂,
      buildTrie [(List.replicate 32 0, [1]),
        (0x01 :: List.replicate 31 0, [2])] = .ok t₁ ∧
      buildTrie [(0x01 :: List.replicate 31 0, [2]),
        (List.replicate 32 0, [1])] = .ok t₂ ∧
      t₁.hash = t₂.hash :=
  claim_c3
    (List.Perm.swap (0x01 :: List.replicate 31 0, [2])
      (List.replicate 32 0, [1]) [])
    (by decide) (by decide)

end Mpt
